import Mathlib

/-!
A verification of the persistent-vector library in `src/index.js`
(a Clojure-style bitmapped trie with a tail buffer).

JavaScript arrays whose slots hold either element values, child arrays,
`null`, or `undefined` (holes of `new Array(32)`) are modelled by the
inductive type `JVal`.  Operations that can throw are modelled in
`Except JErr`.  Imperative `for (level ...; level -= 5)` loops are
modelled as structurally recursive functions driven by a fuel counter;
every call site passes fuel equal to the initial `level`, which is
always enough since each iteration requires `level > 0` and consumes
one unit of fuel while `level` drops by 5.
-/

set_option maxHeartbeats 1000000

namespace PV

/-- A JavaScript runtime value as stored in the vector's arrays:
an element, a child array, `null`, or `undefined` (array holes). -/
inductive JVal (α : Type) where
  | undef : JVal α
  | null : JVal α
  | elem (a : α) : JVal α
  | arr (cells : List (JVal α)) : JVal α

/-- Errors the library can throw: the explicit bounds / empty-pop errors,
and the TypeError a JS runtime raises when spreading or indexing a
non-array value. -/
inductive JErr where
  | bounds : JErr
  | empty : JErr
  | typeError : JErr
deriving DecidableEq, Repr

/-- JS array read `a[i]`: in-range cells are returned, out-of-range
reads (and holes) give `undefined`. -/
def aGet {α : Type} (cells : List (JVal α)) (i : Nat) : JVal α :=
  cells.getD i JVal.undef

/-- JS array write `a[i] = v`: in-range writes replace the cell,
a write past the end pads with holes (`undefined`). -/
def aSet {α : Type} (cells : List (JVal α)) (i : Nat) (v : JVal α) : List (JVal α) :=
  if i < cells.length then cells.set i v
  else cells ++ List.replicate (i - cells.length) JVal.undef ++ [v]

/-- JS spread `[...x]`: succeeds on arrays, throws TypeError otherwise. -/
def spread {α : Type} : JVal α → Except JErr (List (JVal α))
  | .arr cells => .ok cells
  | _ => .error .typeError

/-- JS property read `x[i]` on an arbitrary value: arrays behave like
`aGet`, reading a property of `null`/`undefined` throws TypeError, and
property access on a primitive element gives `undefined`. -/
def jIndex {α : Type} : JVal α → Nat → Except JErr (JVal α)
  | .arr cells, i => .ok (aGet cells i)
  | .null, _ => .error .typeError
  | .undef, _ => .error .typeError
  | .elem _, _ => .ok JVal.undef

/-- Total variant of JS indexing used where the code only ever indexes
arrays (the iterator); non-arrays give `undefined`. -/
def jGetD {α : Type} : JVal α → Nat → JVal α
  | .arr cells, i => aGet cells i
  | _, _ => JVal.undef

/-- A `PVec` snapshot: `(size, shift, root, tail)` as in the source. -/
structure PVec (α : Type) where
  size : Nat
  shift : Nat
  root : JVal α
  tail : JVal α

/-- `#tailOffset()`, `(size - 1) & ~MASK`, for `size ≥ 1` (the code only
calls it after a bounds check guarantees `size ≥ 1`). -/
def tailOff (size : Nat) : Nat := (size - 1) / 32 * 32

/-- `#tailSize()`: `(size === 0) ? 0 : ((size - 1) & MASK) + 1`. -/
def tailSize (size : Nat) : Nat := if size = 0 then 0 else (size - 1) % 32 + 1

/-- The statically shared empty vector `new PVec(0, 0, [], [])`. -/
def PVec.empty {α : Type} : PVec α := ⟨0, 0, .arr [], .arr []⟩

/-- The trie descent of `get`:
`for (level = shift; level > 0; level -= SHIFT) node = node[(i >>> level) & MASK]`. -/
def getLoop {α : Type} : Nat → JVal α → Nat → Nat → Except JErr (JVal α)
  | 0, node, _, _ => .ok node
  | fuel + 1, node, i, level =>
    if 0 < level then do
      let node' ← jIndex node (i >>> level % 32)
      getLoop fuel node' i (level - 5)
    else .ok node

/-- `get(i)`.  The index is an integer so that the `i < 0` check is
meaningful; after the bounds check it is a natural number. -/
def PVec.get {α : Type} (v : PVec α) (i : Int) : Except JErr (JVal α) :=
  if (v.size : Int) ≤ i ∨ i < 0 then .error .bounds
  else
    let n := i.toNat
    if tailOff v.size ≤ n then jIndex v.tail (n % 32)
    else do
      let node ← getLoop v.shift v.root n v.shift
      jIndex node (n % 32)

/-- The path-copying loop of `set`: at each level the child on the path
is cloned (`[...child]`, TypeError on a non-array), spliced into the
cloned parent, and descended into; at the bottom the element is written. -/
def setLoop {α : Type} : Nat → List (JVal α) → Nat → α → Nat → Except JErr (List (JVal α))
  | 0, node, i, x, level =>
    if 0 < level then .ok node
    else .ok (aSet node (i % 32) (.elem x))
  | fuel + 1, node, i, x, level =>
    if 0 < level then do
      let subidx := i >>> level % 32
      let child ← spread (aGet node subidx)
      let newChild ← setLoop fuel child i x (level - 5)
      .ok (aSet node subidx (.arr newChild))
    else .ok (aSet node (i % 32) (.elem x))

/-- `set(i, val)`. -/
def PVec.set {α : Type} (v : PVec α) (i : Int) (x : α) : Except JErr (PVec α) :=
  if (v.size : Int) ≤ i ∨ i < 0 then .error .bounds
  else
    let n := i.toNat
    if tailOff v.size ≤ n then do
      let t ← spread v.tail
      .ok ⟨v.size, v.shift, v.root, .arr (aSet t (n % 32) (.elem x))⟩
    else do
      let r ← spread v.root
      let newRoot ← setLoop v.shift r n x v.shift
      .ok ⟨v.size, v.shift, .arr newRoot, v.tail⟩

/-- `#newPath(levels, tail)`: wrap `tail` in `levels / 5` fresh
`Array(32)` nodes, each holding it in slot 0. -/
def newPathLoop {α : Type} : Nat → Nat → JVal α → JVal α
  | 0, _, node => node
  | fuel + 1, level, node =>
    if 0 < level then
      newPathLoop fuel (level - 5) (.arr (aSet (List.replicate 32 JVal.undef) 0 node))
    else node

/-- `#newPath` entry point (fuel = `levels`). -/
def newPath {α : Type} (levels : Nat) (tail : JVal α) : JVal α :=
  newPathLoop levels levels tail

/-- The loop of `#pushLeaf`: descend while `level > SHIFT`; a `null`
child slot receives a fresh path, a populated child is cloned and
descended into (spreading an `undefined` hole throws TypeError); on
exit the full tail is written at `(i >>> SHIFT) & MASK`. -/
def pushLeafLoop {α : Type} : Nat → List (JVal α) → Nat → JVal α → Nat →
    Except JErr (List (JVal α))
  | 0, node, i, tail, level =>
    if 5 < level then .ok node
    else .ok (aSet node (i >>> 5 % 32) tail)
  | fuel + 1, node, i, tail, level =>
    if 5 < level then
      match aGet node (i >>> level % 32) with
      | .null => .ok (aSet node (i >>> level % 32) (newPath (level - 5) tail))
      | child => do
        let childCells ← spread child
        let newChild ← pushLeafLoop fuel childCells i tail (level - 5)
        .ok (aSet node (i >>> level % 32) (.arr newChild))
    else .ok (aSet node (i >>> 5 % 32) tail)

/-- `push(val)`. -/
def PVec.push {α : Type} (v : PVec α) (x : α) : Except JErr (PVec α) :=
  if tailSize v.size ≠ 32 then do
    let t ← spread v.tail
    .ok ⟨v.size + 1, v.shift, v.root, .arr (t ++ [.elem x])⟩
  else
    let newTail : JVal α := .arr [.elem x]
    if v.size = 32 then .ok ⟨v.size + 1, 0, v.tail, newTail⟩
    else if 1 <<< v.shift < v.size >>> 5 then
      .ok ⟨v.size + 1, v.shift + 5,
        .arr (aSet (aSet (List.replicate 32 JVal.undef) 0 v.root) 1 (newPath v.shift v.tail)),
        newTail⟩
    else do
      let r ← spread v.root
      let newRoot ← pushLeafLoop v.shift r (v.size - 1) v.tail v.shift
      .ok ⟨v.size + 1, v.shift, .arr newRoot, newTail⟩

/-- The descent of `#lowerTrie`:
`for (level = lowerShift; level > 0; level -= SHIFT) node = node[0]`. -/
def lowerLoop {α : Type} : Nat → JVal α → Nat → Except JErr (JVal α)
  | 0, node, _ => .ok node
  | fuel + 1, node, level =>
    if 0 < level then do
      let node' ← jIndex node 0
      lowerLoop fuel node' (level - 5)
    else .ok node

/-- The descent of `#popTrie` after the divergence point
(`hasDiverged`): plain walk `node = node[(nts >>> level) & MASK]`. -/
def popFollow {α : Type} : Nat → JVal α → Nat → Nat → Except JErr (JVal α)
  | 0, node, _, _ => .ok node
  | fuel + 1, node, nts, level =>
    if 0 < level then do
      let node' ← jIndex node (nts >>> level % 32)
      popFollow fuel node' nts (level - 5)
    else .ok node

/-- The loop of `#popTrie` before the divergence point: clones the
node on the path and splices; at the first level where
`(diverges >>> level) != 0` it unlinks the slot (writes `null`) and
switches to the plain descent.  Returns the rebuilt node cells and the
final `node` (the removed leaf, which becomes the new tail). -/
def popTrieLoop {α : Type} : Nat → List (JVal α) → Nat → Nat → Nat →
    Except JErr (List (JVal α) × JVal α)
  | 0, node, _, _, _ => .ok (node, .arr node)
  | fuel + 1, node, nts, diverges, level =>
    if 0 < level then
      let subIndex := nts >>> level % 32
      let child := aGet node subIndex
      if diverges >>> level ≠ 0 then do
        let leaf ← popFollow (level - 5) child nts (level - 5)
        .ok (aSet node subIndex .null, leaf)
      else do
        let childCells ← spread child
        let res ← popTrieLoop fuel childCells nts diverges (level - 5)
        .ok (aSet node subIndex (.arr res.1), res.2)
    else .ok (node, .arr node)

/-- `pop()`. -/
def PVec.pop {α : Type} (v : PVec α) : Except JErr (PVec α) :=
  if v.size = 0 then .error .empty
  else if v.size = 1 then .ok PVec.empty
  else if 0 < (v.size - 1) % 32 then do
    let t ← spread v.tail
    .ok ⟨v.size - 1, v.shift, v.root, .arr (t.take (t.length - 1))⟩
  else
    let newTrieSize := v.size - 33
    if newTrieSize = 0 then .ok ⟨32, 0, .arr [], v.root⟩
    else if newTrieSize = 1 <<< v.shift then do
      let newRoot ← jIndex v.root 0
      let child1 ← jIndex v.root 1
      let node ← lowerLoop (v.shift - 5) child1 (v.shift - 5)
      .ok ⟨v.size - 1, v.shift - 5, newRoot, node⟩
    else do
      let r ← spread v.root
      let res ← popTrieLoop v.shift r newTrieSize (newTrieSize ^^^ (newTrieSize - 1)) v.shift
      .ok ⟨v.size - 1, v.shift, .arr res.1, res.2⟩

/-- JS strict equality `!==` as used by `isEqualTo` on the values
returned by `get`.  Elements compare by the element type's equality;
distinct non-element tags never compare equal.  (On valid vectors
`get` only ever returns elements.) -/
def jStrictEq {α : Type} [DecidableEq α] : JVal α → JVal α → Bool
  | .elem a, .elem b => decide (a = b)
  | .undef, .undef => true
  | .null, .null => true
  | _, _ => false

/-- The loop of `isEqualTo`, fuelled by the number of indices left. -/
def isEqualToLoop {α : Type} [DecidableEq α] (v w : PVec α) :
    Nat → Nat → Except JErr Bool
  | 0, _ => .ok true
  | fuel + 1, i => do
    let a ← v.get i
    let b ← w.get i
    if jStrictEq a b then isEqualToLoop v w fuel (i + 1) else .ok false

/-- `isEqualTo(other)`: sizes first, then element-wise `get` comparison. -/
def PVec.isEqualTo {α : Type} [DecidableEq α] (v w : PVec α) : Except JErr Bool :=
  if v.size ≠ w.size then .ok false
  else isEqualToLoop v w v.size 0

/-- The loop of `PVec.from`: `for (elem of xs) p = p.push(elem)`,
aborting on the first thrown exception. -/
def fromLoop {α : Type} : PVec α → List α → Except JErr (PVec α)
  | v, [] => .ok v
  | v, x :: xs =>
    match v.push x with
    | .ok w => fromLoop w xs
    | .error e => .error e

/-- `PVec.from(xs)` for a finite sequence. -/
def fromList {α : Type} (xs : List α) : Except JErr (PVec α) :=
  fromLoop PVec.empty xs

/-- `PVec.from([0, 1, ..., n-1])`: the vector built by pushing the
first `n` naturals onto the empty vector. -/
def buildN (n : Nat) : Except JErr (PVec Nat) := fromList (List.range n)

/-!
## The representation invariant

`rep h l t` states that `t` is a well-formed trie node of height `h`
(leaves at height 0) storing exactly the elements of `l`, in order,
on its left-populated edge: child `j` covers the slice of `l` starting
at `j * 32 ^ h₊` (`h₊` the child capacity), children wholly past the
end of `l` hold `null` (written by `#popTrie`) or `undefined`
(never-assigned `Array(32)` holes), and nothing else.
-/

/-- Trie-node well-formedness (see module comment). -/
def rep {α : Type} : Nat → List α → JVal α → Prop
  | 0, l, t => l.length = 32 ∧ t = .arr (l.map JVal.elem)
  | h + 1, l, t =>
    ∃ cs, t = .arr cs ∧ cs.length = 32 ∧
      0 < l.length ∧ l.length ≤ 32 ^ (h + 2) ∧ 32 ∣ l.length ∧
      ∀ j : Nat, j < 32 →
        (j * 32 ^ (h + 1) < l.length →
          rep h ((l.drop (j * 32 ^ (h + 1))).take (32 ^ (h + 1))) (aGet cs j)) ∧
        (l.length ≤ j * 32 ^ (h + 1) →
          aGet cs j = JVal.null ∨ aGet cs j = JVal.undef)

/-- The abstraction relation: snapshot `v` represents the logical
sequence `l`.  The tail holds exactly the elements from `tailOff`
on; for at most 32 elements the trie is empty (`root = []`,
`shift = 0`), otherwise `root` is a trie of the minimal height whose
capacity covers the trie elements and `shift` is five times that
height. -/
structure Valid {α : Type} (v : PVec α) (l : List α) : Prop where
  hsize : v.size = l.length
  htail : v.tail = .arr ((l.drop (tailOff l.length)).map JVal.elem)
  hroot : (tailOff l.length = 0 ∧ v.shift = 0 ∧ v.root = .arr []) ∨
    (∃ h, v.shift = 5 * h ∧ rep h (l.take (tailOff l.length)) v.root ∧
      (h = 0 ∨ 32 ^ h < tailOff l.length))

/-- Total trie descent by `k` levels starting at bit offset `level`,
selecting child `(i >>> level) & MASK` at each step: the common core
of `get`'s loop, the iterator's cached path, and `#popTrie`'s
post-divergence walk. -/
def walk {α : Type} : Nat → JVal α → Nat → Nat → JVal α
  | 0, node, _, _ => node
  | k + 1, node, i, level => walk k (jGetD node (i >>> level % 32)) i (level - 5)

/-! ### Basic facts about `rep` and index arithmetic -/

theorem rep_arr {α : Type} {h : Nat} {l : List α} {t : JVal α} (hr : rep h l t) :
    ∃ cells, t = .arr cells := by
  cases h with
  | zero => exact ⟨l.map JVal.elem, hr.2⟩
  | succ h => obtain ⟨cs, ht, -⟩ := hr; exact ⟨cs, ht⟩

theorem rep_length_pos {α : Type} {h : Nat} {l : List α} {t : JVal α} (hr : rep h l t) :
    0 < l.length := by
  cases h with
  | zero => have := hr.1; omega
  | succ h => obtain ⟨cs, -, -, hpos, -⟩ := hr; exact hpos

theorem rep_length_le {α : Type} {h : Nat} {l : List α} {t : JVal α} (hr : rep h l t) :
    l.length ≤ 32 ^ (h + 1) := by
  cases h with
  | zero => exact hr.1.le
  | succ h => obtain ⟨cs, -, -, -, hle, -⟩ := hr; exact hle

theorem rep_length_dvd {α : Type} {h : Nat} {l : List α} {t : JVal α} (hr : rep h l t) :
    32 ∣ l.length := by
  cases h with
  | zero => rw [hr.1]
  | succ h => obtain ⟨cs, -, -, -, -, hdvd, -⟩ := hr; exact hdvd

theorem shiftRight_five_mul (i m : Nat) : i >>> (5 * m) = i / 32 ^ m := by
  rw [Nat.shiftRight_eq_div_pow, Nat.pow_mul]

theorem shiftLeft_five_mul (h : Nat) : 1 <<< (5 * h) = 32 ^ h := by
  rw [Nat.shiftLeft_eq, one_mul, Nat.pow_mul]

/-- Chunk-index arithmetic: with `a` a multiple of `32 * K` and
`r < 32 * K`, `(a + r) / K % 32 = r / K`. -/
theorem chunk_index {a r K : Nat} (hK : 0 < K) (ha : 32 * K ∣ a) (hr : r < 32 * K) :
    (a + r) / K % 32 = r / K := by
  obtain ⟨q, rfl⟩ := ha
  have h2 : r / K < 32 := Nat.div_lt_of_lt_mul (by omega)
  rw [show 32 * K * q + r = r + 32 * q * K by ring, Nat.add_mul_div_right _ _ hK,
    show 32 * q = q * 32 by ring, Nat.add_mul_mod_self_right]
  exact Nat.mod_eq_of_lt h2

theorem mod32_add {a r : Nat} (ha : 32 ∣ a) : (a + r) % 32 = r % 32 := by
  obtain ⟨q, rfl⟩ := ha
  omega

/-- One descent step: at a height-`h + 1` node holding the slice of
the sequence that starts at absolute offset `a`, the child selected
for absolute index `i` is child `(i - a) / 32 ^ (h + 1)`; it is
populated and represents the corresponding chunk. -/
theorem rep_child {α : Type} {h : Nat} {l : List α} {t : JVal α} {a i : Nat}
    (hr : rep (h + 1) l t) (ha : 32 ^ (h + 2) ∣ a) (hai : a ≤ i)
    (hil : i < a + l.length) :
    i >>> (5 * (h + 1)) % 32 = (i - a) / 32 ^ (h + 1) ∧
    rep h ((l.drop ((i - a) / 32 ^ (h + 1) * 32 ^ (h + 1))).take (32 ^ (h + 1)))
      (jGetD t ((i - a) / 32 ^ (h + 1))) ∧
    32 ^ (h + 1) ∣ (a + (i - a) / 32 ^ (h + 1) * 32 ^ (h + 1)) ∧
    a + (i - a) / 32 ^ (h + 1) * 32 ^ (h + 1) ≤ i ∧
    i < (a + (i - a) / 32 ^ (h + 1) * 32 ^ (h + 1)) +
      ((l.drop ((i - a) / 32 ^ (h + 1) * 32 ^ (h + 1))).take (32 ^ (h + 1))).length := by
  obtain ⟨cs, ht, hcs, hpos, hle, hdvd, hch⟩ := hr
  have hKK : 32 * 32 ^ (h + 1) = 32 ^ (h + 2) := by ring
  set K := (32:Nat) ^ (h + 1) with hK
  have hKpos : 0 < K := Nat.pos_pow_of_pos _ (by omega)
  have haK : 32 * K ∣ a := by rw [hKK]; exact ha
  have hle' : l.length ≤ 32 * K := by rw [hKK]; exact hle
  have hrlen : i - a < l.length := by omega
  have hrK : i - a < 32 * K := by omega
  have hsub : i >>> (5 * (h + 1)) % 32 = (i - a) / K := by
    rw [shiftRight_five_mul, ← hK]
    have hc := chunk_index hKpos haK hrK
    rw [show a + (i - a) = i by omega] at hc
    exact hc
  have hjlt : (i - a) / K < 32 := Nat.div_lt_of_lt_mul (by omega : i - a < K * 32)
  have hjle := Nat.div_mul_le_self (i - a) K
  have hpop : (i - a) / K * K < l.length := lt_of_le_of_lt hjle hrlen
  have hchild := (hch ((i - a) / K) hjlt).1 hpop
  have hmod : (i - a) % K < K := Nat.mod_lt _ hKpos
  have hdm : (i - a) / K * K + (i - a) % K = i - a := Nat.div_add_mod' (i - a) K
  have hlen : ((l.drop ((i - a) / K * K)).take K).length = K ⊓ (l.length - (i - a) / K * K) := by
    simp [List.length_take, List.length_drop]
  refine ⟨hsub, by rw [ht]; exact hchild, ?_, by omega, by omega⟩
  exact Dvd.dvd.add (dvd_trans (dvd_mul_left K 32) haK) (dvd_mul_left K _)

/-- Full descent: walking all `h` levels from a node that represents
`l` at absolute offset `a` reaches the leaf holding index `i`. -/
theorem walk_rep {α : Type} : ∀ (h : Nat) {l : List α} {t : JVal α} {a i : Nat},
    rep h l t → 32 ^ (h + 1) ∣ a → a ≤ i → i < a + l.length →
    walk h t i (5 * h) = .arr (((l.drop ((i - a) / 32 * 32)).take 32).map JVal.elem)
  | 0, l, t, a, i => by
    intro hr ha hai hil
    have hl32 := hr.1
    have hd : (i - a) / 32 = 0 := Nat.div_eq_of_lt (by omega)
    rw [show walk 0 t i (5 * 0) = t from rfl, hr.2, hd]
    rw [List.drop_zero, List.take_of_length_le (by omega)]
  | h + 1, l, t, a, i => by
    intro hr ha hai hil
    obtain ⟨hsub, hchild, ha', hai', hil'⟩ := rep_child hr ha hai hil
    set K := 32 ^ (h + 1) with hK
    set j := (i - a) / K with hj
    have hstep : walk (h + 1) t i (5 * (h + 1)) =
        walk h (jGetD t j) i (5 * h) := by
      rw [show walk (h + 1) t i (5 * (h + 1)) =
        walk h (jGetD t (i >>> (5 * (h + 1)) % 32)) i (5 * (h + 1) - 5) from rfl,
        hsub, show 5 * (h + 1) - 5 = 5 * h by omega]
    rw [hstep, walk_rep h hchild ha' hai' hil']
    congr 2
    -- the leaf chunk of the child slice is the leaf chunk of the whole slice
    have hKpos : 0 < K := Nat.pos_pow_of_pos _ (by omega)
    have hK32 : 32 ∣ K := by rw [hK]; exact dvd_pow_self 32 (Nat.succ_ne_zero h)
    set r := i - a with hr'
    have hrj : i - (a + j * K) = r % K := by
      rw [hj]
      have h0 := Nat.div_add_mod' r K
      omega
    have hd32 : r % K / 32 * 32 ≤ K - 32 := by
      have h1 : r % K < K := Nat.mod_lt _ hKpos
      obtain ⟨q, hq⟩ := hK32
      have h2 : r % K / 32 < q := by
        apply Nat.div_lt_of_lt_mul; omega
      have := Nat.div_mul_le_self (r % K) 32
      omega
    have hsplit : r / 32 * 32 = j * K + r % K / 32 * 32 := by
      obtain ⟨q, hq⟩ := hK32
      have e1 : j * K = j * q * 32 := by rw [hq]; ring
      have e2 : r = r % K + j * q * 32 := by
        have h0 := Nat.div_add_mod' r K
        have h1 : j * K = r / K * K := by rw [hj]
        omega
      have h3 := congrArg (fun z => z / 32) e2
      simp only at h3
      rw [Nat.add_mul_div_right _ _ (by omega : (0:Nat) < 32)] at h3
      have h4 := congrArg (fun z => z * 32) h3
      simp only at h4
      omega
    rw [hrj, hsplit, List.drop_take, List.take_take, List.drop_drop]
    congr 1
    omega
  termination_by h => h

/-- Reading slot `i & MASK` of the leaf reached for absolute index `i`
yields element `i - a` of the represented slice. -/
theorem leaf_read {α : Type} {l : List α} {a i : Nat} (ha : 32 ∣ a) (hai : a ≤ i)
    (hlt : i - a < l.length) :
    aGet (((l.drop ((i - a) / 32 * 32)).take 32).map JVal.elem) (i % 32) =
      .elem (l.get ⟨i - a, hlt⟩) := by
  have hmod : i % 32 = (i - a) % 32 := by
    have := mod32_add (r := i - a) ha
    rw [show a + (i - a) = i by omega] at this
    rw [this]
  have hdm := Nat.div_add_mod' (i - a) 32
  have hm32 : (i - a) % 32 < 32 := Nat.mod_lt _ (by omega)
  have hlen : (((l.drop ((i - a) / 32 * 32)).take 32).map (JVal.elem (α := α))).length =
      32 ⊓ (l.length - (i - a) / 32 * 32) := by
    simp [List.length_take, List.length_drop]
  have hidx : (i - a) % 32 < (((l.drop ((i - a) / 32 * 32)).take 32).map
      (JVal.elem (α := α))).length := by omega
  rw [hmod, aGet, List.getD_eq_getElem _ _ hidx, List.getElem_map, List.getElem_take,
    List.getElem_drop, List.get_eq_getElem]
  have hb1 : (i - a) / 32 * 32 + (i - a) % 32 < l.length := by omega
  have e1 : l[(i - a) / 32 * 32 + (i - a) % 32]? = l[(i - a)]? := by rw [hdm]
  rw [List.getElem?_eq_getElem hb1, List.getElem?_eq_getElem hlt] at e1
  exact congrArg JVal.elem (Option.some.inj e1)

/-- `get`'s descent loop agrees with the total descent `walk` on a
well-formed trie (with any sufficient fuel). -/
theorem getLoop_eq_walk {α : Type} :
    ∀ (h : Nat) {fuel : Nat} {l : List α} {t : JVal α} {a i : Nat},
    h ≤ fuel → rep h l t → 32 ^ (h + 1) ∣ a → a ≤ i → i < a + l.length →
    getLoop fuel t i (5 * h) = .ok (walk h t i (5 * h))
  | 0, fuel, l, t, a, i => by
    intro hf hr ha hai hil
    cases fuel <;> simp [getLoop, walk]
  | h + 1, fuel, l, t, a, i => by
    intro hf hr ha hai hil
    obtain ⟨f, rfl⟩ : ∃ f, fuel = f + 1 := ⟨fuel - 1, by omega⟩
    obtain ⟨hsub, hchild, ha', hai', hil'⟩ := rep_child hr ha hai hil
    obtain ⟨cs, ht⟩ := rep_arr hr
    have hjx : jIndex t (i >>> (5 * (h + 1)) % 32) =
        .ok (jGetD t ((i - a) / 32 ^ (h + 1))) := by
      rw [hsub, ht]; rfl
    have hrec := getLoop_eq_walk h (by omega : h ≤ f) hchild ha' hai' hil'
    have hstep : walk (h + 1) t i (5 * (h + 1)) =
        walk h (jGetD t ((i - a) / 32 ^ (h + 1))) i (5 * h) := by
      rw [show walk (h + 1) t i (5 * (h + 1)) =
        walk h (jGetD t (i >>> (5 * (h + 1)) % 32)) i (5 * (h + 1) - 5) from rfl,
        hsub, show 5 * (h + 1) - 5 = 5 * h by omega]
    rw [hstep, ← hrec]
    show (if 0 < 5 * (h + 1) then _ else _) = _
    rw [if_pos (by omega : 0 < 5 * (h + 1))]
    rw [show (5 * (h + 1) - 5) = 5 * h by omega]
    rw [hjx]
    rfl
  termination_by h => h

/-- Arithmetic facts about `tailOff` for a non-empty vector. -/
theorem tailOff_spec {n : Nat} (hn : 0 < n) :
    32 ∣ tailOff n ∧ tailOff n ≤ n - 1 ∧ n ≤ tailOff n + 32 := by
  unfold tailOff
  refine ⟨dvd_mul_left 32 _, ?_, ?_⟩
  · have := Nat.div_mul_le_self (n - 1) 32
    omega
  · have := Nat.div_add_mod' (n - 1) 32
    have : (n - 1) % 32 < 32 := Nat.mod_lt _ (by omega)
    omega

/-- Functional correctness of `get`: on a valid snapshot, every
in-bounds read returns the corresponding element of the abstract
sequence. -/
theorem get_ok {α : Type} {v : PVec α} {l : List α} (hv : Valid v l) {i : Nat}
    (hi : i < l.length) :
    v.get (i : Int) = .ok (.elem (l.get ⟨i, hi⟩)) := by
  obtain ⟨hsize, htail, hroot⟩ := hv
  have hnot : ¬ ((v.size : Int) ≤ (i : Int) ∨ (i : Int) < 0) := by
    push_neg
    constructor
    · rw [hsize]; exact_mod_cast hi
    · exact Int.natCast_nonneg i
  rw [PVec.get, if_neg hnot]
  simp only [Int.toNat_natCast]
  have hpos : 0 < l.length := by omega
  obtain ⟨hdvd, hle1, hge⟩ := tailOff_spec hpos
  by_cases hcase : tailOff v.size ≤ i
  · rw [if_pos hcase, htail]
    rw [hsize] at hcase
    have hlt : i - tailOff l.length < (l.drop (tailOff l.length)).length := by
      rw [List.length_drop]; omega
    have hrd : (i - tailOff l.length) / 32 = 0 := Nat.div_eq_of_lt (by omega)
    have := leaf_read (l := l.drop (tailOff l.length)) (a := tailOff l.length)
      hdvd hcase (by rw [List.length_drop]; omega)
    rw [hrd] at this
    simp only [Nat.zero_mul, List.drop_zero] at this
    rw [List.take_of_length_le (by rw [List.length_drop]; omega)] at this
    rw [jIndex, this]
    have hb2 : tailOff l.length + (i - tailOff l.length) < l.length := by omega
    have e2 : l[tailOff l.length + (i - tailOff l.length)]? = l[i]? := by
      rw [show tailOff l.length + (i - tailOff l.length) = i by omega]
    rw [List.getElem?_eq_getElem hb2, List.getElem?_eq_getElem hi] at e2
    rw [List.get_eq_getElem, List.get_eq_getElem, List.getElem_drop]
    exact congrArg (fun z => Except.ok (JVal.elem z)) (Option.some.inj e2)
  · rw [if_neg hcase]
    rw [hsize] at hcase
    push_neg at hcase
    rcases hroot with ⟨hz, -, -⟩ | ⟨h, hshift, hrep, -⟩
    · omega
    · have hbound : i < 0 + (l.take (tailOff l.length)).length := by
        rw [List.length_take]; omega
      have hloop := @getLoop_eq_walk α h (5 * h) _ _ _ i (by omega) hrep
        (dvd_zero _) (Nat.zero_le i) hbound
      have hwalk := walk_rep h hrep (dvd_zero _) (Nat.zero_le i) hbound
      rw [hshift, hloop]
      show jIndex (walk h v.root i (5 * h)) (i % 32) = _
      rw [hwalk]
      have hlr := leaf_read (l := l.take (tailOff l.length)) (a := 0)
        (Dvd.intro 0 rfl) (Nat.zero_le i) (by rw [List.length_take]; omega)
      simp only [Nat.sub_zero] at hlr
      simp only [Nat.sub_zero]
      rw [jIndex, hlr]
      congr 1
      rw [List.get_eq_getElem, List.get_eq_getElem, List.getElem_take]

/-! ### Helpers about JS array reads/writes and `List.set` slices -/

theorem length_aSet {α : Type} {cells : List (JVal α)} {j : Nat} {v : JVal α}
    (h : j < cells.length) : (aSet cells j v).length = cells.length := by
  rw [aSet, if_pos h, List.length_set]

theorem aGet_aSet_self {α : Type} {cells : List (JVal α)} {j : Nat} {v : JVal α}
    (h : j < cells.length) : aGet (aSet cells j v) j = v := by
  rw [aSet, if_pos h, aGet, List.getD_eq_getElem _ _ (by rw [List.length_set]; exact h),
    List.getElem_set, if_pos rfl]

theorem aGet_aSet_ne {α : Type} {cells : List (JVal α)} {j j' : Nat} {v : JVal α}
    (h : j ≠ j') : aGet (aSet cells j v) j' = aGet cells j' := by
  rw [aSet, aGet, aGet, List.getD_eq_getElem?_getD, List.getD_eq_getElem?_getD]
  by_cases hj : j < cells.length
  · rw [if_pos hj, List.getElem?_set_ne h]
  · rw [if_neg hj, List.append_assoc, List.getElem?_append]
    by_cases hj' : j' < cells.length
    · rw [if_pos hj']
    · rw [if_neg hj', List.getElem?_eq_none (by omega : cells.length ≤ j'),
        List.getElem?_append, List.length_replicate]
      by_cases hin : j' - cells.length < j - cells.length
      · rw [if_pos hin, List.getElem?_replicate, if_pos hin]; rfl
      · rw [if_neg hin, List.getElem?_eq_none
          (by simp only [List.length_cons, List.length_nil]; omega)]

theorem take_set_ge {α : Type} {l : List α} {m n : Nat} {x : α} (h : n ≤ m) :
    (l.set m x).take n = l.take n := by
  apply List.ext_getElem
  · rw [List.length_take, List.length_take, List.length_set]
  · intro idx h1 h2
    rw [List.getElem_take, List.getElem_take, List.getElem_set,
      if_neg (by rw [List.length_take, List.length_set] at h1; omega)]

theorem take_set_lt {α : Type} {l : List α} {m n : Nat} {x : α} (h : m < n) :
    (l.set m x).take n = (l.take n).set m x := by
  apply List.ext_getElem
  · simp [List.length_take, List.length_set]
  · intro idx h1 h2
    rw [List.getElem_take, List.getElem_set, List.getElem_set]
    by_cases hm : m = idx
    · rw [if_pos hm, if_pos hm]
    · rw [if_neg hm, if_neg hm, List.getElem_take]

/-- The path-copying loop of `set` preserves the representation:
writing `x` at absolute index `i` of a node holding the slice at
offset `a` succeeds and yields a node holding the updated slice. -/
theorem setLoop_rep {α : Type} :
    ∀ (h : Nat) {fuel : Nat} {l : List α} {cells : List (JVal α)} {a i : Nat} (x : α),
    h ≤ fuel → rep h l (.arr cells) → 32 ^ (h + 1) ∣ a → a ≤ i → i < a + l.length →
    ∃ newCells, setLoop fuel cells i x (5 * h) = .ok newCells ∧
      rep h (l.set (i - a) x) (.arr newCells)
  | 0, fuel, l, cells, a, i => by
    intro x hf hr ha hai hil
    have hl32 := hr.1
    have hcells : cells = l.map JVal.elem := by
      have := hr.2
      exact (JVal.arr.injEq _ _).mp this
    have hlt : i - a < 32 := by omega
    have hmod : i % 32 = i - a := by
      have := mod32_add (r := i - a) ha
      rw [show a + (i - a) = i by omega] at this
      rw [this, Nat.mod_eq_of_lt hlt]
    refine ⟨aSet cells (i % 32) (.elem x), by cases fuel <;> simp [setLoop], ?_⟩
    have hset : aSet cells (i % 32) (.elem x) = (l.set (i - a) x).map JVal.elem := by
      rw [aSet, if_pos (by rw [hcells, List.length_map]; omega), hcells, hmod,
        List.set_map]
    rw [hset]
    exact ⟨by rw [List.length_set]; exact hl32, rfl⟩
  | h + 1, fuel, l, cells, a, i => by
    intro x hf hr ha hai hil
    obtain ⟨f, rfl⟩ : ∃ f, fuel = f + 1 := ⟨fuel - 1, by omega⟩
    obtain ⟨hsub, hchild, ha', hai', hil'⟩ := rep_child hr ha hai hil
    obtain ⟨cs, hteq, hcs, hpos, hle, hdvd, hch⟩ := hr
    have hcells : cs = cells := by exact ((JVal.arr.injEq _ _).mp hteq).symm
    subst hcells
    -- after `subst` the node's cell list is named `cs`
    set K := (32:Nat) ^ (h + 1) with hK
    set j := (i - a) / K with hj
    have hjlt : j < 32 := by
      rw [hj]
      exact Nat.div_lt_of_lt_mul (by
        have : l.length ≤ 32 ^ (h + 2) := hle
        have hKK : (32:Nat) ^ (h + 2) = K * 32 := by rw [hK]; ring
        omega)
    obtain ⟨childCells, hchildeq⟩ := rep_arr hchild
    have hchild' : rep h ((l.drop (j * K)).take K) (.arr childCells) := by
      rw [← hchildeq]; exact hchild
    obtain ⟨newChild, hloop, hrepNew⟩ :=
      setLoop_rep h (x := x) (by omega : h ≤ f) hchild' ha' hai' hil'
    have hgetj : aGet cs j = .arr childCells := by
      have hjg : jGetD (JVal.arr cs) j = aGet cs j := rfl
      rw [← hjg, hchildeq]
    refine ⟨aSet cs j (.arr newChild), ?_, ?_⟩
    · show (if 0 < 5 * (h + 1) then _ else _) = _
      rw [if_pos (by omega : 0 < 5 * (h + 1))]
      show (do
        let child ← spread (aGet cs (i >>> (5 * (h + 1)) % 32))
        let nc ← setLoop f child i x (5 * (h + 1) - 5)
        Except.ok (aSet cs (i >>> (5 * (h + 1)) % 32) (.arr nc))) = _
      rw [hsub, hgetj, spread, show 5 * (h + 1) - 5 = 5 * h by omega]
      show (do
        let nc ← setLoop f childCells i x (5 * h)
        Except.ok (aSet cs j (.arr nc))) = _
      rw [hloop]
      rfl
    · -- the updated node still represents the updated slice
      have hjK : j * K ≤ i - a := by rw [hj]; exact Nat.div_mul_le_self _ _
      have hiaK : i - a < j * K + K := by
        rw [hj]; exact Nat.lt_div_mul_add (Nat.pos_pow_of_pos _ (by omega))
      have heq2 : i - (a + j * K) = i - a - j * K := by omega
      rw [heq2] at hrepNew
      have hb : j * K = j * 32 ^ (h + 1) := rfl
      refine ⟨cs.set j (.arr newChild), ?_, ?_, ?_, ?_, ?_, ?_⟩
      · rw [aSet, if_pos (by omega)]
      · rw [List.length_set]; exact hcs
      · rw [List.length_set]; omega
      · rw [List.length_set]; omega
      · rw [List.length_set]; exact hdvd
      · intro j' hj'
        rw [show cs.set j (JVal.arr newChild) = aSet cs j (.arr newChild) by
          rw [aSet, if_pos (by omega)]]
        by_cases hjj : j = j'
        · subst hjj
          rw [aGet_aSet_self (by omega)]
          constructor
          · intro hpop
            have hchunk : ((l.set (i - a) x).drop (j * 32 ^ (h + 1))).take (32 ^ (h + 1)) =
                ((l.drop (j * 32 ^ (h + 1))).take (32 ^ (h + 1))).set
                  (i - a - j * 32 ^ (h + 1)) x := by
              rw [List.drop_set, if_neg (by omega), take_set_lt (by omega)]
            rw [hchunk]
            exact hrepNew
          · intro habs
            rw [List.length_set] at habs
            omega
        · rw [aGet_aSet_ne hjj]
          have hthis := hch j' hj'
          constructor
          · intro hpop
            rw [List.length_set] at hpop
            have hold := hthis.1 hpop
            have hchunk : ((l.set (i - a) x).drop (j' * 32 ^ (h + 1))).take (32 ^ (h + 1)) =
                (l.drop (j' * 32 ^ (h + 1))).take (32 ^ (h + 1)) := by
              rcases Nat.lt_or_ge j' j with hlt | hge
              · have hstep : j' * 32 ^ (h + 1) + 32 ^ (h + 1) ≤ j * 32 ^ (h + 1) := by
                  calc j' * 32 ^ (h + 1) + 32 ^ (h + 1) = (j' + 1) * 32 ^ (h + 1) := by ring
                    _ ≤ j * 32 ^ (h + 1) := Nat.mul_le_mul_right _ (by omega)
                rw [List.drop_set, if_neg (by omega), take_set_ge (by omega)]
              · have hgt : j < j' := by omega
                have hstep : j * 32 ^ (h + 1) + 32 ^ (h + 1) ≤ j' * 32 ^ (h + 1) := by
                  calc j * 32 ^ (h + 1) + 32 ^ (h + 1) = (j + 1) * 32 ^ (h + 1) := by ring
                    _ ≤ j' * 32 ^ (h + 1) := Nat.mul_le_mul_right _ (by omega)
                rw [List.drop_set, if_pos (by omega)]
            rw [hchunk]
            exact hold
          · intro habs
            rw [List.length_set] at habs
            exact hthis.2 habs

/-- Functional correctness of `set`: on a valid snapshot an in-bounds
write succeeds and represents the pointwise-updated sequence. -/
theorem set_ok {α : Type} {v : PVec α} {l : List α} (hv : Valid v l) {i : Nat}
    (hi : i < l.length) (x : α) :
    ∃ w, v.set (i : Int) x = .ok w ∧ Valid w (l.set i x) := by
  obtain ⟨hsize, htail, hroot⟩ := hv
  have hnot : ¬ ((v.size : Int) ≤ (i : Int) ∨ (i : Int) < 0) := by
    push_neg
    exact ⟨by rw [hsize]; exact_mod_cast hi, Int.natCast_nonneg i⟩
  rw [PVec.set, if_neg hnot]
  simp only [Int.toNat_natCast]
  have hpos : 0 < l.length := by omega
  obtain ⟨hdvd, hle1, hge⟩ := tailOff_spec hpos
  have hlenset : (l.set i x).length = l.length := List.length_set l i x
  by_cases hcase : tailOff v.size ≤ i
  · rw [if_pos hcase, htail]
    rw [hsize] at hcase
    rw [spread]
    refine ⟨_, rfl, ?_, ?_, ?_⟩
    · show v.size = (l.set i x).length
      rw [hlenset, hsize]
    · show JVal.arr _ = _
      congr 1
      have hin : i - tailOff l.length < ((l.drop (tailOff l.length)).map
          (JVal.elem (α := α))).length := by
        rw [List.length_map, List.length_drop]; omega
      have hmod : i % 32 = i - tailOff l.length := by
        have hm := mod32_add (r := i - tailOff l.length) hdvd
        rw [show tailOff l.length + (i - tailOff l.length) = i by omega] at hm
        rw [hm, Nat.mod_eq_of_lt (by omega)]
      rw [aSet, if_pos (by rw [List.length_map, List.length_drop]; omega), hmod]
      have hel : (JVal.elem x) = (JVal.elem (α := α)) x := rfl
      rw [hel, List.set_map, hlenset]
      congr 1
      rw [List.drop_set, if_neg (by omega)]
    · rw [hlenset]
      rcases hroot with ⟨hz, hs, hr⟩ | ⟨h, hs, hr, ht⟩
      · exact Or.inl ⟨hz, hs, hr⟩
      · exact Or.inr ⟨h, hs, by rw [take_set_ge hcase]; exact hr, ht⟩
  · rw [if_neg hcase]
    rw [hsize] at hcase
    push_neg at hcase
    rcases hroot with ⟨hz, -, -⟩ | ⟨h, hshift, hrep, ht⟩
    · omega
    · obtain ⟨cells, hcells⟩ := rep_arr hrep
      rw [hcells] at hrep
      obtain ⟨newCells, hloop, hrepNew⟩ := @setLoop_rep α h (5 * h) _ _ _ i x
        (by omega) hrep (dvd_zero _) (Nat.zero_le i)
        (by rw [List.length_take]; omega)
      simp only [Nat.sub_zero] at hrepNew
      rw [hcells, spread, hshift]
      refine ⟨⟨v.size, 5 * h, .arr newCells, v.tail⟩, ?_, ?_, ?_, ?_⟩
      · show (do
          let newRoot ← setLoop (5 * h) cells i x (5 * h)
          Except.ok (⟨v.size, 5 * h, .arr newRoot, v.tail⟩ : PVec α)) = _
        rw [hloop]
        rfl
      · show v.size = (l.set i x).length
        rw [hlenset, hsize]
      · show v.tail = _
        rw [htail, hlenset, List.drop_set, if_pos (by omega)]
      · rw [hlenset]
        refine Or.inr ⟨h, rfl, ?_, ht⟩
        show rep h ((l.set i x).take (tailOff l.length)) (JVal.arr newCells)
        rw [take_set_lt (by omega)]
        exact hrepNew

/-! ### Helpers for `push` -/

theorem chunk_append_left {α : Type} {c tl : List α} {d k : Nat} (h : d + k ≤ c.length) :
    ((c ++ tl).drop d).take k = (c.drop d).take k := by
  rw [List.drop_append_of_le_length (by omega), List.take_append_of_le_length
    (by rw [List.length_drop]; omega)]

theorem tailOff_succ_ne {n : Nat} (h : n % 32 ≠ 0 ∨ n = 0) : tailOff (n + 1) = tailOff n := by
  unfold tailOff
  rcases h with h | h
  · omega
  · subst h; rfl

theorem tailOff_succ_full {n : Nat} (h1 : n % 32 = 0) (h2 : 0 < n) : tailOff (n + 1) = n := by
  unfold tailOff
  omega

theorem tailOff_full {n : Nat} (h1 : n % 32 = 0) (h2 : 0 < n) : tailOff n = n - 32 := by
  unfold tailOff
  omega

theorem tailSize_eq_32 {n : Nat} : tailSize n = 32 ↔ (n % 32 = 0 ∧ 0 < n) := by
  unfold tailSize
  by_cases h : n = 0
  · subst h; simp
  · rw [if_neg h]; omega

/-- One wrapping step of `#newPath` raises the represented height by
one, keeping the content in the leftmost slot. -/
theorem rep_wrap {α : Type} {h0 : Nat} {tl : List α} {node : JVal α}
    (hr : rep h0 tl node) (hlen : tl.length = 32) :
    rep (h0 + 1) tl (.arr (aSet (List.replicate 32 JVal.undef) 0 node)) := by
  have hK : (32:Nat) ≤ 32 ^ (h0 + 1) := Nat.le_self_pow (by omega) 32
  have hK2 : (32:Nat) ≤ 32 ^ (h0 + 2) := Nat.le_self_pow (by omega) 32
  refine ⟨(List.replicate 32 JVal.undef).set 0 node, ?_, ?_, ?_, ?_, ?_, ?_⟩
  · rw [aSet, if_pos (by rw [List.length_replicate]; omega)]
  · rw [List.length_set, List.length_replicate]
  · omega
  · omega
  · rw [hlen]
  · intro j hj
    constructor
    · intro hpop
      have hj0 : j = 0 := by
        by_contra hne
        have : 32 ^ (h0 + 1) ≤ j * 32 ^ (h0 + 1) := Nat.le_mul_of_pos_left _ (by omega)
        omega
      subst hj0
      rw [show aGet ((List.replicate 32 JVal.undef).set 0 node) 0 = node by
        rw [aGet, List.getD_eq_getElem _ _ (by simp), List.getElem_set,
          if_pos rfl]]
      simp only [Nat.zero_mul, List.drop_zero]
      rw [List.take_of_length_le (by omega)]
      exact hr
    · intro habs
      have hj0 : j ≠ 0 := by
        intro h0eq
        subst h0eq
        simp only [Nat.zero_mul] at habs
        omega
      right
      rw [aGet, List.getD_eq_getElem _ _ (by simp; omega), List.getElem_set,
        if_neg (by omega), List.getElem_replicate]

theorem newPathLoop_fuel_inv {α : Type} :
    ∀ (h : Nat) {f g : Nat} (node : JVal α), h ≤ f → h ≤ g →
    newPathLoop f (5 * h) node = newPathLoop g (5 * h) node
  | 0, f, g, node => by
    intro hf hg
    cases f <;> cases g <;> simp [newPathLoop]
  | h + 1, f, g, node => by
    intro hf hg
    obtain ⟨f', rfl⟩ : ∃ f', f = f' + 1 := ⟨f - 1, by omega⟩
    obtain ⟨g', rfl⟩ : ∃ g', g = g' + 1 := ⟨g - 1, by omega⟩
    show (if 0 < 5 * (h + 1) then _ else _) = (if 0 < 5 * (h + 1) then _ else _)
    rw [if_pos (by omega : 0 < 5 * (h + 1))]
    rw [show 5 * (h + 1) - 5 = 5 * h by omega]
    exact newPathLoop_fuel_inv h _ (by omega) (by omega)
  termination_by h => h

/-- `#newPath(5 * k, leaf)` builds a left spine representing the leaf's
elements `k` levels up. -/
theorem newPathLoop_rep {α : Type} :
    ∀ (k : Nat) {f h0 : Nat} {tl : List α} {node : JVal α},
    k ≤ f → rep h0 tl node → tl.length = 32 →
    rep (h0 + k) tl (newPathLoop f (5 * k) node)
  | 0, f, h0, tl, node => by
    intro hf hr hlen
    cases f <;> simpa [newPathLoop] using hr
  | k + 1, f, h0, tl, node => by
    intro hf hr hlen
    obtain ⟨f', rfl⟩ : ∃ f', f = f' + 1 := ⟨f - 1, by omega⟩
    show rep (h0 + (k + 1)) tl (if 0 < 5 * (k + 1) then _ else _)
    rw [if_pos (by omega : 0 < 5 * (k + 1))]
    rw [show 5 * (k + 1) - 5 = 5 * k by omega]
    have hstep := rep_wrap hr hlen
    have hrec := newPathLoop_rep k (f := f') (by omega) hstep hlen
    rw [show h0 + 1 + k = h0 + (k + 1) by omega] at hrec
    exact hrec
  termination_by k => k

/-- `#newPath` applied to a full leaf array. -/
theorem newPath_rep {α : Type} (h : Nat) {tl : List α} (hlen : tl.length = 32) :
    rep h tl (newPath (5 * h) (.arr (tl.map JVal.elem))) := by
  have hr0 : rep 0 tl (.arr (tl.map JVal.elem)) := ⟨hlen, rfl⟩
  have hrec := newPathLoop_rep h (f := 5 * h) (by omega) hr0 hlen
  simpa [newPath] using hrec

/-- Rebuilding one child slot of a well-formed node: if the new cell
value is correct for the new slice and every other slot's chunk is
unchanged, the updated node represents the new slice. -/
theorem rep_update {α : Type} {h : Nat} {l l2 : List α} {cells : List (JVal α)}
    {j : Nat} {v : JVal α}
    (hrep : rep (h + 1) l (.arr cells)) (hj : j < 32)
    (hpos : 0 < l2.length) (hle : l2.length ≤ 32 ^ (h + 2)) (hdvd : 32 ∣ l2.length)
    (hsame : ∀ j2, j2 < 32 → j2 ≠ j →
      ((j2 * 32 ^ (h + 1) < l2.length ↔ j2 * 32 ^ (h + 1) < l.length) ∧
       (j2 * 32 ^ (h + 1) < l2.length →
         (l2.drop (j2 * 32 ^ (h + 1))).take (32 ^ (h + 1)) =
         (l.drop (j2 * 32 ^ (h + 1))).take (32 ^ (h + 1)))))
    (hnew : (j * 32 ^ (h + 1) < l2.length →
        rep h ((l2.drop (j * 32 ^ (h + 1))).take (32 ^ (h + 1))) v) ∧
      (l2.length ≤ j * 32 ^ (h + 1) → v = .null ∨ v = .undef)) :
    rep (h + 1) l2 (.arr (aSet cells j v)) := by
  obtain ⟨cs, hteq, hcs, -, -, -, hch⟩ := hrep
  have hcseq : cs = cells := (JVal.arr.injEq _ _).mp hteq.symm
  subst hcseq
  have hset : aSet cs j v = cs.set j v := by rw [aSet, if_pos (by omega)]
  refine ⟨cs.set j v, by rw [hset], by rw [List.length_set]; exact hcs,
    hpos, hle, hdvd, ?_⟩
  intro j2 hj2
  rw [hset.symm]
  by_cases hjj : j2 = j
  · subst hjj
    rw [aGet_aSet_self (by omega)]
    exact hnew
  · rw [aGet_aSet_ne (fun hx => hjj hx.symm)]
    obtain ⟨hiff, hchunk⟩ := hsame j2 hj2 hjj
    have hold := hch j2 hj2
    constructor
    · intro hpop2
      rw [hchunk hpop2]
      exact hold.1 (hiff.mp hpop2)
    · intro habs
      exact hold.2 (by
        have := hiff
        omega)

/-- If the `#pushLeaf` loop succeeds on a node of height `h ≥ 1`
holding slice `c` (offset `a`, with room for one more leaf), the
result holds `c ++ tl`.  (It fails with a TypeError exactly when the
next slot on the path is an `undefined` hole rather than `null`.) -/
theorem pushLeafLoop_rep {α : Type} :
    ∀ (h : Nat) {f : Nat} {c tl : List α} {cells newCells : List (JVal α)} {a i : Nat},
    1 ≤ h → h ≤ f → rep h c (.arr cells) → 32 ^ (h + 1) ∣ a →
    i = a + c.length + 31 →
    c.length + 32 ≤ 32 ^ (h + 1) → tl.length = 32 →
    pushLeafLoop f cells i (.arr (tl.map JVal.elem)) (5 * h) = .ok newCells →
    rep h (c ++ tl) (.arr newCells)
  | 0, f, c, tl, cells, newCells, a, i => by
    intro h1
    omega
  | 1, f, c, tl, cells, newCells, a, i => by
    intro h1 hf hrep ha hieq hroom hlen hsucc
    have e1 : (32:Nat) ^ (0 + 1) = 32 := by norm_num
    have e2 : (32:Nat) ^ (0 + 2) = 1024 := by norm_num
    have e3 : (32:Nat) ^ (1 + 1) = 1024 := by norm_num
    have hdvd := rep_length_dvd hrep
    have hm32 : c.length / 32 * 32 = c.length := Nat.div_mul_cancel hdvd
    have hroom2 : c.length + 32 ≤ 1024 := by rw [e3] at hroom; exact hroom
    have ha2 : (1024:Nat) ∣ a := by rw [e3] at ha; exact ha
    have hsub : i >>> 5 % 32 = c.length / 32 := by
      have h5 : i >>> 5 = i / 32 := by
        have h51 := shiftRight_five_mul i 1
        norm_num at h51
        exact h51
      rw [h5, hieq, show a + c.length + 31 = a + (c.length + 31) by omega]
      have hc := chunk_index (a := a) (r := c.length + 31) (K := 32)
        (by omega) (by omega) (by omega)
      rw [hc]
      omega
    have hout : pushLeafLoop f cells i (.arr (tl.map JVal.elem)) (5 * 1) =
        .ok (aSet cells (i >>> 5 % 32) (.arr (tl.map JVal.elem))) := by
      cases f with
      | zero => omega
      | succ f2 =>
        show (if 5 < 5 * 1 then _ else _) = _
        rw [if_neg (by omega)]
    rw [hout] at hsucc
    injection hsucc with hnc
    rw [← hnc, hsub]
    apply rep_update hrep (by omega)
    · rw [List.length_append]; omega
    · rw [List.length_append, hlen, e2]; omega
    · rw [List.length_append, hlen]; omega
    · intro j2 hj2 hne
      simp only [e1, List.length_append, hlen]
      constructor
      · omega
      · intro hpop2
        rcases Nat.lt_or_ge j2 (c.length / 32) with hlt | hge
        · exact chunk_append_left (by omega)
        · exact absurd hpop2 (by omega)
    · simp only [e1, List.length_append, hlen]
      constructor
      · intro hpop2
        rw [hm32, List.drop_left, List.take_of_length_le (by omega)]
        exact ⟨hlen, rfl⟩
      · intro habs
        exact absurd habs (by omega)
  | h + 2, f, c, tl, cells, newCells, a, i => by
    intro h1 hf hrep ha hieq hroom hlen hsucc
    obtain ⟨f2, rfl⟩ : ∃ f2, f = f2 + 1 := ⟨f - 1, by omega⟩
    have hdvd := rep_length_dvd hrep
    have hpos := rep_length_pos hrep
    have hKpos : 0 < (32:Nat) ^ (h + 2) := Nat.pos_pow_of_pos _ (by omega)
    have hKK : 32 * (32:Nat) ^ (h + 2) = 32 ^ (h + 3) := by ring
    have hK32 : (32:Nat) ∣ 32 ^ (h + 2) := dvd_pow_self 32 (by omega)
    have haK : 32 * 32 ^ (h + 2) ∣ a := by rw [hKK]; exact ha
    have hroomK : c.length + 32 ≤ 32 * 32 ^ (h + 2) := by rw [hKK]; exact hroom
    have hdm := Nat.div_add_mod' c.length (32 ^ (h + 2))
    have hmodlt : c.length % 32 ^ (h + 2) < 32 ^ (h + 2) := Nat.mod_lt _ hKpos
    have hmod_dvd : 32 ∣ c.length % 32 ^ (h + 2) := by
      have hd1 : 32 ∣ c.length / 32 ^ (h + 2) * 32 ^ (h + 2) :=
        Dvd.dvd.mul_left hK32 _
      have := Nat.dvd_sub' hdvd hd1
      rw [show c.length - c.length / 32 ^ (h + 2) * 32 ^ (h + 2) =
        c.length % 32 ^ (h + 2) by omega] at this
      exact this
    have hmod_le : c.length % 32 ^ (h + 2) ≤ 32 ^ (h + 2) - 32 := by omega
    have hsub : i >>> (5 * (h + 2)) % 32 = c.length / 32 ^ (h + 2) := by
      rw [shiftRight_five_mul, hieq, show a + c.length + 31 = a + (c.length + 31) by omega]
      rw [chunk_index hKpos haK (by omega)]
      rw [show c.length + 31 = c.length / 32 ^ (h + 2) * 32 ^ (h + 2) +
        (c.length % 32 ^ (h + 2) + 31) by omega]
      rw [Nat.add_comm, Nat.add_mul_div_right _ _ hKpos,
        Nat.div_eq_of_lt (by omega)]
      omega
    have hjle := Nat.div_mul_le_self c.length (32 ^ (h + 2))
    have hjlt : c.length / 32 ^ (h + 2) < 32 :=
      Nat.div_lt_of_lt_mul (by omega : c.length < 32 ^ (h + 2) * 32)
    have hch := hrep
    obtain ⟨cs, hteq, hcs, -, hle, -, hkids⟩ := hch
    have hcseq : cs = cells := (JVal.arr.injEq _ _).mp hteq.symm
    subst hcseq
    have ebr1 : (32:Nat) ^ (h + 1 + 1) = 32 ^ (h + 2) := by ring
    have ebr2 : (32:Nat) ^ (h + 1 + 2) = 32 * 32 ^ (h + 2) := by ring
    have h32K : (32:Nat) ≤ 32 ^ (h + 2) := Nat.le_self_pow (by omega) 32
    simp only [ebr1, ebr2] at hkids hle
    have hjKlt : c.length / 32 ^ (h + 2) * 32 ^ (h + 2) + 32 ^ (h + 2) ≤
        32 * 32 ^ (h + 2) := by
      have hx : (c.length / 32 ^ (h + 2) + 1) * 32 ^ (h + 2) ≤ 32 * 32 ^ (h + 2) :=
        Nat.mul_le_mul_right _ (by omega)
      have hy : (c.length / 32 ^ (h + 2) + 1) * 32 ^ (h + 2) =
        c.length / 32 ^ (h + 2) * 32 ^ (h + 2) + 32 ^ (h + 2) := by ring
      omega
    by_cases hs : c.length % 32 ^ (h + 2) = 0
    · -- the target slot is past the populated prefix: it must be unset
      have hjx : c.length ≤ c.length / 32 ^ (h + 2) * 32 ^ (h + 2) := by omega
      have hunset := (hkids (c.length / 32 ^ (h + 2)) hjlt).2 hjx
      rcases hunset with hnull | hundef
      · -- `null`: a fresh path is spliced in
        have hred : pushLeafLoop (f2 + 1) cs i (.arr (tl.map JVal.elem)) (5 * (h + 2)) =
            .ok (aSet cs (c.length / 32 ^ (h + 2))
              (newPath (5 * (h + 2) - 5) (.arr (tl.map JVal.elem)))) := by
          show (if 5 < 5 * (h + 2) then _ else _) = _
          rw [if_pos (by omega), hsub, hnull]
        rw [hred] at hsucc
        injection hsucc with hnc
        rw [← hnc]
        have hpath : rep (h + 1) tl
            (newPath (5 * (h + 2) - 5) (.arr (tl.map JVal.elem))) := by
          rw [show 5 * (h + 2) - 5 = 5 * (h + 1) by omega]
          exact newPath_rep (h + 1) hlen
        apply rep_update hrep hjlt
        · rw [List.length_append]; omega
        · rw [List.length_append, hlen, ebr2]; omega
        · rw [List.length_append, hlen]; omega
        · intro j2 hj2 hne
          rw [List.length_append, hlen]
          simp only [ebr1]
          rcases Nat.lt_or_ge j2 (c.length / 32 ^ (h + 2)) with hlt | hge
          · have hstep : j2 * 32 ^ (h + 2) + 32 ^ (h + 2) ≤
                c.length / 32 ^ (h + 2) * 32 ^ (h + 2) := by
              have hx : (j2 + 1) * 32 ^ (h + 2) ≤
                  c.length / 32 ^ (h + 2) * 32 ^ (h + 2) :=
                Nat.mul_le_mul_right _ (by omega)
              have hy : (j2 + 1) * 32 ^ (h + 2) = j2 * 32 ^ (h + 2) + 32 ^ (h + 2) := by
                ring
              omega
            exact ⟨by omega, fun _ => chunk_append_left (by omega)⟩
          · have hgt : c.length / 32 ^ (h + 2) < j2 := by omega
            have hstep : c.length / 32 ^ (h + 2) * 32 ^ (h + 2) + 32 ^ (h + 2) ≤
                j2 * 32 ^ (h + 2) := by
              have hx : (c.length / 32 ^ (h + 2) + 1) * 32 ^ (h + 2) ≤
                  j2 * 32 ^ (h + 2) := Nat.mul_le_mul_right _ (by omega)
              have hy : (c.length / 32 ^ (h + 2) + 1) * 32 ^ (h + 2) =
                c.length / 32 ^ (h + 2) * 32 ^ (h + 2) + 32 ^ (h + 2) := by ring
              omega
            exact ⟨by omega, fun hpop2 => absurd hpop2 (by omega)⟩
        · rw [List.length_append, hlen]
          simp only [ebr1]
          constructor
          · intro hpop2
            rw [show c.length / 32 ^ (h + 2) * 32 ^ (h + 2) = c.length by omega]
            rw [List.drop_left, List.take_of_length_le (by omega)]
            exact hpath
          · intro habs
            exact absurd habs (by omega)
      · -- `undefined`: spreading it throws, contradicting success
        have hred : pushLeafLoop (f2 + 1) cs i (.arr (tl.map JVal.elem)) (5 * (h + 2)) =
            .error .typeError := by
          show (if 5 < 5 * (h + 2) then _ else _) = _
          rw [if_pos (by omega), hsub, hundef]
          rfl
        rw [hred] at hsucc
        exact Except.noConfusion hsucc
    · -- the target slot holds a partial subtree: descend into it
      have hpopj : c.length / 32 ^ (h + 2) * 32 ^ (h + 2) < c.length := by omega
      have hchild := (hkids (c.length / 32 ^ (h + 2)) hjlt).1 hpopj
      obtain ⟨childCells, hget⟩ := rep_arr hchild
      rw [hget] at hchild
      have hchlen : ((c.drop (c.length / 32 ^ (h + 2) * 32 ^ (h + 2))).take
          (32 ^ (h + 2))).length = c.length % 32 ^ (h + 2) := by
        rw [List.length_take, List.length_drop]
        omega
      have hred : pushLeafLoop (f2 + 1) cs i (.arr (tl.map JVal.elem)) (5 * (h + 2)) =
          (do
            let newChild ← pushLeafLoop f2 childCells i (.arr (tl.map JVal.elem))
              (5 * (h + 2) - 5)
            Except.ok (aSet cs (c.length / 32 ^ (h + 2)) (.arr newChild))) := by
        show (if 5 < 5 * (h + 2) then _ else _) = _
        rw [if_pos (by omega), hsub, hget]
        rfl
      rw [hred] at hsucc
      cases hr2 : pushLeafLoop f2 childCells i (.arr (tl.map JVal.elem))
          (5 * (h + 2) - 5) with
      | error e =>
        rw [hr2] at hsucc
        exact Except.noConfusion hsucc
      | ok nc =>
        rw [hr2] at hsucc
        have hsucc2 : Except.ok (aSet cs (c.length / 32 ^ (h + 2)) (.arr nc)) =
            Except.ok newCells := hsucc
        injection hsucc2 with hnc
        rw [show 5 * (h + 2) - 5 = 5 * (h + 1) by omega] at hr2
        have hih := pushLeafLoop_rep (h + 1)
          (a := a + c.length / 32 ^ (h + 2) * 32 ^ (h + 2))
          (by omega) (by omega : h + 1 ≤ f2) hchild
          (by
            rw [ebr1]
            exact Dvd.dvd.add (dvd_trans (pow_dvd_pow 32 (by omega)) ha)
              (dvd_mul_left _ _))
          (by rw [hchlen]; omega)
          (by rw [hchlen, ebr1]; omega) hlen hr2
        rw [← hnc]
        apply rep_update hrep hjlt
        · rw [List.length_append]; omega
        · rw [List.length_append, hlen, ebr2]; omega
        · rw [List.length_append, hlen]; omega
        · intro j2 hj2 hne
          rw [List.length_append, hlen]
          simp only [ebr1]
          rcases Nat.lt_or_ge j2 (c.length / 32 ^ (h + 2)) with hlt | hge
          · have hstep : j2 * 32 ^ (h + 2) + 32 ^ (h + 2) ≤
                c.length / 32 ^ (h + 2) * 32 ^ (h + 2) := by
              have hx : (j2 + 1) * 32 ^ (h + 2) ≤
                  c.length / 32 ^ (h + 2) * 32 ^ (h + 2) :=
                Nat.mul_le_mul_right _ (by omega)
              have hy : (j2 + 1) * 32 ^ (h + 2) = j2 * 32 ^ (h + 2) + 32 ^ (h + 2) := by
                ring
              omega
            exact ⟨by omega, fun _ => chunk_append_left (by omega)⟩
          · have hgt : c.length / 32 ^ (h + 2) < j2 := by omega
            have hstep : c.length / 32 ^ (h + 2) * 32 ^ (h + 2) + 32 ^ (h + 2) ≤
                j2 * 32 ^ (h + 2) := by
              have hx : (c.length / 32 ^ (h + 2) + 1) * 32 ^ (h + 2) ≤
                  j2 * 32 ^ (h + 2) := Nat.mul_le_mul_right _ (by omega)
              have hy : (c.length / 32 ^ (h + 2) + 1) * 32 ^ (h + 2) =
                c.length / 32 ^ (h + 2) * 32 ^ (h + 2) + 32 ^ (h + 2) := by ring
              omega
            exact ⟨by omega, fun hpop2 => absurd hpop2 (by omega)⟩
        · rw [List.length_append, hlen]
          simp only [ebr1]
          constructor
          · intro hpop2
            have hdropapp : (c ++ tl).drop (c.length / 32 ^ (h + 2) * 32 ^ (h + 2)) =
                c.drop (c.length / 32 ^ (h + 2) * 32 ^ (h + 2)) ++ tl :=
              List.drop_append_of_le_length (by omega)
            have hdlen : (c.drop (c.length / 32 ^ (h + 2) * 32 ^ (h + 2))).length =
                c.length % 32 ^ (h + 2) := by
              rw [List.length_drop]; omega
            rw [hdropapp, List.take_of_length_le (by
              rw [List.length_append, hdlen, hlen]; omega)]
            have hchtake : (c.drop (c.length / 32 ^ (h + 2) * 32 ^ (h + 2))).take
                (32 ^ (h + 2)) = c.drop (c.length / 32 ^ (h + 2) * 32 ^ (h + 2)) :=
              List.take_of_length_le (by rw [hdlen]; omega)
            rw [hchtake] at hih
            exact hih
          · intro habs
            exact absurd habs (by omega)
  termination_by h => h


/-- Functional correctness of `push` on the success path: when `push`
returns a snapshot (it throws only when `#pushLeaf` meets an
`undefined` hole), that snapshot represents `l ++ [x]`. -/
theorem push_ok {α : Type} {v : PVec α} {l : List α} (hv : Valid v l) {x : α} {w : PVec α}
    (hw : v.push x = .ok w) : Valid w (l ++ [x]) := by
  obtain ⟨hsize, htail, hroot⟩ := hv
  have hlapp : (l ++ [x]).length = l.length + 1 := by
    rw [List.length_append, List.length_cons, List.length_nil]
  simp only [PVec.push] at hw
  by_cases hts : tailSize v.size ≠ 32
  · -- room in the tail
    rw [if_pos hts, htail, spread] at hw
    have hw2 : Except.ok (⟨v.size + 1, v.shift, v.root,
        .arr ((l.drop (tailOff l.length)).map JVal.elem ++ [JVal.elem x])⟩ : PVec α) =
        Except.ok w := hw
    injection hw2 with hweq
    subst hweq
    have hts2 : l.length % 32 ≠ 0 ∨ l.length = 0 := by
      by_contra hcon
      push_neg at hcon
      exact hts (by rw [hsize]; exact tailSize_eq_32.mpr ⟨hcon.1, by omega⟩)
    have htoff : tailOff (l.length + 1) = tailOff l.length := tailOff_succ_ne hts2
    have htle : tailOff l.length ≤ l.length := by
      unfold tailOff
      have := Nat.div_mul_le_self (l.length - 1) 32
      omega
    refine ⟨?_, ?_, ?_⟩
    · show v.size + 1 = _
      rw [hlapp, hsize]
    · show JVal.arr _ = _
      rw [hlapp, htoff, List.drop_append_of_le_length htle, List.map_append]
      rfl
    · rw [hlapp, htoff, List.take_append_of_le_length htle]
      exact hroot
  · push_neg at hts
    rw [if_neg (by simpa using hts)] at hw
    rw [hsize, tailSize_eq_32] at hts
    by_cases hn32 : v.size = 32
    · -- the full tail becomes the root leaf
      rw [if_pos hn32] at hw
      injection hw with hweq
      subst hweq
      have hl32 : l.length = 32 := by rw [← hsize, hn32]
      have ht0 : tailOff l.length = 0 := by rw [hl32]; rfl
      refine ⟨?_, ?_, ?_⟩
      · show v.size + 1 = _
        rw [hlapp, hsize]
      · show JVal.arr [JVal.elem x] = _
        rw [hlapp, hl32]
        rw [show tailOff (32 + 1) = 32 by rfl, show (32:Nat) = l.length by omega,
          List.drop_left]
        rfl
      · refine Or.inr ⟨0, rfl, ?_, Or.inl rfl⟩
        rw [hlapp, hl32, show tailOff (32 + 1) = 32 by rfl,
          show (32:Nat) = l.length by omega, List.take_left]
        refine ⟨by omega, ?_⟩
        rw [htail, ht0, List.drop_zero]
    · rw [if_neg hn32] at hw
      have hn64 : 64 ≤ l.length := by
        rw [← hsize]
        have h1 : v.size % 32 = 0 := by rw [hsize]; exact hts.1
        have h2 : 0 < v.size := by rw [hsize]; exact hts.2
        omega
      have htoff : tailOff l.length = l.length - 32 := tailOff_full hts.1 hts.2
      rcases hroot with ⟨hz, -, -⟩ | ⟨h, hshift, hrep, htight⟩
      · rw [htoff] at hz; omega
      · rw [htoff] at hrep htight
        have htrlen : (l.take (l.length - 32)).length = l.length - 32 := by
          rw [List.length_take]; omega
        have htrle := rep_length_le hrep
        rw [htrlen] at htrle
        have hgrw : (1 <<< v.shift < v.size >>> 5) ↔ (32 ^ h < l.length / 32) := by
          rw [hshift, shiftLeft_five_mul, hsize, show (5:Nat) = 5 * 1 by norm_num,
            shiftRight_five_mul, pow_one]
        have htoffp : tailOff (l.length + 1) = l.length :=
          tailOff_succ_full hts.1 hts.2
        have hdrlen : (l.drop (l.length - 32)).length = 32 := by
          rw [List.length_drop]; omega
        by_cases hgrow : 1 <<< v.shift < v.size >>> 5
        · -- grow the trie by one level
          rw [if_pos hgrow] at hw
          injection hw with hweq
          subst hweq
          have hfull : l.length - 32 = 32 ^ (h + 1) := by
            rw [hgrw] at hgrow
            have h1 : 32 ^ h + 1 ≤ l.length / 32 := hgrow
            have h2 : (32 ^ h + 1) * 32 ≤ l.length / 32 * 32 :=
              Nat.mul_le_mul_right _ h1
            have h3 : l.length / 32 * 32 = l.length := Nat.div_mul_cancel (by omega)
            have h4 : (32 ^ h + 1) * 32 = 32 ^ (h + 1) + 32 := by ring
            omega
          have hsetrw : aSet (aSet (List.replicate 32 JVal.undef) 0 v.root) 1
              (newPath v.shift v.tail) =
              ((List.replicate 32 JVal.undef).set 0 v.root).set 1
                (newPath v.shift v.tail) := by
            rw [show aSet (List.replicate 32 (JVal.undef : JVal α)) 0 v.root =
              (List.replicate 32 JVal.undef).set 0 v.root from by
                rw [aSet, if_pos (by simp)]]
            rw [aSet, if_pos (by rw [List.length_set, List.length_replicate]; omega)]
          refine ⟨?_, ?_, ?_⟩
          · show v.size + 1 = _
            rw [hlapp, hsize]
          · show JVal.arr [JVal.elem x] = _
            rw [hlapp, htoffp, show l.length = l.length + 0 by omega,
              show l ++ [x] = l ++ [x] from rfl]
            rw [show (l ++ [x]).drop (l.length + 0) = [x] from by
              rw [Nat.add_zero, show l.length = l.length from rfl]
              have := List.drop_left l [x]
              exact this]
            rfl
          · refine Or.inr ⟨h + 1, by show v.shift + 5 = 5 * (h + 1); rw [hshift]; ring,
              ?_, Or.inr (by
              rw [hlapp, htoffp]
              omega)⟩
            rw [hlapp, htoffp, List.take_left]
            rw [hsetrw]
            have hK32 : (32:Nat) ≤ 32 ^ (h + 1) := Nat.le_self_pow (by omega) 32
            refine ⟨_, rfl, by rw [List.length_set, List.length_set,
              List.length_replicate], by omega, ?_, by omega, ?_⟩
            · have hx : (32:Nat) ^ (h + 1) + 32 ≤ 32 ^ (h + 2) := by
                have h1 : (32:Nat) ^ (h + 2) = 32 * 32 ^ (h + 1) := by ring
                omega
              omega
            · intro j hj
              by_cases hj0 : j = 0
              · subst hj0
                constructor
                · intro hpop
                  rw [show aGet (((List.replicate 32 JVal.undef).set 0 v.root).set 1
                      (newPath v.shift v.tail)) 0 = v.root from by
                    rw [aGet, List.getD_eq_getElem _ _ (by simp), List.getElem_set,
                      if_neg (by omega), List.getElem_set, if_pos rfl]]
                  simp only [Nat.zero_mul, List.drop_zero]
                  rw [show (32:Nat) ^ (h + 1) = l.length - 32 from hfull.symm]
                  exact hrep
                · intro habs
                  simp only [Nat.zero_mul] at habs
                  omega
              · by_cases hj1 : j = 1
                · subst hj1
                  constructor
                  · intro hpop
                    rw [show aGet (((List.replicate 32 JVal.undef).set 0 v.root).set 1
                        (newPath v.shift v.tail)) 1 = newPath v.shift v.tail from by
                      rw [aGet, List.getD_eq_getElem _ _ (by simp), List.getElem_set,
                        if_pos rfl]]
                    rw [show (1:Nat) * 32 ^ (h + 1) = l.length - 32 by
                      rw [one_mul]; omega]
                    rw [List.take_of_length_le (by rw [hdrlen]; omega)]
                    rw [hshift, htail, htoff]
                    exact newPath_rep h hdrlen
                  · intro habs
                    rw [one_mul] at habs
                    omega
                · constructor
                  · intro hpop
                    exfalso
                    have h2j : 2 ≤ j := by omega
                    have hx : 2 * 32 ^ (h + 1) ≤ j * 32 ^ (h + 1) :=
                      Nat.mul_le_mul_right _ h2j
                    have hy : (2:Nat) * 32 ^ (h + 1) = 32 ^ (h + 1) + 32 ^ (h + 1) := by
                      ring
                    have hK33 : (32:Nat) ≤ 32 ^ (h + 1) := Nat.le_self_pow (by omega) 32
                    omega
                  · intro habs
                    right
                    rw [aGet, List.getD_eq_getElem _ _ (by simp; omega),
                      List.getElem_set, if_neg (by omega), List.getElem_set,
                      if_neg (by omega), List.getElem_replicate]
        · -- absorb the tail into the existing trie
          rw [if_neg hgrow] at hw
          have hnotfull : l.length ≤ 32 ^ (h + 1) := by
            rw [hgrw] at hgrow
            push_neg at hgrow
            have h1 : l.length / 32 * 32 ≤ 32 ^ h * 32 := Nat.mul_le_mul_right _ hgrow
            have h2 : l.length / 32 * 32 = l.length := Nat.div_mul_cancel (by omega)
            have h3 : (32:Nat) ^ h * 32 = 32 ^ (h + 1) := by ring
            omega
          have hge1 : 1 ≤ h := by
            by_contra hc
            have h0 : h = 0 := by omega
            subst h0
            have he : (32:Nat) ^ (0 + 1) = 32 := by norm_num
            omega
          obtain ⟨cells, hcells⟩ := rep_arr hrep
          rw [hcells] at hrep
          rw [hcells, spread, hshift, htail, htoff] at hw
          have hw2 : (do
              let newRoot ← pushLeafLoop (5 * h) cells (v.size - 1)
                (.arr ((l.drop (l.length - 32)).map JVal.elem)) (5 * h)
              Except.ok (⟨v.size + 1, 5 * h, .arr newRoot, .arr [JVal.elem x]⟩ :
                PVec α)) = Except.ok w := hw
          cases hpl : pushLeafLoop (5 * h) cells (v.size - 1)
              (.arr ((l.drop (l.length - 32)).map JVal.elem)) (5 * h) with
          | error e =>
            rw [hpl] at hw2
            exact Except.noConfusion hw2
          | ok nr =>
            rw [hpl] at hw2
            have hw3 : Except.ok (⟨v.size + 1, 5 * h, .arr nr, .arr [JVal.elem x]⟩ :
                PVec α) = Except.ok w := hw2
            injection hw3 with hweq
            subst hweq
            have hrep2 := pushLeafLoop_rep h (a := 0) hge1 (by omega) hrep
              (dvd_zero _) (by rw [htrlen, hsize]; omega)
              (by rw [htrlen]; omega) hdrlen hpl
            rw [List.take_append_drop] at hrep2
            refine ⟨?_, ?_, ?_⟩
            · show v.size + 1 = _
              rw [hlapp, hsize]
            · show JVal.arr [JVal.elem x] = _
              rw [hlapp, htoffp]
              rw [show (l ++ [x]).drop l.length = [x] from List.drop_left l [x]]
              rfl
            · refine Or.inr ⟨h, rfl, ?_, Or.inr (by
                rw [hlapp, htoffp]
                rcases htight with h0 | ht1
                · omega
                · omega)⟩
              rw [hlapp, htoffp, List.take_left]
              exact hrep2


/-! ### Helpers for `pop` -/

/-- For `A = 2^t * q` with `q` odd, `A ^^^ (A - 1)` is the mask of the
low `t + 1` bits (the arithmetic behind `#popTrie`'s `diverges`). -/
theorem xor_pred {t q : Nat} (hodd : ¬ 2 ∣ q) (hq : 0 < q) :
    (2 ^ t * q) ^^^ (2 ^ t * q - 1) = 2 ^ (t + 1) - 1 := by
  have hA : 0 < 2 ^ t * q := Nat.mul_pos (Nat.pos_pow_of_pos _ (by omega)) hq
  apply Nat.eq_of_testBit_eq
  intro i
  rw [Nat.testBit_xor, Nat.testBit_two_pow_sub_one]
  rcases Nat.lt_trichotomy i t with hit | hit | hit
  · -- below the lowest set bit: 0 xor 1
    have hsplit : (2:Nat) ^ t = 2 ^ i * 2 ^ (t - i) := by
      rw [← pow_add]
      congr 1
      omega
    have hdivA : 2 ^ t * q / 2 ^ i = 2 ^ (t - i) * q := by
      rw [hsplit, Nat.mul_assoc, Nat.mul_div_cancel_left _ (Nat.pos_pow_of_pos _ (by omega))]
    have hdivB : (2 ^ t * q - 1) / 2 ^ i = 2 ^ (t - i) * q - 1 := by
      rw [hsplit, Nat.mul_assoc]
      have hY : 0 < 2 ^ (t - i) * q := Nat.mul_pos (Nat.pos_pow_of_pos _ (by omega)) hq
      have hd : 0 < (2:Nat) ^ i := Nat.pos_pow_of_pos _ (by omega)
      have hexp : 2 ^ i * (2 ^ (t - i) * q) - 1 =
          2 ^ i * (2 ^ (t - i) * q - 1) + (2 ^ i - 1) := by
        have := Nat.mul_le_mul_left (2 ^ i) hY
        rw [Nat.mul_sub_one]
        omega
      rw [hexp, Nat.mul_comm, Nat.add_comm, Nat.add_mul_div_right _ _ hd,
        Nat.div_eq_of_lt (by omega), Nat.zero_add]
    rw [Nat.testBit_to_div_mod, Nat.testBit_to_div_mod, hdivA, hdivB]
    have hev : 2 ^ (t - i) * q % 2 = 0 := by
      have : (2:Nat) ^ (t - i) * q = 2 * (2 ^ (t - i - 1) * q) := by
        rw [show (2:Nat) ^ (t - i) = 2 * 2 ^ (t - i - 1) by
          rw [← pow_succ']
          congr 1
          omega]
        ring
      omega
    have hodd2 : (2 ^ (t - i) * q - 1) % 2 = 1 := by
      have hY : 0 < 2 ^ (t - i) * q := Nat.mul_pos (Nat.pos_pow_of_pos _ (by omega)) hq
      omega
    have hd1 : decide (2 ^ (t - i) * q % 2 = 1) = false := by simp [hev]
    have hd2 : decide ((2 ^ (t - i) * q - 1) % 2 = 1) = true := by simp [hodd2]
    rw [hd1, hd2]
    simp only [Bool.false_xor]
    symm
    rw [decide_eq_true_iff]
    omega
  · -- exactly the lowest set bit: 1 xor 0
    subst hit
    have hdivA : 2 ^ i * q / 2 ^ i = q :=
      Nat.mul_div_cancel_left _ (Nat.pos_pow_of_pos _ (by omega))
    have hdivB : (2 ^ i * q - 1) / 2 ^ i = q - 1 := by
      have hd : 0 < (2:Nat) ^ i := Nat.pos_pow_of_pos _ (by omega)
      have hexp : 2 ^ i * q - 1 = 2 ^ i * (q - 1) + (2 ^ i - 1) := by
        have := Nat.mul_le_mul_left (2 ^ i) hq
        rw [Nat.mul_sub_one]
        omega
      rw [hexp, Nat.mul_comm, Nat.add_comm, Nat.add_mul_div_right _ _ hd,
        Nat.div_eq_of_lt (by omega), Nat.zero_add]
    rw [Nat.testBit_to_div_mod, Nat.testBit_to_div_mod, hdivA, hdivB]
    have h1 : q % 2 = 1 := by omega
    have h2 : (q - 1) % 2 = 0 := by omega
    have hd1 : decide (q % 2 = 1) = true := by simp [h1]
    have hd2 : decide ((q - 1) % 2 = 1) = false := by simp [h2]
    rw [hd1, hd2]
    simp only [Bool.xor_false]
    symm
    rw [decide_eq_true_iff]
    omega
  · -- above the lowest set bit: the two agree
    have hnd : ¬ 2 ^ i ∣ 2 ^ t * q := by
      intro hd
      have h2 : (2:Nat) ^ (t + 1) ∣ 2 ^ i := pow_dvd_pow 2 (by omega)
      have h3 : (2:Nat) ^ (t + 1) ∣ 2 ^ t * q := dvd_trans h2 hd
      obtain ⟨k, hk⟩ := h3
      have h4 : (2:Nat) ^ (t + 1) = 2 ^ t * 2 := by ring
      rw [h4] at hk
      have h5 : q = 2 * k := by
        have hpos : 0 < (2:Nat) ^ t := Nat.pos_pow_of_pos _ (by omega)
        have := hk
        rw [Nat.mul_assoc] at this
        exact Nat.eq_of_mul_eq_mul_left hpos this
      exact hodd ⟨k, h5⟩
    have hdiveq : (2 ^ t * q - 1) / 2 ^ i = 2 ^ t * q / 2 ^ i := by
      have hd : 0 < (2:Nat) ^ i := Nat.pos_pow_of_pos _ (by omega)
      have hr : 2 ^ t * q % 2 ^ i ≠ 0 := by
        intro h0
        exact hnd (Nat.dvd_of_mod_eq_zero h0)
      have hdm := Nat.div_add_mod' (2 ^ t * q) (2 ^ i)
      have hmlt : 2 ^ t * q % 2 ^ i < 2 ^ i := Nat.mod_lt _ hd
      have hexp : 2 ^ t * q - 1 =
          2 ^ t * q / 2 ^ i * 2 ^ i + (2 ^ t * q % 2 ^ i - 1) := by omega
      rw [hexp, Nat.add_comm, Nat.add_mul_div_right _ _ hd,
        Nat.div_eq_of_lt (by omega), Nat.zero_add]
    rw [Nat.testBit_to_div_mod, Nat.testBit_to_div_mod, hdiveq]
    simp only [Bool.xor_self]
    symm
    rw [decide_eq_false_iff_not]
    omega

/-- The `diverges` test of `#popTrie`: bit `L` and above of
`nts ^^^ (nts - 1)` are populated exactly when `2 ^ L` divides `nts`. -/
theorem diverges_shift {nts L : Nat} (hpos : 0 < nts) :
    ((nts ^^^ (nts - 1)) >>> L ≠ 0) ↔ (2 ^ L ∣ nts) := by
  obtain ⟨t, q, hq2, rfl⟩ := Nat.exists_eq_pow_mul_and_not_dvd
    (show nts ≠ 0 by omega) 2 (by norm_num)
  have hq : 0 < q := by
    rcases Nat.eq_zero_or_pos q with h0 | h
    · subst h0
      simp at hpos
    · exact h
  rw [xor_pred hq2 hq, Nat.shiftRight_eq_div_pow]
  constructor
  · intro hne
    have h1 : 2 ^ L ≤ 2 ^ (t + 1) - 1 := by
      by_contra hcon
      exact hne (Nat.div_eq_of_lt (by omega))
    have h2 : (2:Nat) ^ L < 2 ^ (t + 1) := by
      have := Nat.pos_pow_of_pos (t + 1) (show 0 < 2 by omega)
      omega
    have h3 : L < t + 1 := by
      by_contra hcon
      have : (2:Nat) ^ (t + 1) ≤ 2 ^ L := Nat.pow_le_pow_right (by omega) (by omega)
      omega
    exact dvd_mul_of_dvd_left (pow_dvd_pow 2 (by omega)) q
  · intro hdvd
    have hLt : L ≤ t := by
      by_contra hcon
      have h2 : (2:Nat) ^ (t + 1) ∣ 2 ^ L := pow_dvd_pow 2 (by omega)
      have h3 : (2:Nat) ^ (t + 1) ∣ 2 ^ t * q := dvd_trans h2 hdvd
      obtain ⟨k, hk⟩ := h3
      rw [show (2:Nat) ^ (t + 1) = 2 ^ t * 2 by ring, Nat.mul_assoc] at hk
      exact hq2 ⟨k, Nat.eq_of_mul_eq_mul_left (Nat.pos_pow_of_pos _ (by omega)) hk⟩
    intro h0
    have h1 : (2:Nat) ^ L ≤ 2 ^ (t + 1) - 1 := by
      have h2 : (2:Nat) ^ L ≤ 2 ^ t := Nat.pow_le_pow_right (by omega) hLt
      have h3 : (2:Nat) ^ t < 2 ^ (t + 1) := Nat.pow_lt_pow_right (by omega) (by omega)
      omega
    have h4 : 1 ≤ (2 ^ (t + 1) - 1) / 2 ^ L :=
      (Nat.one_le_div_iff (Nat.pos_pow_of_pos _ (by omega))).2 h1
    omega

theorem chunk_take_left {α : Type} {c : List α} {n d k : Nat} (h : d + k ≤ n) :
    ((c.take n).drop d).take k = (c.drop d).take k := by
  rw [List.drop_take, List.take_take]
  congr 1
  omega

/-- `#lowerTrie`'s leftmost-spine descent reaches the single leaf of a
32-element subtree. -/
theorem lowerLoop_spec {α : Type} :
    ∀ (h : Nat) {f : Nat} {c : List α} {node : JVal α},
    h ≤ f → rep h c node → c.length = 32 →
    lowerLoop f node (5 * h) = .ok (.arr (c.map JVal.elem))
  | 0, f, c, node => by
    intro hf hr hlen
    cases f <;> simp [lowerLoop, hr.2]
  | h + 1, f, c, node => by
    intro hf hr hlen
    obtain ⟨f2, rfl⟩ : ∃ f2, f = f2 + 1 := ⟨f - 1, by omega⟩
    obtain ⟨cs, hteq, hcs, hpos, hle, hdvd, hch⟩ := hr
    have hchild := (hch 0 (by omega)).1 (by simpa using hpos)
    simp only [Nat.zero_mul, List.drop_zero] at hchild
    rw [List.take_of_length_le (by rw [hlen]; exact Nat.le_self_pow (by omega) 32)]
      at hchild
    show (if 0 < 5 * (h + 1) then _ else _) = _
    rw [if_pos (by omega), hteq]
    show (do
      let node2 ← Except.ok (aGet cs 0)
      lowerLoop f2 node2 (5 * (h + 1) - 5)) = _
    rw [show 5 * (h + 1) - 5 = 5 * h by omega]
    exact lowerLoop_spec h (by omega) hchild hlen
  termination_by h => h

/-- `#popTrie`'s post-divergence walk: inside the subtree that holds
only the removed leaf, the selected child index is 0 at every level,
so the walk reaches that leaf. -/
theorem popFollow_spec {α : Type} :
    ∀ (h : Nat) {f : Nat} {c : List α} {node : JVal α} {nts : Nat},
    h ≤ f → rep h c node → c.length = 32 → 32 ^ (h + 1) ∣ nts →
    popFollow f node nts (5 * h) = .ok (.arr (c.map JVal.elem))
  | 0, f, c, node, nts => by
    intro hf hr hlen hdvd
    cases f <;> simp [popFollow, hr.2]
  | h + 1, f, c, node, nts => by
    intro hf hr hlen hdvd
    obtain ⟨f2, rfl⟩ : ∃ f2, f = f2 + 1 := ⟨f - 1, by omega⟩
    obtain ⟨cs, hteq, hcs, hpos, hle, hdvd2, hch⟩ := hr
    have hchild := (hch 0 (by omega)).1 (by simpa using hpos)
    simp only [Nat.zero_mul, List.drop_zero] at hchild
    rw [List.take_of_length_le (by rw [hlen]; exact Nat.le_self_pow (by omega) 32)]
      at hchild
    have hsub : nts >>> (5 * (h + 1)) % 32 = 0 := by
      obtain ⟨k, rfl⟩ := hdvd
      rw [shiftRight_five_mul]
      rw [show (32:Nat) ^ (h + 2) * k = 32 ^ (h + 1) * (32 * k) by ring,
        Nat.mul_div_cancel_left _ (Nat.pos_pow_of_pos _ (by omega))]
      omega
    show (if 0 < 5 * (h + 1) then _ else _) = _
    rw [if_pos (by omega), hsub, hteq]
    show (do
      let node2 ← Except.ok (aGet cs 0)
      popFollow f2 node2 nts (5 * (h + 1) - 5)) = _
    rw [show 5 * (h + 1) - 5 = 5 * h by omega]
    exact popFollow_spec h (by omega) hchild hlen
      (dvd_trans (pow_dvd_pow 32 (by omega)) hdvd)
  termination_by h => h

/-- `#popTrie` at the divergence point: when `32 ^ (h + 1)` divides the
new trie size, the loop unlinks the child holding the final leaf and
walks down to that leaf, which becomes the new tail. -/
theorem popTrieLoop_diverge {α : Type} {h f : Nat} {c : List α}
    {cells : List (JVal α)} {a nts : Nat}
    (hf : h + 1 ≤ f) (hrep : rep (h + 1) c (.arr cells)) (ha : 32 ^ (h + 2) ∣ a)
    (hclen : c.length = nts + 32 - a) (hant : a < nts)
    (hdiv : 32 ^ (h + 1) ∣ nts) :
    popTrieLoop f cells nts (nts ^^^ (nts - 1)) (5 * (h + 1)) =
      .ok (aSet cells ((nts - a) / 32 ^ (h + 1)) .null,
        .arr ((c.drop (nts - a)).map JVal.elem)) ∧
    rep (h + 1) (c.take (nts - a))
      (.arr (aSet cells ((nts - a) / 32 ^ (h + 1)) .null)) := by
  obtain ⟨f2, rfl⟩ : ∃ f2, f = f2 + 1 := ⟨f - 1, by omega⟩
  have hKpos : 0 < (32:Nat) ^ (h + 1) := Nat.pos_pow_of_pos _ (by omega)
  have hKK : 32 * (32:Nat) ^ (h + 1) = 32 ^ (h + 2) := by ring
  have hKK' : (32:Nat) ^ (h + 1) * 32 = 32 ^ (h + 2) := by ring
  have h32K : (32:Nat) ≤ 32 ^ (h + 1) := Nat.le_self_pow (by omega) 32
  have haK : 32 * 32 ^ (h + 1) ∣ a := by rw [hKK]; exact ha
  have hKa : (32:Nat) ^ (h + 1) ∣ a := dvd_trans (dvd_mul_left _ 32) haK
  have hclen2 : c.length = nts - a + 32 := by omega
  have hleC : c.length ≤ 32 ^ (h + 2) := rep_length_le hrep
  have hntspos : 0 < nts := by omega
  have hpow : (2:Nat) ^ (5 * (h + 1)) = 32 ^ (h + 1) := by
    rw [Nat.pow_mul]
  obtain ⟨hsub, hchild, hdvd_a2, hle_a2, hlt_a2⟩ :=
    rep_child (a := a) (i := nts) hrep ha (by omega) (by omega)
  have hchild2 : rep h
      ((c.drop ((nts - a) / 32 ^ (h + 1) * 32 ^ (h + 1))).take (32 ^ (h + 1)))
      (aGet cells ((nts - a) / 32 ^ (h + 1))) := hchild
  have hjlt : (nts - a) / 32 ^ (h + 1) < 32 :=
    Nat.div_lt_of_lt_mul (by omega : nts - a < 32 ^ (h + 1) * 32)
  have hKr : (32:Nat) ^ (h + 1) ∣ nts - a := Nat.dvd_sub' hdiv hKa
  have hjK : (nts - a) / 32 ^ (h + 1) * 32 ^ (h + 1) = nts - a :=
    Nat.div_mul_cancel hKr
  rw [hjK] at hchild2
  rw [List.take_of_length_le (by rw [List.length_drop]; omega)] at hchild2
  have hlen32 : (c.drop (nts - a)).length = 32 := by
    rw [List.length_drop]; omega
  have hfollow := popFollow_spec h (f := 5 * h) (by omega) hchild2 hlen32 hdiv
  have hcond : (nts ^^^ (nts - 1)) >>> (5 * (h + 1)) ≠ 0 :=
    (diverges_shift hntspos).2 (by rw [hpow]; exact hdiv)
  have hl2 : (c.take (nts - a)).length = nts - a := by
    rw [List.length_take]; omega
  constructor
  · show (if 0 < 5 * (h + 1) then _ else _) = _
    rw [if_pos (by omega : 0 < 5 * (h + 1))]
    show (if (nts ^^^ (nts - 1)) >>> (5 * (h + 1)) ≠ 0 then (do
        let leaf ← popFollow (5 * (h + 1) - 5)
          (aGet cells (nts >>> (5 * (h + 1)) % 32)) nts (5 * (h + 1) - 5)
        Except.ok (aSet cells (nts >>> (5 * (h + 1)) % 32) JVal.null, leaf))
      else (do
        let childCells ← spread (aGet cells (nts >>> (5 * (h + 1)) % 32))
        let res ← popTrieLoop f2 childCells nts (nts ^^^ (nts - 1))
          (5 * (h + 1) - 5)
        Except.ok (aSet cells (nts >>> (5 * (h + 1)) % 32) (JVal.arr res.1),
          res.2))) = _
    rw [if_pos hcond, hsub, show 5 * (h + 1) - 5 = 5 * h from by omega, hfollow]
    rfl
  · apply rep_update hrep hjlt
    · rw [hl2]; omega
    · rw [hl2]; omega
    · rw [hl2]; exact dvd_trans (dvd_pow_self 32 (by omega)) hKr
    · intro j2 hj2 hne
      simp only [hl2]
      rcases Nat.lt_or_ge j2 ((nts - a) / 32 ^ (h + 1)) with hlt | hge
      · have hx : (j2 + 1) * 32 ^ (h + 1) ≤
            (nts - a) / 32 ^ (h + 1) * 32 ^ (h + 1) :=
          Nat.mul_le_mul_right _ (by omega)
        have hy : (j2 + 1) * 32 ^ (h + 1) = j2 * 32 ^ (h + 1) + 32 ^ (h + 1) := by
          ring
        exact ⟨by omega, fun _ => chunk_take_left (by omega)⟩
      · have hgt : (nts - a) / 32 ^ (h + 1) < j2 := by omega
        have hx : ((nts - a) / 32 ^ (h + 1) + 1) * 32 ^ (h + 1) ≤
            j2 * 32 ^ (h + 1) := Nat.mul_le_mul_right _ (by omega)
        have hy : ((nts - a) / 32 ^ (h + 1) + 1) * 32 ^ (h + 1) =
            (nts - a) / 32 ^ (h + 1) * 32 ^ (h + 1) + 32 ^ (h + 1) := by ring
        exact ⟨by omega, fun hpop2 => absurd hpop2 (by omega)⟩
    · constructor
      · intro hpop
        rw [hl2, hjK] at hpop
        exact absurd hpop (lt_irrefl _)
      · intro hp
        exact Or.inl rfl

/-- The cloning loop of `#popTrie`: starting from a node holding the
slice `c` at aligned offset `a` that extends exactly one leaf past the
new trie size `nts`, the loop removes the final leaf, returning the
rebuilt cells and that leaf (the future tail). -/
theorem popTrieLoop_rep {α : Type} :
    ∀ (h : Nat) {f : Nat} {c : List α} {cells : List (JVal α)} {a nts : Nat},
    h + 1 ≤ f → rep (h + 1) c (.arr cells) → 32 ^ (h + 2) ∣ a →
    c.length = nts + 32 - a → a < nts → 32 ∣ nts →
    ∃ newCells,
      popTrieLoop f cells nts (nts ^^^ (nts - 1)) (5 * (h + 1)) =
        .ok (newCells, .arr ((c.drop (nts - a)).map JVal.elem)) ∧
      rep (h + 1) (c.take (nts - a)) (.arr newCells)
  | 0, f, c, cells, a, nts => by
    intro hf hrep ha hclen hant hnts32
    have hdiv : (32:Nat) ^ (0 + 1) ∣ nts := by simpa using hnts32
    obtain ⟨hred, hrep2⟩ := popTrieLoop_diverge hf hrep ha hclen hant hdiv
    exact ⟨_, hred, hrep2⟩
  | m + 1, f, c, cells, a, nts => by
    intro hf hrep ha hclen hant hnts32
    by_cases hdiv : (32:Nat) ^ (m + 1 + 1) ∣ nts
    · obtain ⟨hred, hrep2⟩ := popTrieLoop_diverge hf hrep ha hclen hant hdiv
      exact ⟨_, hred, hrep2⟩
    · obtain ⟨f2, rfl⟩ : ∃ f2, f = f2 + 1 := ⟨f - 1, by omega⟩
      have hKpos : 0 < (32:Nat) ^ (m + 1 + 1) := Nat.pos_pow_of_pos _ (by omega)
      have hKK : 32 * (32:Nat) ^ (m + 1 + 1) = 32 ^ (m + 1 + 2) := by ring
      have hKK' : (32:Nat) ^ (m + 1 + 1) * 32 = 32 ^ (m + 1 + 2) := by ring
      have h32K : (32:Nat) ≤ 32 ^ (m + 1 + 1) := Nat.le_self_pow (by omega) 32
      have hK32dvd : (32:Nat) ∣ 32 ^ (m + 1 + 1) := dvd_pow_self 32 (by omega)
      have haK : 32 * 32 ^ (m + 1 + 1) ∣ a := by rw [hKK]; exact ha
      have hKa : (32:Nat) ^ (m + 1 + 1) ∣ a := dvd_trans (dvd_mul_left _ 32) haK
      have h32a : (32:Nat) ∣ a := dvd_trans (dvd_mul_right 32 _) haK
      have hdvd_r : 32 ∣ nts - a := Nat.dvd_sub' hnts32 h32a
      have hclen2 : c.length = nts - a + 32 := by omega
      have hleC : c.length ≤ 32 ^ (m + 1 + 2) := rep_length_le hrep
      have hntspos : 0 < nts := by omega
      have hpow : (2:Nat) ^ (5 * (m + 1 + 1)) = 32 ^ (m + 1 + 1) := by
        rw [Nat.pow_mul]
      obtain ⟨hsub, hchild, hdvd_a2, hle_a2, hlt_a2⟩ :=
        rep_child (a := a) (i := nts) hrep ha (by omega) (by omega)
      have hchild2 : rep (m + 1)
          ((c.drop ((nts - a) / 32 ^ (m + 1 + 1) * 32 ^ (m + 1 + 1))).take
            (32 ^ (m + 1 + 1)))
          (aGet cells ((nts - a) / 32 ^ (m + 1 + 1))) := hchild
      have hjlt : (nts - a) / 32 ^ (m + 1 + 1) < 32 :=
        Nat.div_lt_of_lt_mul (by omega : nts - a < 32 ^ (m + 1 + 1) * 32)
      have hdm := Nat.div_add_mod' (nts - a) (32 ^ (m + 1 + 1))
      have hmlt : (nts - a) % 32 ^ (m + 1 + 1) < 32 ^ (m + 1 + 1) :=
        Nat.mod_lt _ hKpos
      have hmod32 : 32 ∣ (nts - a) % 32 ^ (m + 1 + 1) :=
        (Nat.dvd_mod_iff hK32dvd).2 hdvd_r
      have hmodne : (nts - a) % 32 ^ (m + 1 + 1) ≠ 0 := by
        intro h0
        have hKr := Nat.dvd_of_mod_eq_zero h0
        have hx := Nat.dvd_add hKa hKr
        rw [show a + (nts - a) = nts from by omega] at hx
        exact hdiv hx
      have hmodle : (nts - a) % 32 ^ (m + 1 + 1) ≤ 32 ^ (m + 1 + 1) - 32 := by
        omega
      have htakefull :
          (c.drop ((nts - a) / 32 ^ (m + 1 + 1) * 32 ^ (m + 1 + 1))).take
            (32 ^ (m + 1 + 1)) =
          c.drop ((nts - a) / 32 ^ (m + 1 + 1) * 32 ^ (m + 1 + 1)) :=
        List.take_of_length_le (by rw [List.length_drop]; omega)
      rw [htakefull] at hchild2
      obtain ⟨cs2, hceq⟩ := rep_arr hchild2
      rw [hceq] at hchild2
      have hant2 : a + (nts - a) / 32 ^ (m + 1 + 1) * 32 ^ (m + 1 + 1) < nts := by
        omega
      have hclen3 :
          (c.drop ((nts - a) / 32 ^ (m + 1 + 1) * 32 ^ (m + 1 + 1))).length =
          nts + 32 - (a + (nts - a) / 32 ^ (m + 1 + 1) * 32 ^ (m + 1 + 1)) := by
        rw [List.length_drop]; omega
      obtain ⟨newCells2, hloop2, hrep2⟩ :=
        popTrieLoop_rep m (f := f2) (by omega) hchild2 hdvd_a2 hclen3 hant2 hnts32
      have hrem : (c.drop ((nts - a) / 32 ^ (m + 1 + 1) * 32 ^ (m + 1 + 1))).drop
          (nts - (a + (nts - a) / 32 ^ (m + 1 + 1) * 32 ^ (m + 1 + 1))) =
          c.drop (nts - a) := by
        rw [List.drop_drop]
        congr 1
        omega
      rw [hrem] at hloop2
      have hcond2 : ¬ ((nts ^^^ (nts - 1)) >>> (5 * (m + 1 + 1)) ≠ 0) := by
        intro hc
        exact hdiv (by rw [← hpow]; exact (diverges_shift hntspos).1 hc)
      refine ⟨aSet cells ((nts - a) / 32 ^ (m + 1 + 1)) (.arr newCells2), ?_, ?_⟩
      · show (if 0 < 5 * (m + 1 + 1) then _ else _) = _
        rw [if_pos (by omega : 0 < 5 * (m + 1 + 1))]
        show (if (nts ^^^ (nts - 1)) >>> (5 * (m + 1 + 1)) ≠ 0 then (do
            let leaf ← popFollow (5 * (m + 1 + 1) - 5)
              (aGet cells (nts >>> (5 * (m + 1 + 1)) % 32)) nts
              (5 * (m + 1 + 1) - 5)
            Except.ok (aSet cells (nts >>> (5 * (m + 1 + 1)) % 32) JVal.null, leaf))
          else (do
            let childCells ← spread (aGet cells (nts >>> (5 * (m + 1 + 1)) % 32))
            let res ← popTrieLoop f2 childCells nts (nts ^^^ (nts - 1))
              (5 * (m + 1 + 1) - 5)
            Except.ok (aSet cells (nts >>> (5 * (m + 1 + 1)) % 32)
              (JVal.arr res.1), res.2))) = _
        rw [if_neg hcond2, hsub, hceq,
          show 5 * (m + 1 + 1) - 5 = 5 * (m + 1) from by omega]
        show (do
          let res ← popTrieLoop f2 cs2 nts (nts ^^^ (nts - 1)) (5 * (m + 1))
          Except.ok (aSet cells ((nts - a) / 32 ^ (m + 1 + 1)) (JVal.arr res.1),
            res.2)) = _
        rw [hloop2]
        rfl
      · have hl2 : (c.take (nts - a)).length = nts - a := by
          rw [List.length_take]; omega
        apply rep_update hrep hjlt
        · rw [hl2]; omega
        · rw [hl2]; omega
        · rw [hl2]; exact hdvd_r
        · intro j2 hj2 hne
          simp only [hl2]
          rcases Nat.lt_or_ge j2 ((nts - a) / 32 ^ (m + 1 + 1)) with hlt | hge
          · have hx : (j2 + 1) * 32 ^ (m + 1 + 1) ≤
                (nts - a) / 32 ^ (m + 1 + 1) * 32 ^ (m + 1 + 1) :=
              Nat.mul_le_mul_right _ (by omega)
            have hy : (j2 + 1) * 32 ^ (m + 1 + 1) =
                j2 * 32 ^ (m + 1 + 1) + 32 ^ (m + 1 + 1) := by ring
            exact ⟨by omega, fun _ => chunk_take_left (by omega)⟩
          · have hgt : (nts - a) / 32 ^ (m + 1 + 1) < j2 := by omega
            have hx : ((nts - a) / 32 ^ (m + 1 + 1) + 1) * 32 ^ (m + 1 + 1) ≤
                j2 * 32 ^ (m + 1 + 1) := Nat.mul_le_mul_right _ (by omega)
            have hy : ((nts - a) / 32 ^ (m + 1 + 1) + 1) * 32 ^ (m + 1 + 1) =
                (nts - a) / 32 ^ (m + 1 + 1) * 32 ^ (m + 1 + 1) +
                  32 ^ (m + 1 + 1) := by ring
            exact ⟨by omega, fun hpop2 => absurd hpop2 (by omega)⟩
        · constructor
          · intro hpop
            have hchunk : ((c.take (nts - a)).drop
                ((nts - a) / 32 ^ (m + 1 + 1) * 32 ^ (m + 1 + 1))).take
                  (32 ^ (m + 1 + 1)) =
                (c.drop ((nts - a) / 32 ^ (m + 1 + 1) * 32 ^ (m + 1 + 1))).take
                  (nts - (a + (nts - a) / 32 ^ (m + 1 + 1) * 32 ^ (m + 1 + 1))) := by
              rw [List.drop_take, List.take_take]
              congr 1
              omega
            rw [hchunk]
            exact hrep2
          · intro habs
            rw [hl2] at habs
            exact absurd habs (by omega)
  termination_by h => h

/-! ### Building vectors by repeated `push` (`PVec.from`), `isEqualTo`,
error classification, and reachability -/

/-- Exceptions out of `jIndex` are always TypeErrors. -/
theorem jIndex_error {α : Type} {t : JVal α} {i : Nat} {e : JErr}
    (h : jIndex t i = .error e) : e = .typeError := by
  cases t with
  | undef => injection h with h2; exact h2.symm
  | null => injection h with h2; exact h2.symm
  | elem a => exact Except.noConfusion h
  | arr cs => exact Except.noConfusion h

/-- Exceptions out of `spread` are always TypeErrors. -/
theorem spread_error {α : Type} {t : JVal α} {e : JErr}
    (h : spread t = .error e) : e = .typeError := by
  cases t with
  | undef => injection h with h2; exact h2.symm
  | null => injection h with h2; exact h2.symm
  | elem a => injection h with h2; exact h2.symm
  | arr cs => exact Except.noConfusion h

/-- Exceptions out of `get`'s descent loop are always TypeErrors. -/
theorem getLoop_error {α : Type} :
    ∀ (fuel : Nat) (t : JVal α) (i level : Nat) (e : JErr),
    getLoop fuel t i level = .error e → e = .typeError
  | 0, t, i, level, e => fun h => Except.noConfusion h
  | fuel + 1, t, i, level, e => fun h => by
    rw [show getLoop (fuel + 1) t i level =
      (if 0 < level then do
        let node2 ← jIndex t (i >>> level % 32)
        getLoop fuel node2 i (level - 5)
      else .ok t) from rfl] at h
    by_cases hl : 0 < level
    · rw [if_pos hl] at h
      cases hj : jIndex t (i >>> level % 32) with
      | error e2 =>
        rw [hj] at h
        have h2 : (Except.error e2 : Except JErr (JVal α)) = .error e := h
        injection h2 with h3
        rw [← h3]
        exact jIndex_error hj
      | ok node2 =>
        rw [hj] at h
        exact getLoop_error fuel node2 i (level - 5) e h
    · rw [if_neg hl] at h
      exact Except.noConfusion h

/-- Exceptions out of `set`'s path-copying loop are always TypeErrors. -/
theorem setLoop_error {α : Type} :
    ∀ (fuel : Nat) (node : List (JVal α)) (i : Nat) (x : α) (level : Nat)
    (e : JErr), setLoop fuel node i x level = .error e → e = .typeError
  | 0, node, i, x, level, e => fun h => by
    rw [show setLoop 0 node i x level =
      (if 0 < level then .ok node else .ok (aSet node (i % 32) (.elem x)))
      from rfl] at h
    by_cases hl : 0 < level
    · rw [if_pos hl] at h; exact Except.noConfusion h
    · rw [if_neg hl] at h; exact Except.noConfusion h
  | fuel + 1, node, i, x, level, e => fun h => by
    rw [show setLoop (fuel + 1) node i x level =
      (if 0 < level then do
        let child ← spread (aGet node (i >>> level % 32))
        let newChild ← setLoop fuel child i x (level - 5)
        .ok (aSet node (i >>> level % 32) (.arr newChild))
      else .ok (aSet node (i % 32) (.elem x))) from rfl] at h
    by_cases hl : 0 < level
    · rw [if_pos hl] at h
      cases hs : spread (aGet node (i >>> level % 32)) with
      | error e2 =>
        rw [hs] at h
        have h2 : (Except.error e2 : Except JErr (List (JVal α))) = .error e := h
        injection h2 with h3
        rw [← h3]
        exact spread_error hs
      | ok child =>
        rw [hs] at h
        have h4 : (do
            let newChild ← setLoop fuel child i x (level - 5)
            Except.ok (aSet node (i >>> level % 32) (JVal.arr newChild))) =
            (Except.error e : Except JErr (List (JVal α))) := h
        cases hrec : setLoop fuel child i x (level - 5) with
        | error e2 =>
          rw [hrec] at h4
          have h2 : (Except.error e2 : Except JErr (List (JVal α))) = .error e := h4
          injection h2 with h3
          rw [← h3]
          exact setLoop_error fuel child i x (level - 5) e2 hrec
        | ok newChild =>
          rw [hrec] at h4
          exact Except.noConfusion h4
    · rw [if_neg hl] at h
      exact Except.noConfusion h

/-- Exceptions out of `#lowerTrie`'s descent are always TypeErrors. -/
theorem lowerLoop_error {α : Type} :
    ∀ (fuel : Nat) (t : JVal α) (level : Nat) (e : JErr),
    lowerLoop fuel t level = .error e → e = .typeError
  | 0, t, level, e => fun h => Except.noConfusion h
  | fuel + 1, t, level, e => fun h => by
    rw [show lowerLoop (fuel + 1) t level =
      (if 0 < level then do
        let node2 ← jIndex t 0
        lowerLoop fuel node2 (level - 5)
      else .ok t) from rfl] at h
    by_cases hl : 0 < level
    · rw [if_pos hl] at h
      cases hj : jIndex t 0 with
      | error e2 =>
        rw [hj] at h
        have h2 : (Except.error e2 : Except JErr (JVal α)) = .error e := h
        injection h2 with h3
        rw [← h3]
        exact jIndex_error hj
      | ok node2 =>
        rw [hj] at h
        exact lowerLoop_error fuel node2 (level - 5) e h
    · rw [if_neg hl] at h
      exact Except.noConfusion h

/-- Exceptions out of `#popTrie`'s post-divergence walk are always
TypeErrors. -/
theorem popFollow_error {α : Type} :
    ∀ (fuel : Nat) (t : JVal α) (nts level : Nat) (e : JErr),
    popFollow fuel t nts level = .error e → e = .typeError
  | 0, t, nts, level, e => fun h => Except.noConfusion h
  | fuel + 1, t, nts, level, e => fun h => by
    rw [show popFollow (fuel + 1) t nts level =
      (if 0 < level then do
        let node2 ← jIndex t (nts >>> level % 32)
        popFollow fuel node2 nts (level - 5)
      else .ok t) from rfl] at h
    by_cases hl : 0 < level
    · rw [if_pos hl] at h
      cases hj : jIndex t (nts >>> level % 32) with
      | error e2 =>
        rw [hj] at h
        have h2 : (Except.error e2 : Except JErr (JVal α)) = .error e := h
        injection h2 with h3
        rw [← h3]
        exact jIndex_error hj
      | ok node2 =>
        rw [hj] at h
        exact popFollow_error fuel node2 nts (level - 5) e h
    · rw [if_neg hl] at h
      exact Except.noConfusion h

/-- Exceptions out of `#popTrie`'s cloning loop are always TypeErrors. -/
theorem popTrieLoop_error {α : Type} :
    ∀ (fuel : Nat) (node : List (JVal α)) (nts diverges level : Nat)
    (e : JErr), popTrieLoop fuel node nts diverges level = .error e →
    e = .typeError
  | 0, node, nts, diverges, level, e => fun h => Except.noConfusion h
  | fuel + 1, node, nts, diverges, level, e => fun h => by
    rw [show popTrieLoop (fuel + 1) node nts diverges level =
      (if 0 < level then
        if diverges >>> level ≠ 0 then do
          let leaf ← popFollow (level - 5) (aGet node (nts >>> level % 32))
            nts (level - 5)
          .ok (aSet node (nts >>> level % 32) .null, leaf)
        else do
          let childCells ← spread (aGet node (nts >>> level % 32))
          let res ← popTrieLoop fuel childCells nts diverges (level - 5)
          .ok (aSet node (nts >>> level % 32) (.arr res.1), res.2)
      else .ok (node, .arr node)) from rfl] at h
    by_cases hl : 0 < level
    · rw [if_pos hl] at h
      by_cases hd : diverges >>> level ≠ 0
      · rw [if_pos hd] at h
        cases hf : popFollow (level - 5) (aGet node (nts >>> level % 32))
            nts (level - 5) with
        | error e2 =>
          rw [hf] at h
          have h2 : (Except.error e2 :
            Except JErr (List (JVal α) × JVal α)) = .error e := h
          injection h2 with h3
          rw [← h3]
          exact popFollow_error _ _ _ _ _ hf
        | ok leaf =>
          rw [hf] at h
          exact Except.noConfusion h
      · rw [if_neg hd] at h
        cases hs : spread (aGet node (nts >>> level % 32)) with
        | error e2 =>
          rw [hs] at h
          have h2 : (Except.error e2 :
            Except JErr (List (JVal α) × JVal α)) = .error e := h
          injection h2 with h3
          rw [← h3]
          exact spread_error hs
        | ok childCells =>
          rw [hs] at h
          have h4 : (do
              let res ← popTrieLoop fuel childCells nts diverges (level - 5)
              Except.ok (aSet node (nts >>> level % 32) (JVal.arr res.1),
                res.2)) =
              (Except.error e : Except JErr (List (JVal α) × JVal α)) := h
          cases hrec : popTrieLoop fuel childCells nts diverges (level - 5) with
          | error e2 =>
            rw [hrec] at h4
            have h2 : (Except.error e2 :
              Except JErr (List (JVal α) × JVal α)) = .error e := h4
            injection h2 with h3
            rw [← h3]
            exact popTrieLoop_error fuel childCells nts diverges (level - 5) e2 hrec
          | ok res =>
            rw [hrec] at h4
            exact Except.noConfusion h4
    · rw [if_neg hl] at h
      exact Except.noConfusion h

/-- The shared empty vector represents the empty sequence. -/
theorem valid_empty {α : Type} : Valid (PVec.empty : PVec α) [] := by
  have h0 : tailOff ([] : List α).length = 0 := by
    show tailOff 0 = 0
    rfl
  refine ⟨rfl, ?_, Or.inl ⟨h0, rfl, rfl⟩⟩
  rw [h0]
  rfl

/-- `pop()` on a non-empty valid vector succeeds and represents the
sequence without its last element. -/
theorem pop_ok {α : Type} {v : PVec α} {l : List α} (hv : Valid v l)
    (hne : 0 < l.length) :
    ∃ w, v.pop = .ok w ∧ Valid w l.dropLast := by
  obtain ⟨hsize, htail, hroot⟩ := hv
  have hdl : l.dropLast = l.take (l.length - 1) := List.dropLast_eq_take l
  have hlen' : l.dropLast.length = l.length - 1 := List.length_dropLast l
  by_cases h1 : l.length = 1
  · -- size 1: the shared empty vector
    refine ⟨PVec.empty, ?_, ?_⟩
    · simp only [PVec.pop, hsize]
      rw [if_neg (by omega), if_pos h1]
    · have hnil : l.dropLast = [] := List.eq_nil_of_length_eq_zero (by omega)
      rw [hnil]
      exact valid_empty
  · by_cases h2 : 0 < (l.length - 1) % 32
    · -- drop the last element of the tail
      refine ⟨⟨l.length - 1, v.shift, v.root,
        .arr (((l.drop (tailOff l.length)).map JVal.elem).take
          (((l.drop (tailOff l.length)).map JVal.elem).length - 1))⟩, ?_, ?_⟩
      · simp only [PVec.pop, hsize]
        rw [if_neg (by omega), if_neg h1, if_pos h2, htail]
        rfl
      · have htoffeq : tailOff (l.length - 1) = tailOff l.length := by
          unfold tailOff
          omega
        have htoff_le : tailOff l.length ≤ l.length - 1 := by
          unfold tailOff
          omega
        refine ⟨by show l.length - 1 = l.dropLast.length; rw [hlen'], ?_, ?_⟩
        · show JVal.arr _ = _
          rw [hlen', htoffeq, hdl, List.drop_take, ← List.map_take,
            List.length_map, List.length_drop,
            show l.length - 1 - tailOff l.length =
              l.length - tailOff l.length - 1 from by omega]
        · rcases hroot with ⟨hz, hsh, hrt⟩ | ⟨h, hsh, hrep, htight⟩
          · exact Or.inl ⟨by rw [hlen', htoffeq]; exact hz, hsh, hrt⟩
          · refine Or.inr ⟨h, hsh, ?_, ?_⟩
            · rw [hlen', htoffeq, hdl, List.take_take,
                min_eq_left (by omega)]
              exact hrep
            · rw [hlen', htoffeq]
              exact htight
    · -- the tail had one element: it is discarded and a leaf of the
      -- trie becomes the new tail
      have hmod : (l.length - 1) % 32 = 0 := by omega
      have hn33 : 33 ≤ l.length := by omega
      have htoffn : tailOff l.length = l.length - 1 := by
        unfold tailOff
        omega
      by_cases h3 : l.length - 33 = 0
      · -- the root leaf becomes the tail, the trie empties
        have hn : l.length = 33 := by omega
        rcases hroot with ⟨hz, hsh, hrt⟩ | ⟨h, hsh, hrep, htight⟩
        · rw [htoffn] at hz
          omega
        · have h0 : h = 0 := by
            rcases htight with h0 | hlt
            · exact h0
            · by_contra hne0
              have : (32:Nat) ≤ 32 ^ h := Nat.le_self_pow hne0 32
              rw [htoffn] at hlt
              omega
          subst h0
          obtain ⟨hlen32, hrt⟩ := hrep
          refine ⟨⟨32, 0, .arr [], v.root⟩, ?_, ?_⟩
          · simp only [PVec.pop, hsize]
            rw [if_neg (by omega), if_neg h1, if_neg h2, if_pos h3]
          · refine ⟨by show (32:Nat) = l.dropLast.length; rw [hlen', hn], ?_, ?_⟩
            · show v.root = _
              have e1 : tailOff (33 - 1) = 0 := by decide
              have e2 : tailOff 33 = 32 := by decide
              have e3 : (33:Nat) - 1 = 32 := by decide
              rw [hrt, hlen', hdl, hn, e1, List.drop_zero, e2, e3]
            · refine Or.inl ⟨?_, rfl, rfl⟩
              rw [hlen', hn]
              decide
      · -- the trie shrinks: lower it or pop its last leaf
        have hntspos : 0 < l.length - 33 := by omega
        have hnts32 : 32 ∣ l.length - 33 := by omega
        rcases hroot with ⟨hz, hsh, hrt⟩ | ⟨h, hsh, hrep, htight⟩
        · rw [htoffn] at hz
          omega
        · cases h with
          | zero =>
            have h32 : (l.take (tailOff l.length)).length = 32 := hrep.1
            rw [htoffn, List.length_take] at h32
            exact absurd (by omega : l.length - 33 = 0) h3
          | succ hh =>
            have hKpos : 0 < (32:Nat) ^ (hh + 1) := Nat.pos_pow_of_pos _ (by omega)
            have h32K : (32:Nat) ≤ 32 ^ (hh + 1) := Nat.le_self_pow (by omega) 32
            have hK32dvd : (32:Nat) ∣ 32 ^ (hh + 1) := dvd_pow_self 32 (by omega)
            rw [htoffn] at hrep htight
            by_cases h4 : l.length - 33 = 1 <<< v.shift
            · -- `#lowerTrie`
              rw [hsh, shiftLeft_five_mul] at h4
              have hn : l.length = 32 ^ (hh + 1) + 33 := by omega
              obtain ⟨cs, hteq, hcs, hpos, hle, hdvdc, hkids⟩ := hrep
              have hchild0 := (hkids 0 (by omega)).1 (by
                simp only [Nat.zero_mul]
                rw [List.length_take]
                omega)
              simp only [Nat.zero_mul, List.drop_zero] at hchild0
              have hchild1 := (hkids 1 (by omega)).1 (by
                simp only [Nat.one_mul]
                rw [List.length_take]
                omega)
              simp only [Nat.one_mul] at hchild1
              have hch1eq : ((l.take (l.length - 1)).drop (32 ^ (hh + 1))).take
                  (32 ^ (hh + 1)) = (l.drop (32 ^ (hh + 1))).take 32 := by
                rw [List.drop_take, List.take_take]
                congr 1
                omega
              rw [hch1eq] at hchild1
              have hlen1 : ((l.drop (32 ^ (hh + 1))).take 32).length = 32 := by
                rw [List.length_take, List.length_drop]
                omega
              have hlower := lowerLoop_spec hh (f := 5 * hh) (by omega)
                hchild1 hlen1
              have htoff2 : tailOff (l.length - 1) = 32 ^ (hh + 1) := by
                unfold tailOff
                omega
              refine ⟨⟨l.length - 1, 5 * hh, aGet cs 0,
                .arr (((l.drop (32 ^ (hh + 1))).take 32).map JVal.elem)⟩, ?_, ?_⟩
              · simp only [PVec.pop, hsize]
                rw [if_neg (by omega), if_neg h1, if_neg h2, if_neg h3,
                  if_pos (by rw [hsh, shiftLeft_five_mul]; exact h4), hteq, hsh,
                  show 5 * (hh + 1) - 5 = 5 * hh from by omega]
                show (do
                  let node ← lowerLoop (5 * hh) (aGet cs 1) (5 * hh)
                  Except.ok (⟨l.length - 1, 5 * hh, aGet cs 0, node⟩ : PVec α)) = _
                rw [hlower]
                rfl
              · refine ⟨by show l.length - 1 = l.dropLast.length; rw [hlen'],
                  ?_, ?_⟩
                · show JVal.arr _ = _
                  rw [hlen', htoff2, hdl, List.drop_take,
                    show l.length - 1 - 32 ^ (hh + 1) = 32 from by omega]
                · refine Or.inr ⟨hh, rfl, ?_, Or.inr ?_⟩
                  · rw [hlen', htoff2, hdl]
                    exact hchild0
                  · rw [hlen', htoff2]
                    exact Nat.pow_lt_pow_right (by omega) (by omega)
            · -- `#popTrie`
              rw [hsh, shiftLeft_five_mul] at h4
              obtain ⟨cs, hteq⟩ := rep_arr hrep
              rw [hteq] at hrep
              obtain ⟨newCells, hloop, hrep2⟩ :=
                @popTrieLoop_rep α hh (5 * (hh + 1)) _ _ 0
                  (l.length - 33) (by omega) hrep (dvd_zero _)
                  (by rw [List.length_take]; omega) (by omega) hnts32
              simp only [Nat.sub_zero] at hloop hrep2
              have htoff3 : tailOff (l.length - 1) = l.length - 33 := by
                unfold tailOff
                omega
              have htlt : 32 ^ (hh + 1) < l.length - 33 := by
                rcases htight with h0 | hlt
                · omega
                · omega
              refine ⟨⟨l.length - 1, 5 * (hh + 1), .arr newCells,
                .arr (((l.take (l.length - 1)).drop (l.length - 33)).map
                  JVal.elem)⟩, ?_, ?_⟩
              · simp only [PVec.pop, hsize]
                rw [if_neg (by omega), if_neg h1, if_neg h2, if_neg h3,
                  if_neg (by rw [hsh, shiftLeft_five_mul]; exact h4), hteq, hsh]
                show (do
                  let res ← popTrieLoop (5 * (hh + 1)) cs (l.length - 33)
                    ((l.length - 33) ^^^ (l.length - 33 - 1)) (5 * (hh + 1))
                  Except.ok (⟨l.length - 1, 5 * (hh + 1), JVal.arr res.1,
                    res.2⟩ : PVec α)) = _
                rw [hloop]
                rfl
              · refine ⟨by show l.length - 1 = l.dropLast.length; rw [hlen'],
                  ?_, ?_⟩
                · show JVal.arr _ = _
                  rw [hlen', htoff3, hdl]
                · refine Or.inr ⟨hh + 1, rfl, ?_, Or.inr ?_⟩
                  · rw [hlen', htoff3, hdl, List.take_take,
                      min_eq_left (by omega)]
                    rw [List.take_take, min_eq_left (by omega)] at hrep2
                    exact hrep2
                  · rw [hlen', htoff3]
                    omega

/-- The loop of `PVec.from`: pushing a whole list extends the
represented sequence. -/
theorem fromLoop_ok {α : Type} :
    ∀ (xs : List α) {v : PVec α} {l : List α} {w : PVec α},
    Valid v l → fromLoop v xs = .ok w → Valid w (l ++ xs)
  | [], v, l, w => by
    intro hv hw
    injection hw with h
    rw [← h, List.append_nil]
    exact hv
  | x :: xs, v, l, w => by
    intro hv hw
    cases hpush : v.push x with
    | error e =>
      rw [show fromLoop v (x :: xs) =
        (match v.push x with
          | .ok w2 => fromLoop w2 xs
          | .error e2 => .error e2) from rfl, hpush] at hw
      exact Except.noConfusion hw
    | ok v2 =>
      rw [show fromLoop v (x :: xs) =
        (match v.push x with
          | .ok w2 => fromLoop w2 xs
          | .error e2 => .error e2) from rfl, hpush] at hw
      have hv2 := push_ok hv hpush
      have hrec := fromLoop_ok xs hv2 hw
      rwa [List.append_assoc] at hrec

/-- `PVec.from` over a finite list yields a valid snapshot of exactly
that sequence (when no push throws). -/
theorem fromList_ok {α : Type} {xs : List α} {w : PVec α}
    (h : fromList xs = .ok w) : Valid w xs := by
  have h2 := fromLoop_ok xs valid_empty h
  rwa [List.nil_append] at h2

/-- The element-comparison loop of `isEqualTo` succeeds on two valid
snapshots of the same sequence. -/
theorem isEqualToLoop_true {α : Type} [DecidableEq α] {v w : PVec α}
    {l : List α} (hv : Valid v l) (hw : Valid w l) :
    ∀ (fuel i : Nat), fuel + i = l.length →
    isEqualToLoop v w fuel i = .ok true
  | 0, i => fun _ => rfl
  | fuel + 1, i => fun hfi => by
    have hi : i < l.length := by omega
    have hgv := get_ok hv hi
    have hgw := get_ok hw hi
    show (do
      let a ← v.get (i : Int)
      let b ← w.get (i : Int)
      if jStrictEq a b then isEqualToLoop v w fuel (i + 1)
      else .ok false) = .ok true
    rw [hgv, hgw]
    show (if jStrictEq (.elem (l.get ⟨i, hi⟩)) (.elem (l.get ⟨i, hi⟩)) then
      isEqualToLoop v w fuel (i + 1) else .ok false) = .ok true
    rw [if_pos (by simp [jStrictEq])]
    exact isEqualToLoop_true hv hw fuel (i + 1) (by omega)

/-- `isEqualTo` returns true on two valid snapshots of the same
sequence. -/
theorem isEqualTo_true {α : Type} [DecidableEq α] {v w : PVec α}
    {l : List α} (hv : Valid v l) (hw : Valid w l) :
    v.isEqualTo w = .ok true := by
  rw [PVec.isEqualTo, if_neg (by simp [hv.hsize, hw.hsize]), hv.hsize]
  exact isEqualToLoop_true hv hw l.length 0 (by omega)

/-- Snapshots reachable from the shared empty vector by the mutating
operations of the API. -/
inductive Reachable {α : Type} : PVec α → Prop where
  | empty : Reachable PVec.empty
  | push {v w : PVec α} {x : α} : Reachable v → v.push x = .ok w → Reachable w
  | set {v w : PVec α} {i : Int} {x : α} :
      Reachable v → v.set i x = .ok w → Reachable w
  | pop {v w : PVec α} : Reachable v → v.pop = .ok w → Reachable w

/-- Every reachable snapshot is a valid representation of some
sequence. -/
theorem reachable_valid {α : Type} {v : PVec α} (hr : Reachable v) :
    ∃ l, Valid v l := by
  induction hr with
  | empty => exact ⟨[], valid_empty⟩
  | push hr2 hok ih =>
    obtain ⟨l, hl⟩ := ih
    exact ⟨_, push_ok hl hok⟩
  | set hr2 hok ih =>
    obtain ⟨l, hl⟩ := ih
    rename_i v2 w2 i x
    by_cases hb : (v2.size : Int) ≤ i ∨ i < 0
    · rw [PVec.set, if_pos hb] at hok
      exact Except.noConfusion hok
    · push_neg at hb
      obtain ⟨h1, h2⟩ := hb
      have hieq : ((i.toNat : Nat) : Int) = i := Int.toNat_of_nonneg h2
      have hi : i.toNat < l.length := by
        rw [← hl.hsize]
        omega
      obtain ⟨w', hset, hval⟩ := set_ok hl hi x
      rw [hieq, hok] at hset
      injection hset with hww
      exact ⟨_, hww ▸ hval⟩
  | pop hr2 hok ih =>
    obtain ⟨l, hl⟩ := ih
    rename_i v2 w2
    have hne : v2.size ≠ 0 := by
      intro h0
      rw [PVec.pop, if_pos h0] at hok
      exact Except.noConfusion hok
    have hlen : 0 < l.length := by
      rw [← hl.hsize]
      omega
    obtain ⟨w', hpop, hval⟩ := pop_ok hl hlen
    rw [hok] at hpop
    injection hpop with hww
    exact ⟨_, hww ▸ hval⟩

/-!
## The sequential iterator (`PVecIterator`)
-/

/-- Iterator state `(size, tail, stack, leaf, index, jump)` as in the
source; `done` is implied by `index = size`. -/
structure PIter (α : Type) where
  size : Nat
  tail : JVal α
  stack : List (JVal α)
  leaf : JVal α
  index : Nat
  jump : Nat

/-- The constructor loop
`for (i = len - 2; i >= 0; i--) stack[i] = stack[i+1][0]` (entry
`len - 1` is the root). -/
def initStack {α : Type} (root : JVal α) : Nat → List (JVal α)
  | 0 => []
  | h + 1 => initStack (jGetD root 0) h ++ [root]

/-- `new PVecIterator(size, shift, root, tail)`. -/
def iterInit {α : Type} (v : PVec α) : PIter α :=
  if v.size ≤ 32 then
    ⟨v.size, v.tail, List.replicate (v.shift / 5) (JVal.arr []), v.tail, 0, 32⟩
  else if v.size ≤ 64 then
    ⟨v.size, v.tail, List.replicate (v.shift / 5) (JVal.arr []), v.root, 0, 32⟩
  else
    let stack := initStack v.root (v.shift / 5)
    ⟨v.size, v.tail, stack, jGetD (stack.getD 0 JVal.undef) 0, 0, 32⟩

/-- The `while ((diff >>> level) !== 0)` counting loop of `next()`
(fuelled; the stack depth bounds the iteration count). -/
def countUpdates : Nat → Nat → Nat → Nat
  | _, _, 0 => 0
  | diff, level, fuel + 1 =>
    if diff >>> level ≠ 0 then countUpdates diff (level + 5) fuel + 1 else 0

/-- The stack-refresh loop of `next()`:
`stack[su - 1] = stack[su][(index >>> level) & MASK]; su--; level -= 5`. -/
def refreshStack {α : Type} : List (JVal α) → Nat → Nat → Nat → List (JVal α)
  | stack, _, 0, _ => stack
  | stack, i, su + 1, level =>
    refreshStack
      (stack.set su (jGetD (stack.getD (su + 1) JVal.undef) (i >>> level % 32)))
      i su (level - 5)

/-- `next()`: yields `none` when exhausted, otherwise the next value
and the successor state. -/
def iterNext {α : Type} (st : PIter α) : Option (JVal α) × PIter α :=
  if st.index = st.size then (none, st)
  else
    let st1 :=
      if st.index = st.jump then
        if tailOff st.size ≤ st.index then
          { st with leaf := st.tail }
        else
          let diff := st.index ^^^ (st.index - 1)
          let su := countUpdates diff 10 st.stack.length
          let stack2 := refreshStack st.stack st.index su (5 * su + 5)
          { st with
            jump := st.jump + 32
            stack := stack2
            leaf := jGetD (stack2.getD 0 JVal.undef) (st.index >>> 5 % 32) }
      else st
    (some (jGetD st1.leaf (st1.index % 32)), { st1 with index := st1.index + 1 })

/-- Repeatedly calling `next` until `done`, collecting the yielded
values. -/
def iterToList {α : Type} : Nat → PIter α → List (JVal α)
  | 0, _ => []
  | fuel + 1, st =>
    match iterNext st with
    | (none, _) => []
    | (some x, st2) => x :: iterToList fuel st2

/-- The full traversal of `v` through its iterator
(`[Symbol.iterator]`). -/
def PVec.iterate {α : Type} (v : PVec α) : List (JVal α) :=
  iterToList v.size (iterInit v)

/-! ### Walk bookkeeping for the iterator -/

/-- Extending a descent by one level selects one more child. -/
theorem walk_snoc {α : Type} :
    ∀ (k : Nat) (node : JVal α) (i L : Nat),
    walk (k + 1) node i L = jGetD (walk k node i L) (i >>> (L - 5 * k) % 32)
  | 0, node, i, L => by
    show walk 0 (jGetD node (i >>> L % 32)) i (L - 5) = _
    rw [show L - 5 * 0 = L by omega]
    rfl
  | k + 1, node, i, L => by
    show walk (k + 1) (jGetD node (i >>> L % 32)) i (L - 5) = _
    rw [walk_snoc k (jGetD node (i >>> L % 32)) i (L - 5)]
    rw [show L - 5 - 5 * k = L - 5 * (k + 1) by omega]
    rfl

theorem div_div_pow (i a b : Nat) : i / 32 ^ a / 32 ^ b = i / 32 ^ (a + b) := by
  rw [Nat.div_div_eq_div_mul, ← pow_add]

/-- A depth-`k` descent from level `5 * m` only reads the index above
bit `5 * (m - k + 1)`. -/
theorem walk_congr {α : Type} :
    ∀ (k : Nat) {node : JVal α} {i i' m : Nat}, k ≤ m →
    i / 32 ^ (m - k + 1) = i' / 32 ^ (m - k + 1) →
    walk k node i (5 * m) = walk k node i' (5 * m)
  | 0, node, i, i', m => fun _ _ => rfl
  | k + 1, node, i, i', m => fun hk hdiv => by
    obtain ⟨m', rfl⟩ : ∃ m', m = m' + 1 := ⟨m - 1, by omega⟩
    have hsel : i >>> (5 * (m' + 1)) % 32 = i' >>> (5 * (m' + 1)) % 32 := by
      rw [shiftRight_five_mul, shiftRight_five_mul]
      have e1 : i / 32 ^ (m' + 1 - (k + 1) + 1) / 32 ^ k =
          i / 32 ^ (m' + 1) := by
        rw [div_div_pow, show m' + 1 - (k + 1) + 1 + k = m' + 1 by omega]
      have e2 : i' / 32 ^ (m' + 1 - (k + 1) + 1) / 32 ^ k =
          i' / 32 ^ (m' + 1) := by
        rw [div_div_pow, show m' + 1 - (k + 1) + 1 + k = m' + 1 by omega]
      rw [← e1, ← e2, hdiv]
    show walk k (jGetD node (i >>> (5 * (m' + 1)) % 32)) i (5 * (m' + 1) - 5) =
      walk k (jGetD node (i' >>> (5 * (m' + 1)) % 32)) i' (5 * (m' + 1) - 5)
    rw [hsel, show 5 * (m' + 1) - 5 = 5 * m' by omega]
    exact walk_congr k (by omega) (by
      rw [show m' - k + 1 = m' + 1 - (k + 1) + 1 by omega]
      exact hdiv)

/-- Descents of index 0 ignore the level. -/
theorem walk_zero {α : Type} :
    ∀ (k : Nat) (node : JVal α) (L L' : Nat),
    walk k node 0 L = walk k node 0 L'
  | 0, node, L, L' => rfl
  | k + 1, node, L, L' => by
    show walk k (jGetD node (0 >>> L % 32)) 0 (L - 5) =
      walk k (jGetD node (0 >>> L' % 32)) 0 (L' - 5)
    rw [Nat.zero_shiftRight, Nat.zero_shiftRight]
    exact walk_zero k _ _ _

/-- Subtracting one leaf from an index does not change its block at a
granularity coarser than the remainder. -/
theorem div_sub_32 {n M : Nat} (hM : 0 < M) (h32 : 32 ≤ n % M) :
    (n - 32) / M = n / M := by
  have hdm := Nat.div_add_mod' n M
  have hmlt : n % M < M := Nat.mod_lt _ hM
  have hexp : n - 32 = (n % M - 32) + n / M * M := by omega
  rw [hexp, Nat.add_mul_div_right _ _ hM, Nat.div_eq_of_lt (by omega),
    Nat.zero_add]

/-- The constructor stack: entry `m` is the `0`-path node `m + 1`
levels above the leaves. -/
theorem initStack_spec {α : Type} :
    ∀ (H : Nat) (root : JVal α),
    (initStack root H).length = H ∧
    (∀ m, m < H → (initStack root H).getD m JVal.undef =
      walk (H - 1 - m) root 0 (5 * H))
  | 0, root => ⟨rfl, fun m hm => absurd hm (by omega)⟩
  | H + 1, root => by
    obtain ⟨ihlen, ihspec⟩ := initStack_spec H (jGetD root 0)
    constructor
    · show (initStack (jGetD root 0) H ++ [root]).length = H + 1
      rw [List.length_append, ihlen]
      rfl
    · intro m hm
      show (initStack (jGetD root 0) H ++ [root]).getD m JVal.undef = _
      by_cases hmh : m = H
      · subst hmh
        rw [List.getD_eq_getElem _ _ (by rw [List.length_append, ihlen]; simp),
          List.getElem_append_right (by omega)]
        rw [List.getElem_singleton]
        rw [show m + 1 - 1 - m = 0 by omega]
        rfl
      · rw [List.getD_eq_getElem _ _
            (by rw [List.length_append, ihlen]; simp; omega),
          List.getElem_append_left (by omega),
          ← List.getD_eq_getElem _ JVal.undef (by omega),
          ihspec m (by omega)]
        rw [show H + 1 - 1 - m = (H - 1 - m) + 1 by omega]
        show _ = walk (H - 1 - m) (jGetD root (0 >>> (5 * (H + 1)) % 32)) 0
          (5 * (H + 1) - 5)
        rw [Nat.zero_shiftRight]
        exact walk_zero _ _ _ _

/-- The `while` loop of `next()` counts the levels (from bit 10 up) at
which the path to the new block diverges. -/
theorem countUpdates_eq {n a q : Nat} (hq : ¬ 32 ∣ q) (hn : n = 32 ^ a * q)
    (hqpos : 0 < q) :
    ∀ (fuel k : Nat), 1 ≤ k → a + 1 - k ≤ fuel →
    countUpdates (n ^^^ (n - 1)) (5 * k) fuel = a + 1 - k
  | 0, k => by
    intro hk hfuel
    show (0:Nat) = a + 1 - k
    omega
  | fuel + 1, k => fun hk hfuel => by
    have hnpos : 0 < n := by
      rw [hn]
      exact Nat.mul_pos (Nat.pos_pow_of_pos _ (by omega)) hqpos
    have hpow : (2:Nat) ^ (5 * k) = 32 ^ k := by rw [Nat.pow_mul]
    have hdvd_iff : 32 ^ k ∣ n ↔ k ≤ a := by
      constructor
      · intro hd
        by_contra hgt
        have h1 : (32:Nat) ^ (a + 1) ∣ 32 ^ k := pow_dvd_pow 32 (by omega)
        obtain ⟨c, hc⟩ := dvd_trans h1 hd
        rw [hn, show (32:Nat) ^ (a + 1) = 32 ^ a * 32 by ring,
          Nat.mul_assoc] at hc
        exact hq ⟨c, Nat.eq_of_mul_eq_mul_left
          (Nat.pos_pow_of_pos _ (by omega)) hc⟩
      · intro hle
        rw [hn]
        exact Dvd.dvd.mul_right (pow_dvd_pow 32 hle) q
    have hcond : ((n ^^^ (n - 1)) >>> (5 * k) ≠ 0) ↔ k ≤ a := by
      rw [diverges_shift hnpos, hpow]
      exact hdvd_iff
    show (if (n ^^^ (n - 1)) >>> (5 * k) ≠ 0 then
      countUpdates (n ^^^ (n - 1)) (5 * k + 5) fuel + 1 else 0) = a + 1 - k
    by_cases hka : k ≤ a
    · rw [if_pos (hcond.2 hka), show 5 * k + 5 = 5 * (k + 1) by ring,
        countUpdates_eq hq hn hqpos fuel (k + 1) (by omega) (by omega)]
      omega
    · rw [if_neg (fun hcon => hka (hcond.1 hcon))]
      omega

/-- The stack-refresh loop of `next()`: given correct entries from
position `su` up, it recomputes the lower entries top-down, leaving
the whole stack correct for the new index. -/
theorem refreshStack_spec {α : Type} {root : JVal α} {n H : Nat} :
    ∀ (su : Nat) (stack : List (JVal α)),
    stack.length = H → su < H →
    (∀ m, su ≤ m → m < H →
      stack.getD m JVal.undef = walk (H - 1 - m) root n (5 * H)) →
    (refreshStack stack n su (5 * su + 5)).length = H ∧
    (∀ m, m < H →
      (refreshStack stack n su (5 * su + 5)).getD m JVal.undef =
        walk (H - 1 - m) root n (5 * H))
  | 0, stack => fun hlen hsu hinv => ⟨hlen, fun m hm => hinv m (by omega) hm⟩
  | su + 1, stack => fun hlen hsu hinv => by
    have htop : stack.getD (su + 1) JVal.undef =
        walk (H - 1 - (su + 1)) root n (5 * H) :=
      hinv (su + 1) (by omega) (by omega)
    have hnew : jGetD (stack.getD (su + 1) JVal.undef)
        (n >>> (5 * (su + 1) + 5) % 32) = walk (H - 1 - su) root n (5 * H) := by
      rw [htop]
      have hsn := walk_snoc (H - 1 - (su + 1)) root n (5 * H)
      rw [show H - 1 - (su + 1) + 1 = H - 1 - su by omega,
        show 5 * H - 5 * (H - 1 - (su + 1)) = 5 * (su + 1) + 5 by omega] at hsn
      exact hsn.symm
    have hlen2 : (stack.set su (jGetD (stack.getD (su + 1) JVal.undef)
        (n >>> (5 * (su + 1) + 5) % 32))).length = H := by
      rw [List.length_set]
      exact hlen
    have hinv2 : ∀ m, su ≤ m → m < H →
        (stack.set su (jGetD (stack.getD (su + 1) JVal.undef)
          (n >>> (5 * (su + 1) + 5) % 32))).getD m JVal.undef =
        walk (H - 1 - m) root n (5 * H) := by
      intro m hm1 hm2
      by_cases hm : m = su
      · subst hm
        rw [List.getD_eq_getElem _ _ (by rw [List.length_set]; omega),
          List.getElem_set, if_pos rfl]
        exact hnew
      · rw [List.getD_eq_getElem _ _ (by rw [List.length_set]; omega),
          List.getElem_set, if_neg (by omega),
          ← List.getD_eq_getElem _ JVal.undef (by omega)]
        exact hinv m (by omega) hm2
    have hrec := refreshStack_spec su (stack.set su (jGetD (stack.getD (su + 1)
        JVal.undef) (n >>> (5 * (su + 1) + 5) % 32))) hlen2 (by omega) hinv2
    have hred : refreshStack stack n (su + 1) (5 * (su + 1) + 5) =
        refreshStack (stack.set su (jGetD (stack.getD (su + 1) JVal.undef)
          (n >>> (5 * (su + 1) + 5) % 32))) n su (5 * su + 5) := by
      show refreshStack (stack.set su (jGetD (stack.getD (su + 1) JVal.undef)
        (n >>> (5 * (su + 1) + 5) % 32))) n su (5 * (su + 1) + 5 - 5) = _
      rw [show 5 * (su + 1) + 5 - 5 = 5 * su + 5 by omega]
    rw [hred]
    exact hrec

/-- Reading slot `n & MASK` of the leaf reached by a full descent for
index `n` yields element `n`. -/
theorem trie_read {α : Type} {l : List α} {root : JVal α} {H n : Nat}
    (hrep : rep H (l.take (tailOff l.length)) root)
    (hn : n < tailOff l.length) (hle : tailOff l.length ≤ l.length) :
    jGetD (walk H root n (5 * H)) (n % 32) = .elem (l.get ⟨n, by omega⟩) := by
  have hbound : n < 0 + (l.take (tailOff l.length)).length := by
    rw [List.length_take]
    omega
  have hwalk := walk_rep H hrep (dvd_zero _) (Nat.zero_le n) hbound
  simp only [Nat.sub_zero] at hwalk
  rw [hwalk]
  have hlr := leaf_read (l := l.take (tailOff l.length)) (a := 0)
    (Dvd.intro 0 rfl) (Nat.zero_le n) (by rw [List.length_take]; omega)
  simp only [Nat.sub_zero] at hlr
  show aGet (((( l.take (tailOff l.length)).drop (n / 32 * 32)).take 32).map
    JVal.elem) (n % 32) = _
  rw [hlr]
  congr 1
  rw [List.get_eq_getElem, List.get_eq_getElem, List.getElem_take]

/-- Reading index `n` from the canonical tail leaf. -/
theorem tail_read {α : Type} {l : List α} {n : Nat}
    (hn : n < l.length) (htoff : tailOff l.length ≤ n) :
    jGetD (.arr ((l.drop (tailOff l.length)).map JVal.elem)) (n % 32) =
      .elem (l.get ⟨n, hn⟩) := by
  obtain ⟨hdvd, hle1, hge⟩ := tailOff_spec (by omega : 0 < l.length)
  have hmod : n % 32 = n - tailOff l.length := by
    have h2 := mod32_add (a := tailOff l.length) (r := n - tailOff l.length) hdvd
    rw [show tailOff l.length + (n - tailOff l.length) = n by omega] at h2
    rw [h2, Nat.mod_eq_of_lt (by omega)]
  show aGet ((l.drop (tailOff l.length)).map JVal.elem) (n % 32) = _
  rw [hmod, aGet, List.getD_eq_getElem _ _
      (by rw [List.length_map, List.length_drop]; omega),
    List.getElem_map, List.getElem_drop, List.get_eq_getElem]
  have e2 : l[tailOff l.length + (n - tailOff l.length)]? = l[n]? := by
    rw [show tailOff l.length + (n - tailOff l.length) = n by omega]
  rw [List.getElem?_eq_getElem (by omega), List.getElem?_eq_getElem hn] at e2
  exact congrArg JVal.elem (Option.some.inj e2)

/-- One unfolding of the collection loop. -/
theorem iterToList_step {α : Type} (fuel : Nat) (st : PIter α) :
    iterToList (fuel + 1) st =
      (match iterNext st with
        | (none, _) => []
        | (some x, st2) => x :: iterToList fuel st2) := rfl

/-- `next()` on an exhausted iterator. -/
theorem iterNext_done {α : Type} (sz : Nat) (tl : JVal α)
    (stk : List (JVal α)) (lf : JVal α) (n jp : Nat) (h : n = sz) :
    iterNext (⟨sz, tl, stk, lf, n, jp⟩ : PIter α) =
      (none, ⟨sz, tl, stk, lf, n, jp⟩) := by
  show (if n = sz then _ else _) = _
  rw [if_pos h]

/-- `next()` strictly inside a 32-block: read the cached leaf. -/
theorem iterNext_read {α : Type} (sz : Nat) (tl : JVal α)
    (stk : List (JVal α)) (lf : JVal α) (n jp : Nat) (h1 : n ≠ sz)
    (h2 : n ≠ jp) :
    iterNext (⟨sz, tl, stk, lf, n, jp⟩ : PIter α) =
      (some (jGetD lf (n % 32)), ⟨sz, tl, stk, lf, n + 1, jp⟩) := by
  show (if n = sz then _ else _) = _
  rw [if_neg h1, if_neg h2]

/-- `next()` at the jump point once the tail is reached: switch the
leaf to the tail. -/
theorem iterNext_switch {α : Type} (sz : Nat) (tl : JVal α)
    (stk : List (JVal α)) (lf : JVal α) (n jp : Nat) (h1 : n ≠ sz)
    (h2 : n = jp) (h3 : tailOff sz ≤ n) :
    iterNext (⟨sz, tl, stk, lf, n, jp⟩ : PIter α) =
      (some (jGetD tl (n % 32)), ⟨sz, tl, stk, tl, n + 1, jp⟩) := by
  show (if n = sz then _ else _) = _
  rw [if_neg h1, if_pos h2, if_pos h3]

/-- `next()` at a jump point inside the trie: refresh the stack and
the leaf. -/
theorem iterNext_refresh {α : Type} (sz : Nat) (tl : JVal α)
    (stk : List (JVal α)) (lf : JVal α) (n jp : Nat) (h1 : n ≠ sz)
    (h2 : n = jp) (h3 : ¬ tailOff sz ≤ n) :
    iterNext (⟨sz, tl, stk, lf, n, jp⟩ : PIter α) =
      (some (jGetD (jGetD ((refreshStack stk n
          (countUpdates (n ^^^ (n - 1)) 10 stk.length)
          (5 * countUpdates (n ^^^ (n - 1)) 10 stk.length + 5)).getD 0
          JVal.undef) (n >>> 5 % 32)) (n % 32)),
        ⟨sz, tl,
          refreshStack stk n (countUpdates (n ^^^ (n - 1)) 10 stk.length)
            (5 * countUpdates (n ^^^ (n - 1)) 10 stk.length + 5),
          jGetD ((refreshStack stk n
            (countUpdates (n ^^^ (n - 1)) 10 stk.length)
            (5 * countUpdates (n ^^^ (n - 1)) 10 stk.length + 5)).getD 0
            JVal.undef) (n >>> 5 % 32),
          n + 1, jp + 32⟩) := by
  show (if n = sz then _ else _) = _
  rw [if_neg h1, if_pos h2, if_neg h3]

/-- Unfolding the collection loop when `next` yields a value. -/
theorem iterToList_cons {α : Type} (fuel : Nat) {st : PIter α} {x : JVal α}
    {st2 : PIter α} (h : iterNext st = (some x, st2)) :
    iterToList (fuel + 1) st = x :: iterToList fuel st2 := by
  rw [iterToList_step, h]

/-- Unfolding the collection loop when the iterator is done. -/
theorem iterToList_nil {α : Type} (fuel : Nat) {st : PIter α}
    {st2 : PIter α} (h : iterNext st = (none, st2)) :
    iterToList (fuel + 1) st = [] := by
  rw [iterToList_step, h]

/-- Iteration in the tail phase: once the leaf is the tail, the
iterator yields exactly the remaining elements. -/
theorem iterA {α : Type} {l : List α} :
    ∀ (fuel : Nat) (stack : List (JVal α)) (n jp : Nat),
    l.length - n ≤ fuel → n ≤ l.length → tailOff l.length ≤ n →
    iterToList fuel
      (⟨l.length, .arr ((l.drop (tailOff l.length)).map JVal.elem), stack,
        .arr ((l.drop (tailOff l.length)).map JVal.elem), n, jp⟩ : PIter α) =
      (l.drop n).map JVal.elem
  | 0, stack, n, jp => by
    intro hfuel hnl htoff
    have hnil : l.drop n = [] := List.drop_eq_nil_of_le (by omega)
    rw [hnil, List.map_nil]
    rfl
  | fuel + 1, stack, n, jp => by
    intro hfuel hnl htoff
    by_cases hdone : n = l.length
    · rw [iterToList_nil fuel (iterNext_done _ _ _ _ _ _ hdone)]
      have hnil : l.drop n = [] := List.drop_eq_nil_of_le (by omega)
      rw [hnil, List.map_nil]
    · have hn : n < l.length := by omega
      by_cases hj : n = jp
      · rw [iterToList_cons fuel (iterNext_switch _ _ _ _ _ _ hdone hj htoff),
          tail_read hn htoff,
          iterA fuel stack (n + 1) jp (by omega) (by omega) (by omega),
          List.drop_eq_getElem_cons hn, List.map_cons]
        rfl
      · rw [iterToList_cons fuel (iterNext_read _ _ _ _ _ _ hdone hj),
          tail_read hn htoff,
          iterA fuel stack (n + 1) jp (by omega) (by omega) (by omega),
          List.drop_eq_getElem_cons hn, List.map_cons]
        rfl

/-- Iteration on a height-0 trie (`32 < size ≤ 64`): the leaf starts
as the root leaf, then switches to the tail at index 32. -/
theorem iterC {α : Type} {l : List α} (h32 : tailOff l.length = 32) :
    ∀ (fuel : Nat) (stack : List (JVal α)) (n : Nat),
    l.length - n ≤ fuel → n ≤ tailOff l.length →
    iterToList fuel
      (⟨l.length, .arr ((l.drop (tailOff l.length)).map JVal.elem), stack,
        .arr ((l.take (tailOff l.length)).map JVal.elem), n, 32⟩ : PIter α) =
      (l.drop n).map JVal.elem
  | 0, stack, n => by
    intro hfuel hn32
    have hlpos : 0 < l.length := by
      by_contra h0
      rw [show l.length = 0 by omega] at h32
      exact absurd h32 (by decide)
    obtain ⟨hdvd, hle1, hge⟩ := tailOff_spec hlpos
    omega
  | fuel + 1, stack, n => by
    intro hfuel hn32
    have hlpos : 0 < l.length := by
      by_contra h0
      rw [show l.length = 0 by omega] at h32
      exact absurd h32 (by decide)
    obtain ⟨hdvd, hle1, hge⟩ := tailOff_spec hlpos
    have hn : n < l.length := by omega
    by_cases hj : n = 32
    · rw [iterToList_cons fuel (iterNext_switch _ _ _ _ _ _
          (show n ≠ l.length by omega) hj (by omega)),
        tail_read hn (by omega),
        iterA fuel stack (n + 1) 32 (by omega) (by omega) (by omega),
        List.drop_eq_getElem_cons hn, List.map_cons]
      rfl
    · rw [iterToList_cons fuel (iterNext_read _ _ _ _ _ _
          (show n ≠ l.length by omega) hj)]
      have hval : jGetD (.arr ((l.take (tailOff l.length)).map JVal.elem))
          (n % 32) = .elem (l.get ⟨n, hn⟩) := by
        show aGet ((l.take (tailOff l.length)).map JVal.elem) (n % 32) = _
        rw [Nat.mod_eq_of_lt (by omega), aGet, List.getD_eq_getElem _ _
            (by rw [List.length_map, List.length_take]; omega),
          List.getElem_map, List.getElem_take, List.get_eq_getElem]
      rw [hval, iterC h32 fuel stack (n + 1) (by omega) (by omega),
        List.drop_eq_getElem_cons hn, List.map_cons]
      rfl

/-- Iteration in the trie phase (`size > 64`): the stack caches the
path to the current block, refreshed lazily at the 32-block
boundaries. -/
theorem iterB {α : Type} {l : List α} {root : JVal α} {H : Nat}
    (hrep : rep H (l.take (tailOff l.length)) root) (hH : 1 ≤ H) :
    ∀ (fuel : Nat) (stack : List (JVal α)) (leaf : JVal α) (n : Nat),
    l.length - n ≤ fuel → n ≤ tailOff l.length → stack.length = H →
    (∀ m, m < H → stack.getD m JVal.undef =
      walk (H - 1 - m) root (32 * ((n - 1) / 32)) (5 * H)) →
    leaf = walk H root (32 * ((n - 1) / 32)) (5 * H) →
    iterToList fuel
      (⟨l.length, .arr ((l.drop (tailOff l.length)).map JVal.elem), stack,
        leaf, n, 32 * ((n - 1) / 32) + 32⟩ : PIter α) =
      (l.drop n).map JVal.elem
  | 0, stack, leaf, n => by
    intro hfuel hntoff hstk hstack hleaf
    have hpos0 := rep_length_pos hrep
    rw [List.length_take] at hpos0
    have hlpos : 0 < l.length := by omega
    obtain ⟨hdvd, hle1, hge⟩ := tailOff_spec hlpos
    omega
  | fuel + 1, stack, leaf, n => by
    intro hfuel hntoff hstk hstack hleaf
    have hpos0 := rep_length_pos hrep
    rw [List.length_take] at hpos0
    have hlpos : 0 < l.length := by omega
    have htpos : 0 < tailOff l.length := by omega
    obtain ⟨hdvd, hle1, hge⟩ := tailOff_spec hlpos
    have hcap := rep_length_le hrep
    rw [List.length_take, min_eq_left (by omega)] at hcap
    have hn : n < l.length := by omega
    by_cases hj : n = 32 * ((n - 1) / 32) + 32
    · by_cases hsw : tailOff l.length ≤ n
      · -- `n` has reached the tail offset: switch to the tail
        rw [iterToList_cons fuel (iterNext_switch _ _ _ _ _ _
            (show n ≠ l.length by omega) hj hsw),
          tail_read hn hsw,
          iterA fuel stack (n + 1) (32 * ((n - 1) / 32) + 32) (by omega)
            (by omega) (by omega),
          List.drop_eq_getElem_cons hn, List.map_cons]
        rfl
      · -- refresh inside the trie
        have h32n : 32 ∣ n := by omega
        have hntoff2 : n < tailOff l.length := by omega
        obtain ⟨a, q, hq32, hfact⟩ := Nat.exists_eq_pow_mul_and_not_dvd
          (show n ≠ 0 by omega) 32 (by norm_num)
        have hqpos : 0 < q := by
          rcases Nat.eq_zero_or_pos q with h0 | h
          · rw [h0, Nat.mul_zero] at hfact
            omega
          · exact h
        have ha1 : 1 ≤ a := by
          by_contra h0
          rw [show a = 0 by omega, pow_zero, Nat.one_mul] at hfact
          rw [hfact] at h32n
          exact hq32 h32n
        have h32a_dvd : 32 ^ a ∣ n := by
          rw [hfact]
          exact dvd_mul_right _ q
        have hnota : ¬ 32 ^ (a + 1) ∣ n := by
          intro hd
          obtain ⟨c, hc⟩ := hd
          rw [hfact, show (32:Nat) ^ (a + 1) = 32 ^ a * 32 by ring,
            Nat.mul_assoc] at hc
          exact hq32 ⟨c, Nat.eq_of_mul_eq_mul_left
            (Nat.pos_pow_of_pos _ (by omega)) hc⟩
        have haH : a ≤ H := by
          by_contra hgt
          have h1 : (32:Nat) ^ (H + 1) ≤ 32 ^ a :=
            Nat.pow_le_pow_right (by omega) (by omega)
          have h2 : 32 ^ a ≤ n := Nat.le_of_dvd (by omega) h32a_dvd
          omega
        have hsu : countUpdates (n ^^^ (n - 1)) 10 stack.length = a - 1 := by
          have hcu := countUpdates_eq hq32 hfact hqpos stack.length 2
            (by omega) (by omega)
          rw [show (5:Nat) * 2 = 10 from rfl] at hcu
          omega
        have hb : 32 * ((n - 1) / 32) = n - 32 := by omega
        have hstale : ∀ m, a - 1 ≤ m → m < H →
            stack.getD m JVal.undef = walk (H - 1 - m) root n (5 * H) := by
          intro m hm1 hm2
          rw [hstack m hm2, hb]
          apply walk_congr (H - 1 - m) (by omega)
          rw [show H - (H - 1 - m) + 1 = m + 2 by omega]
          have hMpos : 0 < (32:Nat) ^ (m + 2) := Nat.pos_pow_of_pos _ (by omega)
          have hdvd_am : (32:Nat) ^ a ∣ 32 ^ (m + 2) := pow_dvd_pow 32 (by omega)
          have hmodnz : n % 32 ^ (m + 2) ≠ 0 := by
            intro h0
            exact hnota (dvd_trans (pow_dvd_pow 32 (by omega))
              (Nat.dvd_of_mod_eq_zero h0))
          have hmoddvd : (32:Nat) ^ a ∣ n % 32 ^ (m + 2) :=
            (Nat.dvd_mod_iff hdvd_am).2 h32a_dvd
          have h32pa : (32:Nat) ≤ 32 ^ a := Nat.le_self_pow (by omega) 32
          have h32mod : 32 ≤ n % 32 ^ (m + 2) := by
            have := Nat.le_of_dvd (by omega) hmoddvd
            omega
          exact div_sub_32 hMpos h32mod
        obtain ⟨hre_len, hre_spec⟩ := @refreshStack_spec α root n H
          (a - 1) stack hstk (by omega) hstale
        have hleaf2 : jGetD ((refreshStack stack n (a - 1)
            (5 * (a - 1) + 5)).getD 0 JVal.undef) (n >>> 5 % 32) =
            walk H root n (5 * H) := by
          rw [hre_spec 0 (by omega)]
          have hsn := walk_snoc (H - 1) root n (5 * H)
          rw [show H - 1 + 1 = H by omega,
            show 5 * H - 5 * (H - 1) = 5 by omega] at hsn
          rw [show H - 1 - 0 = H - 1 by omega]
          exact hsn.symm
        rw [iterToList_cons fuel (iterNext_refresh _ _ _ _ _ _
            (show n ≠ l.length by omega) hj hsw)]
        rw [hsu, hleaf2, trie_read hrep hntoff2 (by omega)]
        have hrec := iterB hrep hH fuel
          (refreshStack stack n (a - 1) (5 * (a - 1) + 5))
          (walk H root n (5 * H)) (n + 1) (by omega) (by omega) hre_len
          (by intro m hm
              rw [show 32 * ((n + 1 - 1) / 32) = n by omega]
              exact hre_spec m hm)
          (by rw [show 32 * ((n + 1 - 1) / 32) = n by omega])
        rw [show 32 * ((n + 1 - 1) / 32) + 32 =
          32 * ((n - 1) / 32) + 32 + 32 by omega] at hrec
        rw [hrec, List.drop_eq_getElem_cons hn, List.map_cons]
        rfl
    · -- plain read inside the current block
      have hnm : n < tailOff l.length := by omega
      rw [iterToList_cons fuel (iterNext_read _ _ _ _ _ _
          (show n ≠ l.length by omega) hj)]
      have hleafn : leaf = walk H root n (5 * H) := by
        rw [hleaf]
        apply walk_congr H (le_refl H)
        rw [show H - H + 1 = 1 by omega, pow_one]
        omega
      have hval : jGetD leaf (n % 32) = .elem (l.get ⟨n, hn⟩) := by
        rw [hleafn]
        exact trie_read hrep hnm (by omega)
      have hb2 : 32 * ((n + 1 - 1) / 32) = 32 * ((n - 1) / 32) := by omega
      have hrec := iterB hrep hH fuel stack leaf (n + 1) (by omega) (by omega)
        hstk
        (by intro m hm
            rw [hb2]
            exact hstack m hm)
        (by rw [hb2]; exact hleaf)
      rw [hb2] at hrec
      rw [hval, hrec, List.drop_eq_getElem_cons hn, List.map_cons]
      rfl

/-- The iterator of a valid snapshot yields exactly the represented
sequence. -/
theorem iterate_ok {α : Type} {v : PVec α} {l : List α} (hv : Valid v l) :
    v.iterate = l.map JVal.elem := by
  obtain ⟨hsize, htail, hroot⟩ := hv
  show iterToList v.size (iterInit v) = l.map JVal.elem
  rw [hsize]
  by_cases hle32 : l.length ≤ 32
  · have hinit : iterInit v = ⟨v.size, v.tail,
        List.replicate (v.shift / 5) (JVal.arr []), v.tail, 0, 32⟩ := by
      rw [iterInit, if_pos (show v.size ≤ 32 by rw [hsize]; exact hle32)]
    rw [hinit, htail, hsize]
    have hres := iterA (l := l) l.length
      (List.replicate (v.shift / 5) (JVal.arr []))
      0 32 (by omega) (by omega) (by unfold tailOff; omega)
    rw [List.drop_zero] at hres
    exact hres
  · by_cases hle64 : l.length ≤ 64
    · have htoff32 : tailOff l.length = 32 := by
        unfold tailOff
        omega
      rcases hroot with ⟨hz, hsh, hrt⟩ | ⟨h, hsh, hrep, htight⟩
      · rw [htoff32] at hz
        exact absurd hz (by omega)
      · have h0 : h = 0 := by
          rcases htight with h0 | hlt
          · exact h0
          · rw [htoff32] at hlt
            by_contra hne0
            have := Nat.le_self_pow hne0 (32:Nat)
            omega
        subst h0
        obtain ⟨hlen32, hrt⟩ := hrep
        have hinit : iterInit v = ⟨v.size, v.tail,
            List.replicate (v.shift / 5) (JVal.arr []), v.root, 0, 32⟩ := by
          rw [iterInit, if_neg (show ¬ v.size ≤ 32 by rw [hsize]; omega),
            if_pos (show v.size ≤ 64 by rw [hsize]; omega)]
        rw [hinit, htail, hsize, hrt]
        have hres := iterC htoff32 l.length
          (List.replicate (v.shift / 5) (JVal.arr [])) 0 (by omega) (by omega)
        rw [List.drop_zero] at hres
        exact hres
    · rcases hroot with ⟨hz, hsh, hrt⟩ | ⟨h, hsh, hrep, htight⟩
      · have : 64 ≤ tailOff l.length := by
          unfold tailOff
          omega
        omega
      · have hlpos : 0 < l.length := by omega
        obtain ⟨hdvd, hle1, hge⟩ := tailOff_spec hlpos
        have htoff64 : 64 ≤ tailOff l.length := by
          unfold tailOff
          omega
        have hH1 : 1 ≤ h := by
          by_contra h0
          rw [show h = 0 by omega] at hrep
          have := hrep.1
          rw [List.length_take] at this
          omega
        have hinit : iterInit v = ⟨v.size, v.tail,
            initStack v.root (v.shift / 5),
            jGetD ((initStack v.root (v.shift / 5)).getD 0 JVal.undef) 0,
            0, 32⟩ := by
          rw [iterInit, if_neg (show ¬ v.size ≤ 32 by rw [hsize]; omega),
            if_neg (show ¬ v.size ≤ 64 by rw [hsize]; omega)]
        rw [hinit, htail, hsize, hsh, show 5 * h / 5 = h by omega]
        obtain ⟨hislen, hisspec⟩ := initStack_spec h v.root
        have hleaf0 : jGetD ((initStack v.root h).getD 0 JVal.undef) 0 =
            walk h v.root 0 (5 * h) := by
          rw [hisspec 0 (by omega), show h - 1 - 0 = h - 1 by omega]
          have hsn := walk_snoc (h - 1) v.root 0 (5 * h)
          rw [show h - 1 + 1 = h by omega] at hsn
          rw [hsn, Nat.zero_shiftRight]
        rw [hleaf0]
        have hrec := iterB hrep hH1 l.length (initStack v.root h)
          (walk h v.root 0 (5 * h)) 0 (by omega) (by omega) hislen
          (by intro m hm
              rw [show 32 * ((0 - 1) / 32) = 0 from rfl]
              exact hisspec m hm)
          (by rw [show 32 * ((0 - 1) / 32) = 0 from rfl])
        rw [show 32 * ((0 - 1) / 32) + 32 = 32 from rfl] at hrec
        rw [List.drop_zero] at hrec
        exact hrec

/-!
## Heap embedding for the persistence (frame) property

The pure embedding above cannot express the claim that a mutating
operation leaves *previously observed* snapshots unchanged, because in
JavaScript the operations do mutate freshly allocated arrays in place
(`newTail[i & MASK] = val`, `node[subidx] = child`, ...), and the
persistence guarantee is exactly that those writes never hit an array
owned by an existing snapshot.  Here arrays live in an explicit store
(heap) addressed by allocation order; every in-place array mutation of
the source is a store write, and persistence becomes: the store cells
that existed before the operation are bit-for-bit unchanged after it.
-/

/-- A JS value in the heap model: arrays are references into the
store. -/
inductive HVal (α : Type) where
  | undef : HVal α
  | null : HVal α
  | elem (x : α) : HVal α
  | ref (a : Nat) : HVal α
deriving DecidableEq

/-- The store: array `a` is the cell at address `a`, in allocation
order. -/
abbrev Store (α : Type) : Type := List (List (HVal α))

/-- JS array read `a[i]` on a cell (holes and past-the-end reads give
`undefined`). -/
def hAGet {α : Type} (cells : List (HVal α)) (i : Nat) : HVal α :=
  cells.getD i HVal.undef

/-- JS array write `a[i] = v` on a cell: in-range writes replace the
slot, a write past the end pads with holes. -/
def hASet {α : Type} (cells : List (HVal α)) (i : Nat) (v : HVal α) : List (HVal α) :=
  if i < cells.length then cells.set i v
  else cells ++ List.replicate (i - cells.length) HVal.undef ++ [v]

/-- Follow a reference to its cell; indexing a non-array throws
TypeError. -/
def deref {α : Type} (σ : Store α) : HVal α → Except JErr (List (HVal α))
  | .ref a =>
    match (σ : List (List (HVal α)))[a]? with
    | some cell => .ok cell
    | none => .error .typeError
  | _ => .error .typeError

/-- Allocate a fresh array holding `cell` (`[...]` literals, spreads
and `new Array`), returning its address. -/
def halloc {α : Type} (σ : Store α) (cell : List (HVal α)) : Store α × Nat :=
  ((σ : List (List (HVal α))) ++ [cell], (σ : List (List (HVal α))).length)

/-- In-place array mutation `σ[a][i] = x`. -/
def hwrite {α : Type} (σ : Store α) (a i : Nat) (x : HVal α) : Store α :=
  (σ : List (List (HVal α))).set a (hASet ((σ : List (List (HVal α))).getD a []) i x)

/-- The store-level property read `x[i]`: `deref` then read. -/
def hIndex {α : Type} (σ : Store α) (t : HVal α) (i : Nat) : Except JErr (HVal α) := do
  let cells ← deref σ t
  .ok (hAGet cells i)

/-- A `PVec` snapshot in the heap model: `root` and `tail` are (on
well-formed snapshots) references into the store. -/
structure HPVec (α : Type) where
  size : Nat
  shift : Nat
  root : HVal α
  tail : HVal α

/-- The trie descent of `get` in the heap model (see `getLoop`). -/
def hgetLoop {α : Type} (σ : Store α) : Nat → HVal α → Nat → Nat → Except JErr (HVal α)
  | 0, node, _, _ => .ok node
  | fuel + 1, node, i, level =>
    if 0 < level then do
      let node' ← hIndex σ node (i >>> level % 32)
      hgetLoop σ fuel node' i (level - 5)
    else .ok node

/-- `get(i)` in the heap model. -/
def HPVec.get {α : Type} (σ : Store α) (v : HPVec α) (i : Int) : Except JErr (HVal α) :=
  if (v.size : Int) ≤ i ∨ i < 0 then .error .bounds
  else
    let n := i.toNat
    if tailOff v.size ≤ n then hIndex σ v.tail (n % 32)
    else do
      let node ← hgetLoop σ v.shift v.root n v.shift
      hIndex σ node (n % 32)

/-- The path-copying loop of `set` in the heap model: clone the child
(allocating a fresh cell), splice the clone into the (freshly
allocated) parent by an in-place write, descend; at the bottom write
the element in place. -/
def hsetLoop {α : Type} : Nat → Store α → Nat → Nat → α → Nat → Except JErr (Store α)
  | 0, σ, node, i, x, level =>
    if 0 < level then .ok σ
    else .ok (hwrite σ node (i % 32) (.elem x))
  | fuel + 1, σ, node, i, x, level =>
    if 0 < level then do
      let subidx := i >>> level % 32
      let child ← deref σ (hAGet ((σ : List (List (HVal α))).getD node []) subidx)
      let p := halloc σ child
      let σ2 := hwrite p.1 node subidx (.ref p.2)
      hsetLoop fuel σ2 p.2 i x (level - 5)
    else .ok (hwrite σ node (i % 32) (.elem x))

/-- `set(i, val)` in the heap model. -/
def HPVec.set {α : Type} (σ : Store α) (v : HPVec α) (i : Int) (x : α) :
    Except JErr (Store α × HPVec α) :=
  if (v.size : Int) ≤ i ∨ i < 0 then .error .bounds
  else
    let n := i.toNat
    if tailOff v.size ≤ n then do
      let t ← deref σ v.tail
      let p := halloc σ t
      .ok (hwrite p.1 p.2 (n % 32) (.elem x), ⟨v.size, v.shift, v.root, .ref p.2⟩)
    else do
      let r ← deref σ v.root
      let p := halloc σ r
      let σ2 ← hsetLoop v.shift p.1 p.2 n x v.shift
      .ok (σ2, ⟨v.size, v.shift, .ref p.2, v.tail⟩)

/-- `#newPath` in the heap model: each wrapper `Array(32)` is a fresh
allocation, written only at slot 0. -/
def hnewPathLoop {α : Type} : Nat → Store α → Nat → HVal α → Store α × HVal α
  | 0, σ, _, node => (σ, node)
  | fuel + 1, σ, level, node =>
    if 0 < level then
      let p := halloc σ (hASet (List.replicate 32 HVal.undef) 0 node)
      hnewPathLoop fuel p.1 (level - 5) (.ref p.2)
    else (σ, node)

/-- `#newPath` entry point (fuel = `levels`, as in `newPath`). -/
def hnewPath {α : Type} (σ : Store α) (levels : Nat) (tail : HVal α) : Store α × HVal α :=
  hnewPathLoop levels σ levels tail

/-- The loop of `#pushLeaf` in the heap model (see `pushLeafLoop`):
cloned nodes are fresh allocations, and every in-place write targets
the node just cloned. -/
def hpushLeafLoop {α : Type} : Nat → Store α → Nat → Nat → HVal α → Nat →
    Except JErr (Store α)
  | 0, σ, node, i, tail, level =>
    if 5 < level then .ok σ
    else .ok (hwrite σ node (i >>> 5 % 32) tail)
  | fuel + 1, σ, node, i, tail, level =>
    if 5 < level then
      match hAGet ((σ : List (List (HVal α))).getD node []) (i >>> level % 32) with
      | .null =>
        let p := hnewPath σ (level - 5) tail
        .ok (hwrite p.1 node (i >>> level % 32) p.2)
      | child => do
        let childCells ← deref σ child
        let p := halloc σ childCells
        let σ2 := hwrite p.1 node (i >>> level % 32) (.ref p.2)
        hpushLeafLoop fuel σ2 p.2 i tail (level - 5)
    else .ok (hwrite σ node (i >>> 5 % 32) tail)

/-- `push(val)` in the heap model. -/
def HPVec.push {α : Type} (σ : Store α) (v : HPVec α) (x : α) :
    Except JErr (Store α × HPVec α) :=
  if tailSize v.size ≠ 32 then do
    let t ← deref σ v.tail
    let p := halloc σ t
    .ok (hwrite p.1 p.2 t.length (.elem x), ⟨v.size + 1, v.shift, v.root, .ref p.2⟩)
  else
    let p0 := halloc σ [HVal.elem x]
    if v.size = 32 then .ok (p0.1, ⟨v.size + 1, 0, v.tail, .ref p0.2⟩)
    else if 1 <<< v.shift < v.size >>> 5 then
      let q := hnewPath p0.1 v.shift v.tail
      let r := halloc q.1 (hASet (hASet (List.replicate 32 HVal.undef) 0 v.root) 1 q.2)
      .ok (r.1, ⟨v.size + 1, v.shift + 5, .ref r.2, .ref p0.2⟩)
    else do
      let rc ← deref p0.1 v.root
      let q := halloc p0.1 rc
      let σ2 ← hpushLeafLoop v.shift q.1 q.2 (v.size - 1) v.tail v.shift
      .ok (σ2, ⟨v.size + 1, v.shift, .ref q.2, .ref p0.2⟩)

/-- The descent of `#lowerTrie` in the heap model (pure reads). -/
def hlowerLoop {α : Type} (σ : Store α) : Nat → HVal α → Nat → Except JErr (HVal α)
  | 0, node, _ => .ok node
  | fuel + 1, node, level =>
    if 0 < level then do
      let node' ← hIndex σ node 0
      hlowerLoop σ fuel node' (level - 5)
    else .ok node

/-- The post-divergence descent of `#popTrie` in the heap model (pure
reads, see `popFollow`). -/
def hpopFollow {α : Type} (σ : Store α) : Nat → HVal α → Nat → Nat → Except JErr (HVal α)
  | 0, node, _, _ => .ok node
  | fuel + 1, node, nts, level =>
    if 0 < level then do
      let node' ← hIndex σ node (nts >>> level % 32)
      hpopFollow σ fuel node' nts (level - 5)
    else .ok node

/-- The loop of `#popTrie` in the heap model (see `popTrieLoop`):
cloned nodes are fresh allocations; the unlink (`node[subIndex] =
null`) and the splices write only to the clone chain. -/
def hpopTrieLoop {α : Type} : Nat → Store α → Nat → Nat → Nat → Nat →
    Except JErr (Store α × HVal α)
  | 0, σ, node, _, _, _ => .ok (σ, .ref node)
  | fuel + 1, σ, node, nts, diverges, level =>
    if 0 < level then
      let subIndex := nts >>> level % 32
      let child := hAGet ((σ : List (List (HVal α))).getD node []) subIndex
      if diverges >>> level ≠ 0 then do
        let σ2 := hwrite σ node subIndex .null
        let leaf ← hpopFollow σ2 (level - 5) child nts (level - 5)
        .ok (σ2, leaf)
      else do
        let childCells ← deref σ child
        let p := halloc σ childCells
        let σ2 := hwrite p.1 node subIndex (.ref p.2)
        let res ← hpopTrieLoop fuel σ2 p.2 nts diverges (level - 5)
        .ok res
    else .ok (σ, .ref node)

/-- `pop()` in the heap model. -/
def HPVec.pop {α : Type} (σ : Store α) (v : HPVec α) :
    Except JErr (Store α × HPVec α) :=
  if v.size = 0 then .error .empty
  else if v.size = 1 then .ok (σ, ⟨0, 0, v.root, v.tail⟩)
  else if 0 < (v.size - 1) % 32 then do
    let t ← deref σ v.tail
    let p := halloc σ (t.take (t.length - 1))
    .ok (p.1, ⟨v.size - 1, v.shift, v.root, .ref p.2⟩)
  else
    let newTrieSize := v.size - 33
    if newTrieSize = 0 then
      let p := halloc σ []
      .ok (p.1, ⟨32, 0, .ref p.2, v.root⟩)
    else if newTrieSize = 1 <<< v.shift then do
      let newRoot ← hIndex σ v.root 0
      let child1 ← hIndex σ v.root 1
      let node ← hlowerLoop σ (v.shift - 5) child1 (v.shift - 5)
      .ok (σ, ⟨v.size - 1, v.shift - 5, newRoot, node⟩)
    else do
      let rc ← deref σ v.root
      let p := halloc σ rc
      let res ← hpopTrieLoop v.shift p.1 p.2 newTrieSize
        (newTrieSize ^^^ (newTrieSize - 1)) v.shift
      .ok (res.1, ⟨v.size - 1, v.shift, .ref p.2, res.2⟩)

/-!
### Frame lemmas: every in-place write targets a freshly allocated cell

`Pres N σ σ2` says the store evolved from `σ` to `σ2` without touching
the first `N` cells (and without deallocating).  Each operation is
shown to satisfy `Pres σ.length σ σ2`: all its writes land in cells it
allocated itself.
-/

def Pres {α : Type} (N : Nat) (σ σ2 : Store α) : Prop :=
  σ.length ≤ σ2.length ∧ ∀ a, a < N → σ2[a]? = σ[a]?

theorem pres_refl {α : Type} {N : Nat} {σ : Store α} : Pres N σ σ :=
  ⟨le_refl _, fun _ _ => rfl⟩

theorem pres_trans {α : Type} {N : Nat} {σ σ2 σ3 : Store α}
    (h1 : Pres N σ σ2) (h2 : Pres N σ2 σ3) : Pres N σ σ3 :=
  ⟨le_trans h1.1 h2.1, fun a ha => (h2.2 a ha).trans (h1.2 a ha)⟩

/-- Allocation preserves all existing cells. -/
theorem pres_alloc {α : Type} {N : Nat} {σ : Store α} {c : List (HVal α)}
    (hN : N ≤ σ.length) : Pres N σ (σ ++ [c]) := by
  constructor
  · rw [List.length_append]
    omega
  · intro a ha
    rw [List.getElem?_append, if_pos (by omega)]

/-- A write at an address at or above `N` preserves the first `N`
cells. -/
theorem pres_write {α : Type} {N : Nat} {σ : Store α} {a i : Nat} {x : HVal α}
    (hNa : N ≤ a) : Pres N σ (hwrite σ a i x) := by
  constructor
  · rw [show hwrite σ a i x = σ.set a (hASet (σ.getD a []) i x) from rfl,
      List.length_set]
  · intro b hb
    rw [show hwrite σ a i x = σ.set a (hASet (σ.getD a []) i x) from rfl,
      List.getElem?_set_ne (by omega)]

theorem length_hwrite {α : Type} (σ : Store α) (a i : Nat) (x : HVal α) :
    (hwrite σ a i x).length = σ.length := by
  rw [show hwrite σ a i x = σ.set a (hASet (σ.getD a []) i x) from rfl,
    List.length_set]

/-- `#newPath` only allocates. -/
theorem hnewPathLoop_pres {α : Type} :
    ∀ (fuel : Nat) {σ : Store α} (level : Nat) (node : HVal α) {N : Nat},
    N ≤ σ.length → Pres N σ (hnewPathLoop fuel σ level node).1
  | 0, σ, level, node, N => fun _ => pres_refl
  | fuel + 1, σ, level, node, N => fun hN => by
    rw [show hnewPathLoop (fuel + 1) σ level node =
      (if 0 < level then
        hnewPathLoop fuel (σ ++ [hASet (List.replicate 32 HVal.undef) 0 node])
          (level - 5) (.ref σ.length)
      else (σ, node)) from rfl]
    by_cases hl : 0 < level
    · rw [if_pos hl]
      refine pres_trans (pres_alloc hN) (hnewPathLoop_pres fuel _ _ ?_)
      rw [List.length_append]
      omega
    · rw [if_neg hl]
      exact pres_refl

/-- The path-copying loop of `set` writes only to cells at or above
the `node` it starts from (which the caller allocated). -/
theorem hsetLoop_pres {α : Type} :
    ∀ (fuel : Nat) {σ : Store α} {node i : Nat} {x : α} {level : Nat}
    {σ2 : Store α} {N : Nat},
    hsetLoop fuel σ node i x level = .ok σ2 → N ≤ σ.length → N ≤ node →
    Pres N σ σ2
  | 0, σ, node, i, x, level, σ2, N => fun h hN hn => by
    rw [show hsetLoop 0 σ node i x level =
      (if 0 < level then .ok σ else .ok (hwrite σ node (i % 32) (.elem x)))
      from rfl] at h
    by_cases hl : 0 < level
    · rw [if_pos hl] at h
      injection h with h2
      rw [← h2]
      exact pres_refl
    · rw [if_neg hl] at h
      injection h with h2
      rw [← h2]
      exact pres_write hn
  | fuel + 1, σ, node, i, x, level, σ2, N => fun h hN hn => by
    rw [show hsetLoop (fuel + 1) σ node i x level =
      (if 0 < level then do
        let child ← deref σ (hAGet (σ.getD node []) (i >>> level % 32))
        hsetLoop fuel (hwrite (σ ++ [child]) node (i >>> level % 32)
          (.ref σ.length)) σ.length i x (level - 5)
      else .ok (hwrite σ node (i % 32) (.elem x))) from rfl] at h
    by_cases hl : 0 < level
    · rw [if_pos hl] at h
      cases hd : deref σ (hAGet (σ.getD node []) (i >>> level % 32)) with
      | error e =>
        rw [hd] at h
        exact Except.noConfusion h
      | ok child =>
        rw [hd] at h
        have hlen : (hwrite (σ ++ [child]) node (i >>> level % 32)
            (.ref σ.length)).length = σ.length + 1 := by
          rw [length_hwrite, List.length_append, List.length_singleton]
        refine pres_trans
          (pres_trans (pres_alloc hN) (pres_write hn))
          (hsetLoop_pres fuel h (by omega) (by omega))
    · rw [if_neg hl] at h
      injection h with h2
      rw [← h2]
      exact pres_write hn

/-- The loop of `#pushLeaf` writes only to cells it (or `#newPath`)
allocated, or to the `node` the caller allocated. -/
theorem hpushLeafLoop_pres {α : Type} :
    ∀ (fuel : Nat) {σ : Store α} {node i : Nat} {tail : HVal α} {level : Nat}
    {σ2 : Store α} {N : Nat},
    hpushLeafLoop fuel σ node i tail level = .ok σ2 → N ≤ σ.length → N ≤ node →
    Pres N σ σ2
  | 0, σ, node, i, tail, level, σ2, N => fun h hN hn => by
    rw [show hpushLeafLoop 0 σ node i tail level =
      (if 5 < level then .ok σ else .ok (hwrite σ node (i >>> 5 % 32) tail))
      from rfl] at h
    by_cases hl : 5 < level
    · rw [if_pos hl] at h
      injection h with h2
      rw [← h2]
      exact pres_refl
    · rw [if_neg hl] at h
      injection h with h2
      rw [← h2]
      exact pres_write hn
  | fuel + 1, σ, node, i, tail, level, σ2, N => fun h hN hn => by
    rw [show hpushLeafLoop (fuel + 1) σ node i tail level =
      (if 5 < level then
        match hAGet (σ.getD node []) (i >>> level % 32) with
        | .null => .ok (hwrite (hnewPath σ (level - 5) tail).1 node
            (i >>> level % 32) (hnewPath σ (level - 5) tail).2)
        | child => do
          let childCells ← deref σ child
          hpushLeafLoop fuel (hwrite (σ ++ [childCells]) node
            (i >>> level % 32) (.ref σ.length)) σ.length i tail (level - 5)
      else .ok (hwrite σ node (i >>> 5 % 32) tail)) from rfl] at h
    by_cases hl : 5 < level
    · rw [if_pos hl] at h
      cases hc : hAGet (σ.getD node []) (i >>> level % 32) with
      | null =>
        rw [hc] at h
        have h2 : Except.ok (hwrite (hnewPath σ (level - 5) tail).1 node
            (i >>> level % 32) (hnewPath σ (level - 5) tail).2) =
            (.ok σ2 : Except JErr (Store α)) := h
        injection h2 with h3
        rw [← h3]
        exact pres_trans (hnewPathLoop_pres (level - 5) _ _ hN) (pres_write hn)
      | undef =>
        rw [hc] at h
        exact Except.noConfusion
          (show (Except.error JErr.typeError : Except JErr (Store α)) =
            .ok σ2 from h)
      | elem y =>
        rw [hc] at h
        exact Except.noConfusion
          (show (Except.error JErr.typeError : Except JErr (Store α)) =
            .ok σ2 from h)
      | ref b =>
        rw [hc] at h
        have h4 : (do
            let childCells ← deref σ (HVal.ref b)
            hpushLeafLoop fuel (hwrite (σ ++ [childCells]) node
              (i >>> level % 32) (.ref σ.length)) σ.length i tail
              (level - 5)) = (.ok σ2 : Except JErr (Store α)) := h
        cases hd : deref σ (HVal.ref b) with
        | error e =>
          rw [hd] at h4
          exact Except.noConfusion h4
        | ok childCells =>
          rw [hd] at h4
          have h5 : hpushLeafLoop fuel (hwrite (σ ++ [childCells]) node
              (i >>> level % 32) (.ref σ.length)) σ.length i tail
              (level - 5) = .ok σ2 := h4
          have hlen : (hwrite (σ ++ [childCells]) node (i >>> level % 32)
              (.ref σ.length)).length = σ.length + 1 := by
            rw [length_hwrite, List.length_append, List.length_singleton]
          exact pres_trans
            (pres_trans (pres_alloc hN) (pres_write hn))
            (hpushLeafLoop_pres fuel h5 (by omega) (by omega))
    · rw [if_neg hl] at h
      injection h with h2
      rw [← h2]
      exact pres_write hn

/-- The loop of `#popTrie` writes only to the clone chain. -/
theorem hpopTrieLoop_pres {α : Type} :
    ∀ (fuel : Nat) {σ : Store α} {node nts diverges level : Nat}
    {σ2 : Store α} {leaf : HVal α} {N : Nat},
    hpopTrieLoop fuel σ node nts diverges level = .ok (σ2, leaf) →
    N ≤ σ.length → N ≤ node → Pres N σ σ2
  | 0, σ, node, nts, diverges, level, σ2, leaf, N => fun h hN hn => by
    injection h with h2
    injection h2 with h3 h4
    rw [← h3]
    exact pres_refl
  | fuel + 1, σ, node, nts, diverges, level, σ2, leaf, N => fun h hN hn => by
    rw [show hpopTrieLoop (fuel + 1) σ node nts diverges level =
      (if 0 < level then
        if diverges >>> level ≠ 0 then do
          let lf ← hpopFollow (hwrite σ node (nts >>> level % 32) .null)
            (level - 5) (hAGet (σ.getD node []) (nts >>> level % 32)) nts
            (level - 5)
          .ok (hwrite σ node (nts >>> level % 32) .null, lf)
        else do
          let childCells ← deref σ (hAGet (σ.getD node [])
            (nts >>> level % 32))
          let res ← hpopTrieLoop fuel (hwrite (σ ++ [childCells]) node
            (nts >>> level % 32) (.ref σ.length)) σ.length nts diverges
            (level - 5)
          .ok res
      else .ok (σ, .ref node)) from rfl] at h
    by_cases hl : 0 < level
    · rw [if_pos hl] at h
      by_cases hdv : diverges >>> level ≠ 0
      · rw [if_pos hdv] at h
        cases hf : hpopFollow (hwrite σ node (nts >>> level % 32) .null)
            (level - 5) (hAGet (σ.getD node []) (nts >>> level % 32)) nts
            (level - 5) with
        | error e =>
          rw [hf] at h
          exact Except.noConfusion h
        | ok lf =>
          rw [hf] at h
          have h2 : Except.ok (hwrite σ node (nts >>> level % 32) .null, lf) =
            (.ok (σ2, leaf) : Except JErr (Store α × HVal α)) := h
          injection h2 with h3
          injection h3 with h4 h5
          rw [← h4]
          exact pres_write hn
      · rw [if_neg hdv] at h
        cases hd : deref σ (hAGet (σ.getD node []) (nts >>> level % 32)) with
        | error e =>
          rw [hd] at h
          exact Except.noConfusion h
        | ok childCells =>
          rw [hd] at h
          have h5 : (do
              let res ← hpopTrieLoop fuel (hwrite (σ ++ [childCells]) node
                (nts >>> level % 32) (.ref σ.length)) σ.length nts diverges
                (level - 5)
              (.ok res : Except JErr (Store α × HVal α))) = .ok (σ2, leaf) := h
          cases hrec : hpopTrieLoop fuel (hwrite (σ ++ [childCells]) node
              (nts >>> level % 32) (.ref σ.length)) σ.length nts diverges
              (level - 5) with
          | error e =>
            rw [hrec] at h5
            exact Except.noConfusion h5
          | ok res =>
            rw [hrec] at h5
            have h2 : Except.ok res =
              (.ok (σ2, leaf) : Except JErr (Store α × HVal α)) := h5
            injection h2 with h3
            rw [h3] at hrec
            have hlen : (hwrite (σ ++ [childCells]) node (nts >>> level % 32)
                (.ref σ.length)).length = σ.length + 1 := by
              rw [length_hwrite, List.length_append, List.length_singleton]
            exact pres_trans
              (pres_trans (pres_alloc hN) (pres_write hn))
              (hpopTrieLoop_pres fuel hrec (by omega) (by omega))
    · rw [if_neg hl] at h
      injection h with h2
      injection h2 with h3 h4
      rw [← h3]
      exact pres_refl

/-!
### Reads through untouched cells are unchanged

A store is closed when every reference stored in any of its cells
points to an existing cell; reads from a closed store only ever follow
references below `σ.length`, so they are insensitive to any `Pres
σ.length` evolution.
-/

/-- All references in a value point below `N`. -/
def closedVal {α : Type} (N : Nat) : HVal α → Bool
  | .ref a => decide (a < N)
  | _ => true

/-- Every reference stored anywhere in the heap points to an existing
cell. -/
def ClosedStore {α : Type} (σ : Store α) : Prop :=
  ∀ c ∈ (σ : List (List (HVal α))), ∀ h ∈ c, closedVal σ.length h = true

/-- Reading a slot of a cell of a closed store yields a closed
value. -/
theorem hAGet_closed {α : Type} {σ : Store α} {a : Nat} {cell : List (HVal α)}
    (hcs : ClosedStore σ) (hc : σ[a]? = some cell) (i : Nat) :
    closedVal σ.length (hAGet cell i) = true := by
  have hmem := List.getElem?_mem hc
  show closedVal σ.length (cell.getD i .undef) = true
  rw [List.getD_eq_getElem?_getD]
  cases hx : cell[i]? with
  | none =>
    rfl
  | some y =>
    exact hcs cell hmem y (List.getElem?_mem hx)

/-- Inversion of a successful `deref`. -/
theorem deref_ok {α : Type} {σ : Store α} {node : HVal α} {cells : List (HVal α)}
    (h : deref σ node = .ok cells) : ∃ a, node = .ref a ∧ σ[a]? = some cells := by
  cases node with
  | ref a =>
    refine ⟨a, rfl, ?_⟩
    revert h
    show (match σ[a]? with
      | some c => (.ok c : Except JErr (List (HVal α)))
      | none => .error .typeError) = .ok cells → σ[a]? = some cells
    cases hx : σ[a]? with
    | some c =>
      intro h2
      injection h2 with h3
      rw [h3]
    | none =>
      intro h2
      exact Except.noConfusion h2
  | undef => exact Except.noConfusion h
  | null => exact Except.noConfusion h
  | elem y => exact Except.noConfusion h

/-- `deref` of a closed value reads the same cell before and after a
preserving evolution. -/
theorem deref_agree {α : Type} {σ σ2 : Store α} (hp : Pres σ.length σ σ2)
    {node : HVal α} (hc : closedVal σ.length node = true) :
    deref σ2 node = deref σ node := by
  cases node with
  | ref a =>
    have ha : a < σ.length := of_decide_eq_true hc
    show (match σ2[a]? with
      | some c => (.ok c : Except JErr (List (HVal α)))
      | none => .error .typeError) = _
    rw [hp.2 a ha]
    rfl
  | undef => rfl
  | null => rfl
  | elem y => rfl

/-- Property reads of closed values are unchanged by a preserving
evolution. -/
theorem hIndex_agree {α : Type} {σ σ2 : Store α} (hp : Pres σ.length σ σ2)
    {node : HVal α} (hc : closedVal σ.length node = true) (i : Nat) :
    hIndex σ2 node i = hIndex σ node i := by
  show (do
    let cells ← deref σ2 node
    (.ok (hAGet cells i) : Except JErr (HVal α))) = _
  rw [deref_agree hp hc]
  rfl

/-- A successful property read of a closed value in a closed store is
itself closed. -/
theorem hIndex_closed {α : Type} {σ : Store α} (hcs : ClosedStore σ)
    {node : HVal α} {i : Nat} {r : HVal α} (h : hIndex σ node i = .ok r) :
    closedVal σ.length r = true := by
  have h2 : (do
    let cells ← deref σ node
    (.ok (hAGet cells i) : Except JErr (HVal α))) = .ok r := h
  cases hd : deref σ node with
  | error e =>
    rw [hd] at h2
    exact Except.noConfusion h2
  | ok cells =>
    rw [hd] at h2
    have h3 : (Except.ok (hAGet cells i) : Except JErr (HVal α)) = .ok r := h2
    injection h3 with h4
    obtain ⟨a, hnode, hcell⟩ := deref_ok hd
    rw [← h4]
    exact hAGet_closed hcs hcell i

/-- The trie descent of `get` is unchanged by a preserving evolution
and stays closed. -/
theorem hgetLoop_agree {α : Type} :
    ∀ (fuel : Nat) {σ σ2 : Store α} (node : HVal α) (i level : Nat),
    Pres σ.length σ σ2 → ClosedStore σ → closedVal σ.length node = true →
    hgetLoop σ2 fuel node i level = hgetLoop σ fuel node i level ∧
    (∀ r, hgetLoop σ fuel node i level = .ok r → closedVal σ.length r = true)
  | 0, σ, σ2, node, i, level => fun hp hcs hc =>
    ⟨rfl, fun r h => by
      injection h with h2
      rw [← h2]
      exact hc⟩
  | fuel + 1, σ, σ2, node, i, level => fun hp hcs hc => by
    rw [show hgetLoop σ2 (fuel + 1) node i level =
      (if 0 < level then do
        let node2 ← hIndex σ2 node (i >>> level % 32)
        hgetLoop σ2 fuel node2 i (level - 5)
      else .ok node) from rfl,
      show hgetLoop σ (fuel + 1) node i level =
      (if 0 < level then do
        let node2 ← hIndex σ node (i >>> level % 32)
        hgetLoop σ fuel node2 i (level - 5)
      else .ok node) from rfl]
    by_cases hl : 0 < level
    · rw [if_pos hl, if_pos hl, hIndex_agree hp hc (i >>> level % 32)]
      cases hx : hIndex σ node (i >>> level % 32) with
      | error e =>
        exact ⟨rfl, fun r h => Except.noConfusion h⟩
      | ok node2 =>
        have hc2 := hIndex_closed hcs hx
        obtain ⟨hag, hcl⟩ := hgetLoop_agree fuel node2 i (level - 5) hp hcs hc2
        exact ⟨hag, hcl⟩
    · rw [if_neg hl, if_neg hl]
      exact ⟨rfl, fun r h => by
        injection h with h2
        rw [← h2]
        exact hc⟩

/-- `get` on a snapshot whose root and tail are closed returns the
same result before and after any preserving store evolution. -/
theorem hget_agree {α : Type} {σ σ2 : Store α} {v : HPVec α}
    (hp : Pres σ.length σ σ2) (hcs : ClosedStore σ)
    (hroot : closedVal σ.length v.root = true)
    (htail : closedVal σ.length v.tail = true) (j : Int) :
    HPVec.get σ2 v j = HPVec.get σ v j := by
  rw [show HPVec.get σ2 v j =
    (if (v.size : Int) ≤ j ∨ j < 0 then .error .bounds
     else if tailOff v.size ≤ j.toNat then hIndex σ2 v.tail (j.toNat % 32)
     else do
       let node ← hgetLoop σ2 v.shift v.root j.toNat v.shift
       hIndex σ2 node (j.toNat % 32)) from rfl,
    show HPVec.get σ v j =
    (if (v.size : Int) ≤ j ∨ j < 0 then .error .bounds
     else if tailOff v.size ≤ j.toNat then hIndex σ v.tail (j.toNat % 32)
     else do
       let node ← hgetLoop σ v.shift v.root j.toNat v.shift
       hIndex σ node (j.toNat % 32)) from rfl]
  by_cases hb : (v.size : Int) ≤ j ∨ j < 0
  · rw [if_pos hb, if_pos hb]
  · rw [if_neg hb, if_neg hb]
    by_cases ht : tailOff v.size ≤ j.toNat
    · rw [if_pos ht, if_pos ht, hIndex_agree hp htail (j.toNat % 32)]
    · rw [if_neg ht, if_neg ht]
      obtain ⟨hag, hcl⟩ := hgetLoop_agree v.shift v.root j.toNat v.shift hp
        hcs hroot
      rw [hag]
      cases hx : hgetLoop σ v.shift v.root j.toNat v.shift with
      | error e =>
        rfl
      | ok node =>
        show hIndex σ2 node (j.toNat % 32) = hIndex σ node (j.toNat % 32)
        exact hIndex_agree hp (hcl node hx) (j.toNat % 32)

/-- `set` leaves every pre-existing cell of the store untouched. -/
theorem hset_pres {α : Type} {σ : Store α} {v : HPVec α} {i : Int} {x : α}
    {σ2 : Store α} {w : HPVec α} (h : HPVec.set σ v i x = .ok (σ2, w)) :
    Pres σ.length σ σ2 := by
  rw [show HPVec.set σ v i x =
    (if (v.size : Int) ≤ i ∨ i < 0 then .error .bounds
     else if tailOff v.size ≤ i.toNat then do
       let t ← deref σ v.tail
       .ok (hwrite (σ ++ [t]) σ.length (i.toNat % 32) (.elem x),
         (⟨v.size, v.shift, v.root, .ref σ.length⟩ : HPVec α))
     else do
       let r ← deref σ v.root
       let σ3 ← hsetLoop v.shift (σ ++ [r]) σ.length i.toNat x v.shift
       .ok (σ3, (⟨v.size, v.shift, .ref σ.length, v.tail⟩ : HPVec α)))
    from rfl] at h
  by_cases hb : (v.size : Int) ≤ i ∨ i < 0
  · rw [if_pos hb] at h
    exact Except.noConfusion h
  · rw [if_neg hb] at h
    by_cases ht : tailOff v.size ≤ i.toNat
    · rw [if_pos ht] at h
      cases hd : deref σ v.tail with
      | error e =>
        rw [hd] at h
        exact Except.noConfusion h
      | ok t =>
        rw [hd] at h
        have h2 : Except.ok (hwrite (σ ++ [t]) σ.length (i.toNat % 32)
            (.elem x), (⟨v.size, v.shift, v.root, .ref σ.length⟩ : HPVec α)) =
            (.ok (σ2, w) : Except JErr (Store α × HPVec α)) := h
        injection h2 with h3
        injection h3 with h4 h5
        rw [← h4]
        exact pres_trans (pres_alloc (le_refl _)) (pres_write (le_refl _))
    · rw [if_neg ht] at h
      cases hd : deref σ v.root with
      | error e =>
        rw [hd] at h
        exact Except.noConfusion h
      | ok r =>
        rw [hd] at h
        have h2 : (do
            let σ3 ← hsetLoop v.shift (σ ++ [r]) σ.length i.toNat x v.shift
            (.ok (σ3, (⟨v.size, v.shift, .ref σ.length, v.tail⟩ : HPVec α)) :
              Except JErr (Store α × HPVec α))) = .ok (σ2, w) := h
        cases hsl : hsetLoop v.shift (σ ++ [r]) σ.length i.toNat x v.shift with
        | error e =>
          rw [hsl] at h2
          exact Except.noConfusion h2
        | ok σ3 =>
          rw [hsl] at h2
          have h3 : Except.ok (σ3,
              (⟨v.size, v.shift, .ref σ.length, v.tail⟩ : HPVec α)) =
              (.ok (σ2, w) : Except JErr (Store α × HPVec α)) := h2
          injection h3 with h4
          injection h4 with h5 h6
          rw [← h5]
          exact pres_trans (pres_alloc (le_refl _))
            (hsetLoop_pres v.shift hsl
              (by rw [List.length_append]; omega) (le_refl _))

/-- `push` leaves every pre-existing cell of the store untouched. -/
theorem hpush_pres {α : Type} {σ : Store α} {v : HPVec α} {x : α}
    {σ2 : Store α} {w : HPVec α} (h : HPVec.push σ v x = .ok (σ2, w)) :
    Pres σ.length σ σ2 := by
  rw [show HPVec.push σ v x =
    (if tailSize v.size ≠ 32 then do
      let t ← deref σ v.tail
      .ok (hwrite (σ ++ [t]) σ.length t.length (.elem x),
        (⟨v.size + 1, v.shift, v.root, .ref σ.length⟩ : HPVec α))
    else
      if v.size = 32 then .ok (σ ++ [[HVal.elem x]],
        (⟨v.size + 1, 0, v.tail, .ref σ.length⟩ : HPVec α))
      else if 1 <<< v.shift < v.size >>> 5 then
        .ok ((hnewPath (σ ++ [[HVal.elem x]]) v.shift v.tail).1 ++
            [hASet (hASet (List.replicate 32 HVal.undef) 0 v.root) 1
              (hnewPath (σ ++ [[HVal.elem x]]) v.shift v.tail).2],
          (⟨v.size + 1, v.shift + 5,
            .ref (hnewPath (σ ++ [[HVal.elem x]]) v.shift v.tail).1.length,
            .ref σ.length⟩ : HPVec α))
      else do
        let rc ← deref (σ ++ [[HVal.elem x]]) v.root
        let σ3 ← hpushLeafLoop v.shift ((σ ++ [[HVal.elem x]]) ++ [rc])
          (σ ++ [[HVal.elem x]]).length (v.size - 1) v.tail v.shift
        .ok (σ3, (⟨v.size + 1, v.shift, .ref (σ ++ [[HVal.elem x]]).length,
          .ref σ.length⟩ : HPVec α))) from rfl] at h
  by_cases hts : tailSize v.size ≠ 32
  · rw [if_pos hts] at h
    cases hd : deref σ v.tail with
    | error e =>
      rw [hd] at h
      exact Except.noConfusion h
    | ok t =>
      rw [hd] at h
      have h2 : Except.ok (hwrite (σ ++ [t]) σ.length t.length (.elem x),
          (⟨v.size + 1, v.shift, v.root, .ref σ.length⟩ : HPVec α)) =
          (.ok (σ2, w) : Except JErr (Store α × HPVec α)) := h
      injection h2 with h3
      injection h3 with h4 h5
      rw [← h4]
      exact pres_trans (pres_alloc (le_refl _)) (pres_write (le_refl _))
  · rw [if_neg hts] at h
    by_cases h32 : v.size = 32
    · rw [if_pos h32] at h
      injection h with h2
      injection h2 with h3 h4
      rw [← h3]
      exact pres_alloc (le_refl _)
    · rw [if_neg h32] at h
      by_cases hgrow : 1 <<< v.shift < v.size >>> 5
      · rw [if_pos hgrow] at h
        injection h with h2
        injection h2 with h3 h4
        rw [← h3]
        have hq := @hnewPathLoop_pres α v.shift (σ ++ [[HVal.elem x]])
          v.shift v.tail σ.length (by rw [List.length_append]; omega)
        exact pres_trans (pres_alloc (le_refl _)) (pres_trans hq
          (pres_alloc (le_trans (by rw [List.length_append]; omega) hq.1)))
      · rw [if_neg hgrow] at h
        cases hd : deref (σ ++ [[HVal.elem x]]) v.root with
        | error e =>
          rw [hd] at h
          exact Except.noConfusion h
        | ok rc =>
          rw [hd] at h
          have h2 : (do
              let σ3 ← hpushLeafLoop v.shift ((σ ++ [[HVal.elem x]]) ++ [rc])
                (σ ++ [[HVal.elem x]]).length (v.size - 1) v.tail v.shift
              (.ok (σ3, (⟨v.size + 1, v.shift,
                .ref (σ ++ [[HVal.elem x]]).length, .ref σ.length⟩ : HPVec α)) :
                Except JErr (Store α × HPVec α))) = .ok (σ2, w) := h
          cases hpl : hpushLeafLoop v.shift ((σ ++ [[HVal.elem x]]) ++ [rc])
              (σ ++ [[HVal.elem x]]).length (v.size - 1) v.tail v.shift with
          | error e =>
            rw [hpl] at h2
            exact Except.noConfusion h2
          | ok σ3 =>
            rw [hpl] at h2
            have h3 : Except.ok (σ3, (⟨v.size + 1, v.shift,
                .ref (σ ++ [[HVal.elem x]]).length, .ref σ.length⟩ : HPVec α)) =
                (.ok (σ2, w) : Except JErr (Store α × HPVec α)) := h2
            injection h3 with h4
            injection h4 with h5 h6
            rw [← h5]
            exact pres_trans (pres_alloc (le_refl _)) (pres_trans
              (pres_alloc (by rw [List.length_append]; omega))
              (hpushLeafLoop_pres v.shift hpl
                (by rw [List.length_append, List.length_append]; omega)
                (by rw [List.length_append]; omega)))

/-- `pop` leaves every pre-existing cell of the store untouched. -/
theorem hpop_pres {α : Type} {σ : Store α} {v : HPVec α}
    {σ2 : Store α} {w : HPVec α} (h : HPVec.pop σ v = .ok (σ2, w)) :
    Pres σ.length σ σ2 := by
  rw [show HPVec.pop σ v =
    (if v.size = 0 then .error .empty
     else if v.size = 1 then .ok (σ, (⟨0, 0, v.root, v.tail⟩ : HPVec α))
     else if 0 < (v.size - 1) % 32 then do
       let t ← deref σ v.tail
       .ok (σ ++ [t.take (t.length - 1)],
         (⟨v.size - 1, v.shift, v.root, .ref σ.length⟩ : HPVec α))
     else if v.size - 33 = 0 then
       .ok (σ ++ [[]], (⟨32, 0, .ref σ.length, v.root⟩ : HPVec α))
     else if v.size - 33 = 1 <<< v.shift then do
       let newRoot ← hIndex σ v.root 0
       let child1 ← hIndex σ v.root 1
       let node ← hlowerLoop σ (v.shift - 5) child1 (v.shift - 5)
       .ok (σ, (⟨v.size - 1, v.shift - 5, newRoot, node⟩ : HPVec α))
     else do
       let rc ← deref σ v.root
       let res ← hpopTrieLoop v.shift (σ ++ [rc]) σ.length (v.size - 33)
         ((v.size - 33) ^^^ (v.size - 33 - 1)) v.shift
       .ok (res.1, (⟨v.size - 1, v.shift, .ref σ.length, res.2⟩ : HPVec α)))
    from rfl] at h
  by_cases h0 : v.size = 0
  · rw [if_pos h0] at h
    exact Except.noConfusion h
  · rw [if_neg h0] at h
    by_cases h1 : v.size = 1
    · rw [if_pos h1] at h
      injection h with h2
      injection h2 with h3 h4
      rw [← h3]
      exact pres_refl
    · rw [if_neg h1] at h
      by_cases htl : 0 < (v.size - 1) % 32
      · rw [if_pos htl] at h
        cases hd : deref σ v.tail with
        | error e =>
          rw [hd] at h
          exact Except.noConfusion h
        | ok t =>
          rw [hd] at h
          have h2 : Except.ok (σ ++ [t.take (t.length - 1)],
              (⟨v.size - 1, v.shift, v.root, .ref σ.length⟩ : HPVec α)) =
              (.ok (σ2, w) : Except JErr (Store α × HPVec α)) := h
          injection h2 with h3
          injection h3 with h4 h5
          rw [← h4]
          exact pres_alloc (le_refl _)
      · rw [if_neg htl] at h
        by_cases hz : v.size - 33 = 0
        · rw [if_pos hz] at h
          injection h with h2
          injection h2 with h3 h4
          rw [← h3]
          exact pres_alloc (le_refl _)
        · rw [if_neg hz] at h
          by_cases hlow : v.size - 33 = 1 <<< v.shift
          · rw [if_pos hlow] at h
            cases hr0 : hIndex σ v.root 0 with
            | error e =>
              rw [hr0] at h
              exact Except.noConfusion h
            | ok newRoot =>
              rw [hr0] at h
              have h2 : (do
                  let child1 ← hIndex σ v.root 1
                  let node ← hlowerLoop σ (v.shift - 5) child1 (v.shift - 5)
                  (.ok (σ, (⟨v.size - 1, v.shift - 5, newRoot, node⟩ :
                    HPVec α)) : Except JErr (Store α × HPVec α))) =
                  .ok (σ2, w) := h
              cases hr1 : hIndex σ v.root 1 with
              | error e =>
                rw [hr1] at h2
                exact Except.noConfusion h2
              | ok child1 =>
                rw [hr1] at h2
                have h3 : (do
                    let node ← hlowerLoop σ (v.shift - 5) child1 (v.shift - 5)
                    (.ok (σ, (⟨v.size - 1, v.shift - 5, newRoot, node⟩ :
                      HPVec α)) : Except JErr (Store α × HPVec α))) =
                    .ok (σ2, w) := h2
                cases hlo : hlowerLoop σ (v.shift - 5) child1 (v.shift - 5) with
                | error e =>
                  rw [hlo] at h3
                  exact Except.noConfusion h3
                | ok node =>
                  rw [hlo] at h3
                  have h4 : Except.ok (σ, (⟨v.size - 1, v.shift - 5, newRoot,
                      node⟩ : HPVec α)) =
                      (.ok (σ2, w) : Except JErr (Store α × HPVec α)) := h3
                  injection h4 with h5
                  injection h5 with h6 h7
                  rw [← h6]
                  exact pres_refl
          · rw [if_neg hlow] at h
            cases hd : deref σ v.root with
            | error e =>
              rw [hd] at h
              exact Except.noConfusion h
            | ok rc =>
              rw [hd] at h
              have h2 : (do
                  let res ← hpopTrieLoop v.shift (σ ++ [rc]) σ.length
                    (v.size - 33) ((v.size - 33) ^^^ (v.size - 33 - 1)) v.shift
                  (.ok (res.1, (⟨v.size - 1, v.shift, .ref σ.length, res.2⟩ :
                    HPVec α)) : Except JErr (Store α × HPVec α))) =
                  .ok (σ2, w) := h
              cases hpt : hpopTrieLoop v.shift (σ ++ [rc]) σ.length
                  (v.size - 33) ((v.size - 33) ^^^ (v.size - 33 - 1)) v.shift with
              | error e =>
                rw [hpt] at h2
                exact Except.noConfusion h2
              | ok res =>
                rw [hpt] at h2
                have h3 : Except.ok (res.1, (⟨v.size - 1, v.shift,
                    .ref σ.length, res.2⟩ : HPVec α)) =
                    (.ok (σ2, w) : Except JErr (Store α × HPVec α)) := h2
                injection h3 with h4
                injection h4 with h5 h6
                rw [← h5]
                obtain ⟨σ3, leaf⟩ := res
                exact pres_trans (pres_alloc (le_refl _))
                  (hpopTrieLoop_pres v.shift hpt
                    (by rw [List.length_append]; omega) (le_refl _))

/-!
## The claims
-/

/-- A small concrete valid snapshot, shared by the witnesses below. -/
theorem valid_one : Valid (⟨1, 0, .arr [], .arr [.elem 0]⟩ : PVec Nat) [0] :=
  ⟨rfl, rfl, Or.inl ⟨rfl, rfl, rfl⟩⟩

set_option maxRecDepth 1000000 in
/-- C1: the claim that `push` always succeeds (in particular on the
tail-absorbing path) is REFUTED by the code: `#pushLeaf` tests a child
slot with `child === null`, but the never-assigned holes of a sparse
`new Array(32)` root read as `undefined`, so the first push that must
descend through such a hole (the 2081st consecutive push, whose absorb
path reads root slot `(2079 >>> 10) & 31 = 2` of the sparse root
created at the height growth at size 1056) spreads `undefined` and
throws a TypeError instead of returning a snapshot.  Pushing 2080
elements still succeeds; pushing 2081 throws. -/
theorem claim1 : (buildN 2080).isOk = true ∧
    buildN 2081 = .error .typeError := by
  constructor
  · decide
  · rfl

/-- C2: on a valid snapshot, `set(i, x)` succeeds for every in-bounds
`i`, the updated snapshot reads `x` at `i`, and reads at every other
valid index are unchanged. -/
theorem claim2 {α : Type} {v : PVec α} {l : List α} (hv : Valid v l)
    (i : Nat) (hi : i < l.length) (x : α) :
    ∃ w, v.set (i : Int) x = .ok w ∧
      w.get (i : Int) = .ok (.elem x) ∧
      ∀ j : Nat, j < l.length → j ≠ i → w.get (j : Int) = v.get (j : Int) := by
  obtain ⟨w, hset, hvw⟩ := set_ok hv hi x
  have hilen : i < (l.set i x).length := by
    rw [List.length_set]
    exact hi
  refine ⟨w, hset, ?_, ?_⟩
  · rw [get_ok hvw hilen]
    have hx : (l.set i x).get ⟨i, hilen⟩ = x := by
      rw [List.get_eq_getElem, List.getElem_set_self]
    rw [hx]
  · intro j hj hne
    have hjlen : j < (l.set i x).length := by
      rw [List.length_set]
      exact hj
    rw [get_ok hvw hjlen, get_ok hv hj]
    have hx : (l.set i x).get ⟨j, hjlen⟩ = l.get ⟨j, hj⟩ := by
      rw [List.get_eq_getElem, List.get_eq_getElem,
        List.getElem_set_ne (fun h => hne h.symm)]
    rw [hx]

theorem claim2_witness : ∃ w,
    (⟨1, 0, .arr [], .arr [.elem 0]⟩ : PVec Nat).set ((0 : Nat) : Int) 7 =
      .ok w ∧
    w.get ((0 : Nat) : Int) = .ok (.elem 7) ∧
    ∀ j : Nat, j < ([0] : List Nat).length → j ≠ 0 →
      w.get (j : Int) = (⟨1, 0, .arr [], .arr [.elem 0]⟩ : PVec Nat).get (j : Int) :=
  claim2 valid_one 0 (by decide) 7

/-- C3: a vector built by pushing `0..N-1` onto the empty vector (for
any `N` at which the build succeeds) is traversed by the sequential
cursor exactly as by reading `get(0), ..., get(N-1)` in order: both
give the sequence `0..N-1`. -/
theorem claim3 (N : Nat) (v : PVec Nat) (hb : buildN N = .ok v) :
    v.iterate = (List.range N).map JVal.elem ∧
    ∀ i : Nat, i < N → v.get (i : Int) = .ok (.elem i) := by
  have hv := fromList_ok hb
  constructor
  · exact iterate_ok hv
  · intro i hi
    have hi2 : i < (List.range N).length := by
      rw [List.length_range]
      exact hi
    rw [get_ok hv hi2, List.get_eq_getElem, List.getElem_range]

theorem claim3_witness : ∃ v : PVec Nat, buildN 33 = .ok v ∧
    (v.iterate = (List.range 33).map JVal.elem ∧
     ∀ i : Nat, i < 33 → v.get (i : Int) = .ok (.elem i)) := by
  have hok : (buildN 33).isOk = true := by decide
  cases hb : buildN 33 with
  | error e =>
    rw [hb] at hok
    exact Bool.noConfusion hok
  | ok v =>
    exact ⟨v, rfl, claim3 33 v hb⟩

/-- C4: the push/pop round trip: whenever `push` returns a snapshot,
popping it gives a snapshot element-wise equal (`isEqualTo`) to the
original. -/
theorem claim4 {α : Type} [DecidableEq α] {v w : PVec α} {l : List α}
    (hv : Valid v l) {x : α} (hw : v.push x = .ok w) :
    ∃ u, w.pop = .ok u ∧ u.isEqualTo v = .ok true := by
  have hvw := push_ok hv hw
  obtain ⟨u, hpop, hvu⟩ := pop_ok hvw
    (by rw [List.length_append, List.length_singleton]; omega)
  refine ⟨u, hpop, ?_⟩
  rw [List.dropLast_concat] at hvu
  exact isEqualTo_true hvu hv

theorem claim4_witness : ∃ u,
    (⟨1, 0, .arr [], .arr [.elem 0]⟩ : PVec Nat).pop = .ok u ∧
    u.isEqualTo PVec.empty = .ok true :=
  claim4 valid_empty
    (show PVec.empty.push 0 = .ok ⟨1, 0, .arr [], .arr [.elem 0]⟩ from rfl)

/-- C5: on a valid snapshot, `get`/`set` raise `IndexOutOfRange`
(`JErr.bounds`, from the `#boundsCheck` performed before any tail or
trie access) exactly when the index is negative or at least the
size. -/
theorem claim5 {α : Type} {v : PVec α} {l : List α} (hv : Valid v l)
    (i : Int) (x : α) :
    (v.get i = .error .bounds ↔ (i < 0 ∨ (l.length : Int) ≤ i)) ∧
    (v.set i x = .error .bounds ↔ (i < 0 ∨ (l.length : Int) ≤ i)) := by
  have hoob : (i < 0 ∨ (l.length : Int) ≤ i) →
      ((v.size : Int) ≤ i ∨ i < 0) := by
    intro h
    rcases h with h | h
    · exact Or.inr h
    · refine Or.inl ?_
      rw [hv.hsize]
      exact h
  constructor
  · constructor
    · intro herr
      by_contra hin
      push_neg at hin
      obtain ⟨h0, hlt⟩ := hin
      have hi2 : i.toNat < l.length := by omega
      rw [show i = ((i.toNat : Nat) : Int) by omega, get_ok hv hi2] at herr
      exact Except.noConfusion herr
    · intro h
      show (if (v.size : Int) ≤ i ∨ i < 0 then (.error .bounds :
        Except JErr (JVal α)) else _) = _
      rw [if_pos (hoob h)]
  · constructor
    · intro herr
      by_contra hin
      push_neg at hin
      obtain ⟨h0, hlt⟩ := hin
      have hi2 : i.toNat < l.length := by omega
      obtain ⟨w, hset, _⟩ := set_ok hv hi2 x
      rw [show i = ((i.toNat : Nat) : Int) by omega, hset] at herr
      exact Except.noConfusion herr
    · intro h
      show (if (v.size : Int) ≤ i ∨ i < 0 then (.error .bounds :
        Except JErr (PVec α)) else _) = _
      rw [if_pos (hoob h)]

theorem claim5_witness :
    ((PVec.empty : PVec Nat).get (-1) = .error .bounds ↔
      ((-1 : Int) < 0 ∨ ((([] : List Nat).length : Nat) : Int) ≤ -1)) ∧
    ((PVec.empty : PVec Nat).set (-1) 5 = .error .bounds ↔
      ((-1 : Int) < 0 ∨ ((([] : List Nat).length : Nat) : Int) ≤ -1)) :=
  claim5 valid_empty (-1) 5

/-- C6: `pop` on the empty vector throws `EmptyCollectionError`
(`JErr.empty`), from the size test made before any structural logic;
and `pop` on a vector of size exactly 1 returns the shared empty
snapshot `PVec.empty`. -/
theorem claim6 {α : Type} {v : PVec α} {l : List α} (hv : Valid v l) :
    (l = [] → v.pop = .error .empty) ∧
    (l.length = 1 → v.pop = .ok PVec.empty) := by
  constructor
  · intro h0
    show (if v.size = 0 then (.error .empty : Except JErr (PVec α))
      else _) = _
    rw [if_pos (by rw [hv.hsize, h0]; rfl)]
  · intro h1
    show (if v.size = 0 then (.error .empty : Except JErr (PVec α))
      else if v.size = 1 then .ok PVec.empty else _) = _
    rw [if_neg (by rw [hv.hsize, h1]; decide), if_pos (by rw [hv.hsize, h1])]

theorem claim6_witness :
    (([0] : List Nat) = [] →
      (⟨1, 0, .arr [], .arr [.elem 0]⟩ : PVec Nat).pop = .error .empty) ∧
    (([0] : List Nat).length = 1 →
      (⟨1, 0, .arr [], .arr [.elem 0]⟩ : PVec Nat).pop = .ok PVec.empty) :=
  claim6 valid_one

/-- C7: every snapshot reachable from the empty vector by `push`,
`set` and `pop` satisfies the representation invariants: its `shift`
is a multiple of 5, its tail is an array of exactly
`size - tailOffset` elements (empty at size 0), and the tail holds at
most 32 elements. -/
theorem claim7 {α : Type} {v : PVec α} (hr : Reachable v) :
    (∃ k, v.shift = 5 * k) ∧
    ∃ t, v.tail = .arr t ∧ t.length = v.size - tailOff v.size ∧
      t.length ≤ 32 := by
  obtain ⟨l, hv⟩ := reachable_valid hr
  obtain ⟨hsize, htail, hroot⟩ := hv
  constructor
  · rcases hroot with ⟨_, hsh, _⟩ | ⟨h, hsh, _, _⟩
    · exact ⟨0, by rw [hsh]⟩
    · exact ⟨h, hsh⟩
  · refine ⟨_, htail, ?_, ?_⟩
    · rw [List.length_map, List.length_drop, hsize]
    · rw [List.length_map, List.length_drop]
      rcases Nat.eq_zero_or_pos l.length with h0 | hpos
      · rw [h0]
        omega
      · obtain ⟨hdvd, hle1, hge⟩ := tailOff_spec hpos
        omega

theorem claim7_witness :
    (∃ k, (PVec.empty : PVec Nat).shift = 5 * k) ∧
    ∃ t, (PVec.empty : PVec Nat).tail = .arr t ∧
      t.length = (PVec.empty : PVec Nat).size -
        tailOff (PVec.empty : PVec Nat).size ∧
      t.length ≤ 32 :=
  claim7 Reachable.empty

/-- C8: pushing 33 elements onto the empty vector and popping once
yields exactly the snapshot of size 32 whose tail is the former root
leaf itself (structurally shared) with root and shift reset to the
empty array and 0, and all 32 reads return the originally pushed
values. -/
theorem claim8 {v : PVec Nat} (hb : buildN 33 = .ok v) :
    v.pop = .ok (⟨32, 0, .arr [], v.root⟩ : PVec Nat) ∧
    ∀ i : Nat, i < 32 →
      (⟨32, 0, .arr [], v.root⟩ : PVec Nat).get (i : Int) = .ok (.elem i) := by
  have hv : Valid v (List.range 33) := fromList_ok hb
  have hs33 : v.size = 33 := by rw [hv.hsize, List.length_range]
  have hpop : v.pop = .ok (⟨32, 0, .arr [], v.root⟩ : PVec Nat) := by
    show (if v.size = 0 then (.error .empty : Except JErr (PVec Nat))
      else if v.size = 1 then .ok PVec.empty
      else if 0 < (v.size - 1) % 32 then do
        let t ← spread v.tail
        .ok ⟨v.size - 1, v.shift, v.root, .arr (t.take (t.length - 1))⟩
      else if v.size - 33 = 0 then .ok ⟨32, 0, .arr [], v.root⟩
      else if v.size - 33 = 1 <<< v.shift then do
        let newRoot ← jIndex v.root 0
        let child1 ← jIndex v.root 1
        let node ← lowerLoop (v.shift - 5) child1 (v.shift - 5)
        .ok ⟨v.size - 1, v.shift - 5, newRoot, node⟩
      else do
        let r ← spread v.root
        let res ← popTrieLoop v.shift r (v.size - 33)
          ((v.size - 33) ^^^ (v.size - 33 - 1)) v.shift
        .ok ⟨v.size - 1, v.shift, .arr res.1, res.2⟩) = _
    rw [if_neg (show ¬ v.size = 0 by rw [hs33]; decide),
      if_neg (show ¬ v.size = 1 by rw [hs33]; decide),
      if_neg (show ¬ 0 < (v.size - 1) % 32 by rw [hs33]; decide),
      if_pos (show v.size - 33 = 0 by rw [hs33])]
  refine ⟨hpop, ?_⟩
  obtain ⟨w2, hpop2, hvw⟩ := pop_ok hv (by rw [List.length_range]; omega)
  have hw2 : w2 = (⟨32, 0, .arr [], v.root⟩ : PVec Nat) := by
    have h2 := hpop2.symm.trans hpop
    injection h2
  rw [hw2] at hvw
  have hdl : (List.range 33).dropLast = List.range 32 := by
    rw [show (33 : Nat) = 32 + 1 from rfl, List.range_succ,
      List.dropLast_concat]
  rw [hdl] at hvw
  intro i hi
  have hi2 : i < (List.range 32).length := by
    rw [List.length_range]
    exact hi
  rw [get_ok hvw hi2, List.get_eq_getElem, List.getElem_range]

theorem claim8_witness : ∃ v : PVec Nat, buildN 33 = .ok v ∧
    (v.pop = .ok (⟨32, 0, .arr [], v.root⟩ : PVec Nat) ∧
     ∀ i : Nat, i < 32 →
       (⟨32, 0, .arr [], v.root⟩ : PVec Nat).get (i : Int) = .ok (.elem i)) := by
  have hok : (buildN 33).isOk = true := by decide
  cases hb : buildN 33 with
  | error e =>
    rw [hb] at hok
    exact Bool.noConfusion hok
  | ok v =>
    exact ⟨v, rfl, claim8 hb⟩

/-- C9: in the heap model, each single mutating operation (`set`,
`push`, `pop`) that returns a result leaves every read of the original
snapshot unchanged: all its in-place array writes land in cells it
allocated itself, so `get` on the old snapshot, which only follows
references into the pre-existing part of the store, returns the same
value in the new store as in the old one. -/
theorem claim9 {α : Type} {σ : Store α} {v : HPVec α}
    (hcs : ClosedStore σ) (hroot : closedVal σ.length v.root = true)
    (htail : closedVal σ.length v.tail = true) (j : Int) :
    (∀ (i : Int) (x : α) (σ2 : Store α) (w : HPVec α),
      HPVec.set σ v i x = .ok (σ2, w) →
      HPVec.get σ2 v j = HPVec.get σ v j) ∧
    (∀ (x : α) (σ2 : Store α) (w : HPVec α),
      HPVec.push σ v x = .ok (σ2, w) →
      HPVec.get σ2 v j = HPVec.get σ v j) ∧
    (∀ (σ2 : Store α) (w : HPVec α),
      HPVec.pop σ v = .ok (σ2, w) →
      HPVec.get σ2 v j = HPVec.get σ v j) :=
  ⟨fun i x σ2 w h => hget_agree (hset_pres h) hcs hroot htail j,
   fun x σ2 w h => hget_agree (hpush_pres h) hcs hroot htail j,
   fun σ2 w h => hget_agree (hpop_pres h) hcs hroot htail j⟩

theorem claim9_witness :
    (∀ (i : Int) (x : Nat) (σ2 : Store Nat) (w : HPVec Nat),
      HPVec.set [[], [HVal.elem 5]] ⟨1, 0, .ref 0, .ref 1⟩ i x = .ok (σ2, w) →
      HPVec.get σ2 ⟨1, 0, .ref 0, .ref 1⟩ 0 =
        HPVec.get [[], [HVal.elem 5]] ⟨1, 0, .ref 0, .ref 1⟩ 0) ∧
    (∀ (x : Nat) (σ2 : Store Nat) (w : HPVec Nat),
      HPVec.push [[], [HVal.elem 5]] ⟨1, 0, .ref 0, .ref 1⟩ x = .ok (σ2, w) →
      HPVec.get σ2 ⟨1, 0, .ref 0, .ref 1⟩ 0 =
        HPVec.get [[], [HVal.elem 5]] ⟨1, 0, .ref 0, .ref 1⟩ 0) ∧
    (∀ (σ2 : Store Nat) (w : HPVec Nat),
      HPVec.pop [[], [HVal.elem 5]] ⟨1, 0, .ref 0, .ref 1⟩ = .ok (σ2, w) →
      HPVec.get σ2 ⟨1, 0, .ref 0, .ref 1⟩ 0 =
        HPVec.get [[], [HVal.elem 5]] ⟨1, 0, .ref 0, .ref 1⟩ 0) :=
  claim9 (by unfold ClosedStore; decide) (by decide) (by decide) 0

/-- C10: on every reachable snapshot, the in-bounds read is total: the
trie descent of `get` never dereferences an unset slot (`undefined`
hole or `null` unlinked by `pop`), so `get(i)` returns an element (no
TypeError) for every `i < size`. -/
theorem claim10 {α : Type} {v : PVec α} (hr : Reachable v) (i : Nat)
    (hi : i < v.size) : ∃ x : α, v.get (i : Int) = .ok (.elem x) := by
  obtain ⟨l, hv⟩ := reachable_valid hr
  have hi2 : i < l.length := by
    rw [← hv.hsize]
    exact hi
  exact ⟨_, get_ok hv hi2⟩

theorem claim10_witness : ∃ x : Nat,
    (⟨1, 0, .arr [], .arr [.elem 0]⟩ : PVec Nat).get ((0 : Nat) : Int) =
      .ok (.elem x) :=
  claim10 (Reachable.push Reachable.empty
    (show PVec.empty.push 0 = .ok ⟨1, 0, .arr [], .arr [.elem 0]⟩ from rfl))
    0 (by decide)

end PV